import Mathlib

/-!
ToDoApp: the task store of `task_manager.hpp`.

A shallow embedding of `TaskManager` and of the structures it owns (`Task`,
`UndoAction`, `Stack`, `MinHeap`, `TaskList`, `Date`), followed by the
properties proved about it.

Conventions of the embedding.

* C++ `int` is `Int`.  Signed overflow is undefined behaviour in C++, so the
  embedding describes the executions in which no counter leaves the `int`
  range.
* `std::vector<Task>` is `List Task`; an iterator returned by `std::find_if`
  is `Option Nat` (`none` is `end()`).
* The fixed arrays of `Stack` and `MinHeap` are lists holding the live slots
  only (`top + 1`, respectively `size`, elements).  Slots past the live part
  are never read by the source before they are written.
* `std::sort` is library code; its embedding follows libstdc++ (see the
  section on the library call).
* A member function that mutates the object takes the state and returns the
  new state.  `addTask`, which can throw, returns the outcome together with
  the state the store is left in.
-/

namespace ToDoApp

/-- The constant `MAX_SIZE` of the source. -/
def MAX_SIZE : Nat := 100

/-! ## Date -/

/-- The class `Date`: three plain integers. -/
structure Date where
  year : Int
  month : Int
  day : Int
deriving DecidableEq, Repr

/-- The characters `isspace` accepts, which `%d` skips before a number. -/
def isSpaceChar (c : Char) : Bool :=
  c == ' ' || c == '\t' || c == '\n' || c == '\r' || c.toNat == 11 || c.toNat == 12

/-- Value of the longest run of decimal digits at the front of the input,
together with the number of digits read and the rest of the input. -/
def scanDigits : List Char → Nat → Nat → Nat × Nat × List Char
  | [], acc, n => (acc, n, [])
  | c :: cs, acc, n =>
    if c.isDigit then scanDigits cs (10 * acc + (c.toNat - 48)) (n + 1)
    else (acc, n, c :: cs)

/-- One `%d` conversion of `sscanf`: skip white space, read an optional sign,
then at least one digit.  `none` is a matching failure. -/
def scanInt (cs : List Char) : Option (Int × List Char) :=
  let cs := cs.dropWhile isSpaceChar
  let signed : Bool × List Char :=
    match cs with
    | '-' :: r => (true, r)
    | '+' :: r => (false, r)
    | r => (false, r)
  match scanDigits signed.2 0 0 with
  | (_, 0, _) => none
  | (v, _ + 1, r) => some (if signed.1 then - (v : Int) else (v : Int), r)

/-- A literal character of the format string: it has to be the next
character of the input. -/
def scanLit (c : Char) : List Char → Option (List Char)
  | [] => none
  | d :: ds => if d = c then some ds else none

/-- The characters of `dateString.c_str()` that `sscanf` sees: the string up
to its first NUL character. -/
def cStr (s : String) : List Char := s.toList.takeWhile (fun c => c != Char.ofNat 0)

/-- The constructor `Date(string)`, that is `sscanf(s, "%d-%d-%d", ...)`.
The fields `sscanf` does not reach stay unassigned in the source (their value
is indeterminate); the embedding reads them as `0`. -/
def Date.parse (dateString : String) : Date :=
  match scanInt (cStr dateString) with
  | none => ⟨0, 0, 0⟩
  | some (y, r1) =>
    match (scanLit '-' r1).bind scanInt with
    | none => ⟨y, 0, 0⟩
    | some (m, r2) =>
      match (scanLit '-' r2).bind scanInt with
      | none => ⟨y, m, 0⟩
      | some (d, _) => ⟨y, m, d⟩

/-- The method `Date::isLessThan`. -/
def Date.isLessThan (self other : Date) : Bool :=
  if self.year ≠ other.year then decide (self.year < other.year)
  else if self.month ≠ other.month then decide (self.month < other.month)
  else decide (self.day < other.day)

/-- The strings of the shape `YYYY-MM-DD`: four decimal digits, `-`, two
decimal digits, `-`, two decimal digits.  On these `sscanf` assigns the three
fields of a `Date`. -/
def Date.wellFormed (dateString : String) : Bool :=
  match dateString.toList with
  | [y1, y2, y3, y4, s1, m1, m2, s2, d1, d2] =>
    y1.isDigit && y2.isDigit && y3.isDigit && y4.isDigit && s1 == '-' &&
      m1.isDigit && m2.isDigit && s2 == '-' && d1.isDigit && d2.isDigit
  | _ => false

/-- The character of the last decimal digit of a number. -/
def digitChar (n : Nat) : Char := Char.ofNat (48 + n % 10)

/-- The decimal digits of a number, the last one first; one digit per unit
of fuel. -/
def digitsRev : Nat → Nat → List Char
  | 0, _ => []
  | fuel + 1, n => digitChar n :: (if n / 10 = 0 then [] else digitsRev fuel (n / 10))

/-- The decimal digits of a number, as `%d` prints them.  A number `n` has at
most `n + 1` digits (`digitsRev_fuel`). -/
def natDigits (n : Nat) : List Char := (digitsRev (n + 1) n).reverse

/-- The conversion `%0<width>d` of `sprintf`: the sign if the number is
negative, then the digits, with zeros in front of them up to the width. -/
def fmtInt (width : Nat) (n : Int) : List Char :=
  if n < 0 then
    '-' :: (List.replicate (width - 1 - (natDigits n.natAbs).length) '0' ++ natDigits n.natAbs)
  else List.replicate (width - (natDigits n.toNat).length) '0' ++ natDigits n.toNat

/-- The method `Date::toString`, that is `sprintf(buffer, "%04d-%02d-%02d",
...)`.  The buffer has 11 bytes: the embedding describes the calls whose
output has at most 10 characters. -/
def Date.toString (self : Date) : String :=
  String.mk (fmtInt 4 self.year ++ '-' :: (fmtInt 2 self.month ++ '-' :: fmtInt 2 self.day))

/-- The method `Date::addDays`. -/
def Date.addDays (self : Date) (days : Int) : Date :=
  let self := { self with day := self.day + days }
  let self :=
    if self.day > 30 then { self with month := self.month + 1, day := self.day - 30 }
    else self
  if self.month > 12 then { self with year := self.year + 1, month := 1 } else self

/-- The call `std::stoi(str)`: `strtol` skips white space, reads an optional
sign and then the digits, and leaves the rest of the string alone; `none`
stands for the exception thrown when there is no digit to read.  The strings
converted here have at most four characters, so the value is in the range of
`int`. -/
def stoi (str : List Char) : Option Int :=
  (scanInt (str.takeWhile (fun c => c != Char.ofNat 0))).map (fun r => r.1)

/-- The call `str.substr(pos, len)`. -/
def substr (str : List Char) (pos len : Nat) : List Char := (str.drop pos).take len

/-- The method `isValidDate` of the graphical shell (`gui_main.cpp`); the
`catch (...)` branch is the case where a conversion gives `none`. -/
def isValidDate (date : String) : Bool :=
  if date.toList.length ≠ 10 then false
  else if date.toList.getD 4 ' ' ≠ '-' ∨ date.toList.getD 7 ' ' ≠ '-' then false
  else
    match stoi (substr date.toList 0 4), stoi (substr date.toList 5 2),
      stoi (substr date.toList 8 2) with
    | some year, some month, some day =>
      decide (year ≥ 2024) && decide (month ≥ 1) && decide (month ≤ 12) &&
        decide (day ≥ 1) && decide (day ≤ 31)
    | _, _, _ => false

/-! ## Task and UndoAction -/

/-- The struct `Task`. -/
structure Task where
  id : Int
  title : String
  description : String
  deadline : String
  priority : Int
  completed : Bool
deriving DecidableEq, Repr

/-- The default constructor `Task()`. -/
def Task.default : Task := ⟨0, "", "", "", 1, false⟩

instance : Inhabited Task := ⟨Task.default⟩

/-- The constructor `Task(_id, _title, _desc, _deadline, _priority)`. -/
def Task.new (id : Int) (title desc deadline : String) (priority : Int) : Task :=
  ⟨id, title, desc, deadline, priority, false⟩

/-- The class `UndoAction`. -/
structure UndoAction where
  type : String
  before : Task
  after : Task
deriving DecidableEq, Repr

/-- The default constructor `UndoAction()`. -/
def UndoAction.default : UndoAction := ⟨"", Task.default, Task.default⟩

instance : Inhabited UndoAction := ⟨UndoAction.default⟩

/-! ## Stack -/

/-- The class `Stack`.  `items` lists `stack[top], ..., stack[0]`, so the
member `top` of the source is `items.length - 1`. -/
structure Stack where
  items : List UndoAction
deriving DecidableEq, Repr

/-- The constructor `Stack()`: `top = -1`. -/
def Stack.empty : Stack := ⟨[]⟩

/-- The method `Stack::isFull`: `top == MAX_SIZE - 1`. -/
def Stack.isFull (s : Stack) : Bool := s.items.length == MAX_SIZE

/-- The method `Stack::isEmpty`: `top == -1`. -/
def Stack.isEmpty (s : Stack) : Bool := s.items.length == 0

/-- The method `Stack::push`: a full stack drops the value. -/
def Stack.push (value : UndoAction) (s : Stack) : Stack :=
  if s.isFull then s else ⟨value :: s.items⟩

/-- The method `Stack::pop`: an empty stack gives `UndoAction()`. -/
def Stack.pop (s : Stack) : UndoAction × Stack :=
  match s.items with
  | [] => (UndoAction.default, s)
  | a :: rest => (a, ⟨rest⟩)

/-! ## MinHeap -/

/-- The class `MinHeap`.  `heap` holds the slots `0 .. size - 1` of the array
of the source, so the member `size` is `heap.length`. -/
structure MinHeap where
  heap : List Task
deriving DecidableEq, Repr

/-- The constructor `MinHeap()`: `size = 0`. -/
def MinHeap.empty : MinHeap := ⟨[]⟩

/-- The member `size`. -/
def MinHeap.size (h : MinHeap) : Nat := h.heap.length

/-- The method `MinHeap::parent`. -/
def MinHeap.parent (i : Nat) : Nat := (i - 1) / 2

/-- The method `MinHeap::left`. -/
def MinHeap.left (i : Nat) : Nat := 2 * i + 1

/-- The method `MinHeap::right`. -/
def MinHeap.right (i : Nat) : Nat := 2 * i + 2

/-- The value of `heap[i].priority`. -/
def priorityAt (h : List Task) (i : Nat) : Int := (h.getD i Task.default).priority

/-- The call `swap(heap[i], heap[j])`. -/
def swapAt (h : List Task) (i j : Nat) : List Task :=
  (h.set i (h.getD j Task.default)).set j (h.getD i Task.default)

/-- The `while` loop of `MinHeap::shiftUp`, one iteration per unit of fuel. -/
def shiftUpLoop : Nat → List Task → Nat → List Task
  | 0, h, _ => h
  | fuel + 1, h, i =>
    if 0 < i ∧ priorityAt h (MinHeap.parent i) > priorityAt h i then
      shiftUpLoop fuel (swapAt h i (MinHeap.parent i)) (MinHeap.parent i)
    else h

/-- The method `MinHeap::shiftUp`.  Every iteration moves `i` to
`parent i < i`, so `i` units of fuel are never used up
(`shiftUpLoop_fuel`). -/
def shiftUp (h : List Task) (i : Nat) : List Task := shiftUpLoop i h i

/-- The method `MinHeap::insert`: a heap of `MAX_SIZE` elements ignores the
task. -/
def MinHeap.insert (task : Task) (h : MinHeap) : MinHeap :=
  if h.size ≥ MAX_SIZE then h
  else ⟨shiftUp (h.heap ++ [task]) h.size⟩

/-- The recursion of `MinHeap::shiftDown`, one call per unit of fuel.  The
heap has `h.length` live elements. -/
def shiftDownLoop : Nat → List Task → Nat → List Task
  | 0, h, _ => h
  | fuel + 1, h, i =>
    let l := MinHeap.left i
    let r := MinHeap.right i
    let smallest := if l < h.length ∧ priorityAt h l < priorityAt h i then l else i
    let smallest :=
      if r < h.length ∧ priorityAt h r < priorityAt h smallest then r else smallest
    if smallest ≠ i then shiftDownLoop fuel (swapAt h i smallest) smallest else h

/-- The method `MinHeap::shiftDown`.  Every call moves `i` to a child of `i`,
so `h.length` units of fuel are never used up (`shiftDownLoop_fuel`). -/
def shiftDown (h : List Task) (i : Nat) : List Task := shiftDownLoop h.length h i

/-- The method `MinHeap::extractMin`: the returned task and the heap after the
call.  An empty heap gives `Task()`. -/
def MinHeap.extractMin (h : MinHeap) : Task × MinHeap :=
  if h.size = 0 then (Task.default, h)
  else
    let root := h.heap.getD 0 Task.default
    let moved := h.heap.set 0 (h.heap.getD (h.size - 1) Task.default)
    (root, ⟨shiftDown moved.dropLast 0⟩)

/-- The method `MinHeap::empty`. -/
def MinHeap.isEmpty (h : MinHeap) : Bool := h.size == 0

/-- The heap after `n` successive calls of `extractMin`, with the tasks they
return, first call first. -/
def drain : Nat → MinHeap → List Task × MinHeap
  | 0, h => ([], h)
  | n + 1, h => ((h.extractMin).1 :: (drain n (h.extractMin).2).1, (drain n (h.extractMin).2).2)

/-- The line `MinHeap::display` prints for a task. -/
def displayLine (task : Task) : String :=
  "- " ++ task.title ++ " (Priority: " ++ String.mk (fmtInt 0 task.priority) ++ ")"

/-- The loop `while (!tempHeap.empty())` of `MinHeap::display`, one turn per
unit of fuel: the lines printed. -/
def displayLoop : Nat → MinHeap → List String
  | 0, _ => []
  | fuel + 1, tempHeap =>
    if tempHeap.isEmpty then []
    else displayLine (tempHeap.extractMin).1 :: displayLoop fuel (tempHeap.extractMin).2

/-- The method `MinHeap::display`: the lines it prints and the heap it is
called on.  The loop runs on the copy `tempHeap`; every turn takes one task
out of the copy, so `size` units of fuel are enough (`displayLoop_fuel`). -/
def MinHeap.display (h : MinHeap) : List String × MinHeap := (displayLoop h.size h, h)

/-! ## TaskList -/

/-- The class `TaskList`: the tasks of the nodes from `head` to `tail`, and
the list's own counter `nextId`. -/
structure TaskList where
  nodes : List Task
  nextId : Int
deriving DecidableEq, Repr

/-- The constructor `TaskList()`. -/
def TaskList.empty : TaskList := ⟨[], 1⟩

/-- The method `TaskList::insert`: link a new node after `tail`. -/
def TaskList.insert (task : Task) (l : TaskList) : TaskList :=
  ⟨l.nodes ++ [task], l.nextId⟩

/-! ## TaskManager -/

/-- The class `TaskManager`. -/
structure TaskManager where
  tasks : List Task
  nextId : Int
  list : TaskList
  heap : MinHeap
  undoActions : Stack
  redoActions : Stack
deriving DecidableEq, Repr

/-- The constructor `TaskManager()`. -/
def TaskManager.new : TaskManager :=
  ⟨[], 1, TaskList.empty, MinHeap.empty, Stack.empty, Stack.empty⟩

/-- The rebuilt `TaskList` of `syncDataStructures`. -/
def rebuildList (tasks : List Task) : TaskList :=
  tasks.foldl (fun l task => l.insert task) TaskList.empty

/-- The rebuilt `MinHeap` of `syncDataStructures`: the pending tasks, inserted
in collection order. -/
def rebuildHeap (tasks : List Task) : MinHeap :=
  tasks.foldl (fun h task => if !task.completed then h.insert task else h) MinHeap.empty

/-- The method `TaskManager::syncDataStructures`. -/
def syncDataStructures (s : TaskManager) : TaskManager :=
  { s with list := rebuildList s.tasks, heap := rebuildHeap s.tasks }

/-- The call `std::find_if(tasks.begin(), tasks.end(), pred)`: the index of
the first task that satisfies `pred`, `none` for `tasks.end()`. -/
def find_if (pred : Task → Bool) : List Task → Option Nat
  | [] => none
  | t :: ts => if pred t then some 0 else (find_if pred ts).map (· + 1)

/-- The method `TaskManager::addTask`.  The outcome is the returned id, or
the message of the `std::invalid_argument` thrown; the second component is
the store after the call. -/
def addTask (title desc deadline : String) (priority : Int) (s : TaskManager) :
    Except String Int × TaskManager :=
  if title = "" then (.error "Title cannot be empty", s)
  else if priority < 1 ∨ priority > 10 then
    (.error "Priority must be between 1 and 10", s)
  else
    let newTask := Task.new s.nextId title desc deadline priority
    let action : UndoAction := ⟨"add", Task.default, newTask⟩
    let s := { s with undoActions := s.undoActions.push action }
    let s := { s with tasks := s.tasks ++ [newTask] }
    let s := syncDataStructures s
    (.ok s.nextId, { s with nextId := s.nextId + 1 })

/-- The method `TaskManager::deleteTask`. -/
def deleteTask (id : Int) (s : TaskManager) : TaskManager :=
  match find_if (fun task => task.id == id) s.tasks with
  | none => s
  | some it =>
    let action : UndoAction := ⟨"delete", s.tasks.getD it Task.default, Task.default⟩
    let s := { s with undoActions := s.undoActions.push action }
    let s := { s with tasks := s.tasks.eraseIdx it }
    syncDataStructures s

/-- The method `TaskManager::updateTask`. -/
def updateTask (id : Int) (title desc deadline : String) (priority : Int)
    (s : TaskManager) : TaskManager :=
  match find_if (fun task => task.id == id) s.tasks with
  | none => s
  | some it =>
    let beforeTask := s.tasks.getD it Task.default
    let afterTask := { beforeTask with
      title := title, description := desc, deadline := deadline, priority := priority }
    let s := { s with tasks := s.tasks.set it afterTask }
    let action : UndoAction := ⟨"edit", beforeTask, afterTask⟩
    let s := { s with undoActions := s.undoActions.push action }
    syncDataStructures s

/-- The method `TaskManager::markTaskCompleted`. -/
def markTaskCompleted (id : Int) (s : TaskManager) : TaskManager :=
  match find_if (fun task => task.id == id) s.tasks with
  | none => s
  | some it =>
    let beforeTask := s.tasks.getD it Task.default
    let afterTask := { beforeTask with completed := true }
    let s := { s with tasks := s.tasks.set it afterTask }
    let action : UndoAction := ⟨"edit", beforeTask, afterTask⟩
    let s := { s with undoActions := s.undoActions.push action }
    syncDataStructures s

/-- The method `TaskManager::getAllTasks`. -/
def getAllTasks (s : TaskManager) : List Task := s.tasks

/-- The method `TaskManager::getPendingTasks`. -/
def getPendingTasks (s : TaskManager) : List Task :=
  s.tasks.filter (fun task => !task.completed)

/-- The method `TaskManager::getCompletedTasks`. -/
def getCompletedTasks (s : TaskManager) : List Task :=
  s.tasks.filter (fun task => task.completed)

/-- The search of `std::string::find`: the position of the first place from
which `q` is a prefix of the rest of the string, counted from `i`. -/
def findFrom (q : List Char) : List Char → Nat → Option Nat
  | [], i => if q.isPrefixOf [] then some i else none
  | c :: cs, i => if q.isPrefixOf (c :: cs) then some i else findFrom q cs (i + 1)

/-- The call `s.find(q)` of `std::string`: the position of the first
occurrence of `q` in `s`, `none` for `npos`.  The characters of the string
are the units of the comparison. -/
def stringFind (s q : String) : Option Nat := findFrom q.toList s.toList 0

/-- The method `TaskManager::searchTasks`. -/
def searchTasks (query : String) (s : TaskManager) : List Task :=
  s.tasks.filter (fun task =>
    (stringFind task.title query).isSome || (stringFind task.description query).isSome)

/-! ## The library call `std::sort`

`getTasksByPriority` and `sortByDeadline` call `std::sort`, which is library
code: the standard asks for a sorted rearrangement of the range and leaves the
order of equivalent elements open.  The embedding follows the implementation
of GCC's libstdc++ (`bits/stl_algo.h` and `bits/stl_heap.h`): an introsort,
that is a quicksort with median-of-three pivots on ranges of more than 16
elements, a heap sort once the depth limit `2 * lg n` is used up, and a final
insertion sort.  Arrays are lists and iterators are positions in the list. -/

/-- The call `std::iter_swap(a, b)` on two positions of an array; positions
outside the array, which the library never passes, leave it as it is. -/
def iter_swap {α : Type} (l : List α) (i j : Nat) : List α :=
  match l[i]?, l[j]? with
  | some a, some b => (l.set i b).set j a
  | _, _ => l

/-- The comparison `comp(a, b)` of the elements at two positions of an array. -/
def compAt {α : Type} (comp : α → α → Bool) (l : List α) (i j : Nat) : Bool :=
  match l[i]?, l[j]? with
  | some a, some b => comp a b
  | _, _ => false

/-- The function `std::__move_median_to_first`. -/
def move_median_to_first {α : Type} (comp : α → α → Bool) (l : List α)
    (result a b c : Nat) : List α :=
  if compAt comp l a b then
    if compAt comp l b c then iter_swap l result b
    else if compAt comp l a c then iter_swap l result c
    else iter_swap l result a
  else if compAt comp l a c then iter_swap l result a
  else if compAt comp l b c then iter_swap l result c
  else iter_swap l result b

/-- The loop `while (comp(first, pivot)) ++first;` of
`std::__unguarded_partition`, run over the elements from `first` on. -/
def scan_up {α : Type} (comp : α → α → Bool) (pivot : α) : List α → Nat → Nat
  | [], first => first
  | x :: xs, first => if comp x pivot then scan_up comp pivot xs (first + 1) else first

/-- The loop `while (comp(pivot, last)) --last;` of
`std::__unguarded_partition`, run over the elements from `last` down. -/
def scan_down {α : Type} (comp : α → α → Bool) (pivot : α) : List α → Nat → Nat
  | [], last => last
  | x :: xs, last => if comp pivot x then scan_down comp pivot xs (last - 1) else last

/-- The function `std::__unguarded_partition`, one turn of its outer loop per
unit of fuel; it returns the cut and the array. -/
def unguarded_partition {α : Type} (comp : α → α → Bool) :
    Nat → List α → Nat → Nat → Nat → Nat × List α
  | 0, l, first, _, _ => (first, l)
  | fuel + 1, l, first, last, pivot =>
    match l[pivot]? with
    | none => (first, l)
    | some p =>
      let first := scan_up comp p (l.drop first) first
      let last := scan_down comp p (l.take last).reverse (last - 1)
      if first < last then
        unguarded_partition comp fuel (iter_swap l first last) (first + 1) last pivot
      else (first, l)

/-- The function `std::__unguarded_partition_pivot`.  The partition of
`[first + 1, last)` gets `last - first + 1` units of fuel, which is enough
by `unguarded_partition_fuel`. -/
def unguarded_partition_pivot {α : Type} (comp : α → α → Bool) (l : List α)
    (first last : Nat) : Nat × List α :=
  let mid := first + (last - first) / 2
  let l := move_median_to_first comp l first (first + 1) mid (last - 1)
  unguarded_partition comp (last - first + 1) l (first + 1) last first

/-- The function `std::__push_heap`, one turn of its loop per unit of fuel.
The library keeps `value` aside and moves elements into the hole; here the
value sits in the hole, so that a move into the hole is a swap. -/
def push_heap {α : Type} (comp : α → α → Bool) (first topIndex : Nat) :
    Nat → List α → Nat → List α
  | 0, l, _ => l
  | fuel + 1, l, holeIndex =>
    let parent := (holeIndex - 1) / 2
    if holeIndex > topIndex ∧ compAt comp l (first + parent) (first + holeIndex) then
      push_heap comp first topIndex fuel
        (iter_swap l (first + holeIndex) (first + parent)) parent
    else l

/-- The first loop of `std::__adjust_heap`, one turn per unit of fuel; it
returns the hole and the array. -/
def adjust_heap_loop {α : Type} (comp : α → α → Bool) (first len : Nat) :
    Nat → List α → Nat → Nat × List α
  | 0, l, holeIndex => (holeIndex, l)
  | fuel + 1, l, holeIndex =>
    if holeIndex < (len - 1) / 2 then
      let secondChild := 2 * (holeIndex + 1)
      let secondChild :=
        if compAt comp l (first + secondChild) (first + (secondChild - 1)) then secondChild - 1
        else secondChild
      adjust_heap_loop comp first len fuel
        (iter_swap l (first + holeIndex) (first + secondChild)) secondChild
    else (holeIndex, l)

/-- The function `std::__adjust_heap`, with `value` the element in the hole.
The fuel of the two loops is enough by `adjust_heap_loop_fuel` and
`push_heap_fuel`. -/
def adjust_heap {α : Type} (comp : α → α → Bool) (l : List α)
    (first holeIndex len : Nat) : List α :=
  let r := adjust_heap_loop comp first len len l holeIndex
  let r :=
    if len % 2 = 0 ∧ r.1 = (len - 2) / 2 then
      (2 * (r.1 + 1) - 1, iter_swap r.2 (first + r.1) (first + (2 * (r.1 + 1) - 1)))
    else r
  push_heap comp first holeIndex r.1 r.2 r.1

/-- The function `std::__pop_heap`. -/
def pop_heap {α : Type} (comp : α → α → Bool) (l : List α) (first last result : Nat) :
    List α :=
  adjust_heap comp (iter_swap l first result) first 0 (last - first)

/-- The loop of `std::__make_heap`, from `parent` down to 0. -/
def make_heap_loop {α : Type} (comp : α → α → Bool) (first len : Nat) :
    Nat → List α → List α
  | 0, l => adjust_heap comp l first 0 len
  | parent + 1, l =>
    make_heap_loop comp first len parent (adjust_heap comp l first (parent + 1) len)

/-- The function `std::__make_heap`. -/
def make_heap {α : Type} (comp : α → α → Bool) (l : List α) (first last : Nat) : List α :=
  if last - first < 2 then l
  else make_heap_loop comp first (last - first) ((last - first - 2) / 2) l

/-- The function `std::__heap_select`. -/
def heap_select {α : Type} (comp : α → α → Bool) (l : List α)
    (first middle last : Nat) : List α :=
  (List.range' middle (last - middle)).foldl
    (fun l i => if compAt comp l i first then pop_heap comp l first middle i else l)
    (make_heap comp l first middle)

/-- The function `std::__sort_heap`, by recursion on `last - first`. -/
def sort_heap {α : Type} (comp : α → α → Bool) (first : Nat) : Nat → List α → List α
  | k + 2, l =>
    sort_heap comp first (k + 1) (pop_heap comp l first (first + k + 1) (first + k + 1))
  | _, l => l

/-- The heap sort `std::__partial_sort(first, middle, last)`. -/
def heap_sort {α : Type} (comp : α → α → Bool) (l : List α)
    (first middle last : Nat) : List α :=
  sort_heap comp first (middle - first) (heap_select comp l first middle last)

/-- The function `std::__introsort_loop`.  Every turn of its loop decrements
`depth_limit`, so the recursion is on the depth limit. -/
def introsort_loop {α : Type} (comp : α → α → Bool) : Nat → List α → Nat → Nat → List α
  | 0, l, first, last =>
    if last - first > 16 then heap_sort comp l first last last else l
  | depth_limit + 1, l, first, last =>
    if last - first > 16 then
      let r := unguarded_partition_pivot comp l first last
      introsort_loop comp depth_limit
        (introsort_loop comp depth_limit r.2 r.1 last) first r.1
    else l

/-- The function `std::__unguarded_linear_insert`, on the elements before the
one to insert, last one first.  The library relies on an element that stops
the walk; an exhausted walk puts the value first. -/
def unguarded_linear_insert {α : Type} (comp : α → α → Bool) (val : α) : List α → List α
  | [] => [val]
  | x :: xs => if comp val x then x :: unguarded_linear_insert comp val xs else val :: x :: xs

/-- One turn of the loop of `std::__insertion_sort`: `sorted` holds the
elements before `val`, last one first. -/
def insertion_step {α : Type} (comp : α → α → Bool) (sorted : List α) (val : α) : List α :=
  match sorted.getLast? with
  | none => [val]
  | some front =>
    if comp val front then sorted ++ [val] else unguarded_linear_insert comp val sorted

/-- The function `std::__final_insertion_sort` on a whole array. -/
def final_insertion_sort {α : Type} (comp : α → α → Bool) (l : List α) : List α :=
  if l.length > 16 then
    ((l.drop 16).foldl (fun sorted val => unguarded_linear_insert comp val sorted)
      ((l.take 16).foldl (insertion_step comp) [])).reverse
  else (l.foldl (insertion_step comp) []).reverse

/-- The loop behind `std::__lg`. -/
def lg_loop : Nat → Nat → Nat
  | 0, _ => 0
  | fuel + 1, n => if n ≤ 1 then 0 else lg_loop fuel (n / 2) + 1

/-- The function `std::__lg`: the position of the highest set bit
(`lg_spec`). -/
def lg (n : Nat) : Nat := lg_loop n n

/-- The function `std::sort` of libstdc++ (`std::__sort` in `bits/stl_algo.h`). -/
def std_sort {α : Type} (comp : α → α → Bool) (l : List α) : List α :=
  if l.length = 0 then l
  else final_insertion_sort comp (introsort_loop comp (lg l.length * 2) l 0 l.length)

/-! ## Sorted views -/

/-- The comparison `getTasksByPriority` hands to `std::sort`. -/
def priorityLess (a b : Task) : Bool := decide (a.priority < b.priority)

/-- The call `std::sort(prioritized.begin(), prioritized.end(), cmp)` of
`getTasksByPriority`. -/
def sortTasksByPriority (l : List Task) : List Task := std_sort priorityLess l

/-- The method `TaskManager::getTasksByPriority`, a `const` method: it sorts
a copy of `tasks` and returns it. -/
def getTasksByPriority (s : TaskManager) : List Task :=
  sortTasksByPriority s.tasks

/-- The comparison `sortByDeadline` hands to `std::sort`. -/
def deadlineLess (a b : Task) : Bool :=
  (Date.parse a.deadline).isLessThan (Date.parse b.deadline)

/-- The call `std::sort(tasks.begin(), tasks.end(), cmp)` of `sortByDeadline`. -/
def sortTasksByDeadline (l : List Task) : List Task := std_sort deadlineLess l

/-- The method `TaskManager::sortByDeadline`. -/
def sortByDeadline (s : TaskManager) : TaskManager :=
  syncDataStructures { s with tasks := sortTasksByDeadline s.tasks }

/-- The method `TaskManager::editTask`. -/
def editTask (id : Int) (newTitle newDeadline : String) (s : TaskManager) : TaskManager :=
  match find_if (fun task => task.id == id) s.tasks with
  | none => s
  | some it =>
    let beforeTask := s.tasks.getD it Task.default
    let afterTask := { beforeTask with title := newTitle, deadline := newDeadline }
    let s := { s with tasks := s.tasks.set it afterTask }
    let action : UndoAction := ⟨"edit", beforeTask, afterTask⟩
    let s := { s with undoActions := s.undoActions.push action }
    syncDataStructures s

/-- The method `TaskManager::updatePriority`. -/
def updatePriority (id : Int) (newPriority : Int) (s : TaskManager) : TaskManager :=
  match find_if (fun task => task.id == id) s.tasks with
  | none => s
  | some it =>
    let beforeTask := s.tasks.getD it Task.default
    let afterTask := { beforeTask with priority := newPriority }
    let s := { s with tasks := s.tasks.set it afterTask }
    let action : UndoAction := ⟨"edit", beforeTask, afterTask⟩
    let s := { s with undoActions := s.undoActions.push action }
    syncDataStructures s

/-- The change `undo` makes to `tasks` for the popped action. -/
def undoTasks (action : UndoAction) (tasks : List Task) : List Task :=
  if action.type = "add" then
    match find_if (fun task => task.id == action.after.id) tasks with
    | some it => tasks.eraseIdx it
    | none => tasks
  else if action.type = "edit" then
    match find_if (fun task => task.id == action.before.id) tasks with
    | some it => tasks.set it action.before
    | none => tasks
  else if action.type = "delete" then
    tasks ++ [action.before]
  else tasks

/-- The method `TaskManager::undo`. -/
def undo (s : TaskManager) : TaskManager :=
  if !s.undoActions.isEmpty then
    let popped := s.undoActions.pop
    let action := popped.1
    let s := { s with undoActions := popped.2 }
    let s := { s with tasks := undoTasks action s.tasks }
    let s := syncDataStructures s
    { s with redoActions := s.redoActions.push action }
  else s

/-- The change `redo` makes to `tasks` for the popped action. -/
def redoTasks (action : UndoAction) (tasks : List Task) : List Task :=
  if action.type = "add" then
    tasks ++ [action.after]
  else if action.type = "edit" then
    match find_if (fun task => task.id == action.after.id) tasks with
    | some it => tasks.set it action.after
    | none => tasks
  else if action.type = "delete" then
    match find_if (fun task => task.id == action.before.id) tasks with
    | some it => tasks.eraseIdx it
    | none => tasks
  else tasks

/-- The method `TaskManager::redo`. -/
def redo (s : TaskManager) : TaskManager :=
  if !s.redoActions.isEmpty then
    let popped := s.redoActions.pop
    let action := popped.1
    let s := { s with redoActions := popped.2 }
    let s := { s with tasks := redoTasks action s.tasks }
    let s := syncDataStructures s
    { s with undoActions := s.undoActions.push action }
  else s

/-! ## Sequences of calls -/

/-- One call of the public interface of `TaskManager` that can change the
store. -/
inductive Call where
  | addTask (title desc deadline : String) (priority : Int)
  | deleteTask (id : Int)
  | updateTask (id : Int) (title desc deadline : String) (priority : Int)
  | markTaskCompleted (id : Int)
  | editTask (id : Int) (newTitle newDeadline : String)
  | updatePriority (id : Int) (newPriority : Int)
  | sortByDeadline
  | undo
  | redo
deriving DecidableEq, Repr

/-- The store after one call. -/
def Call.apply : Call → TaskManager → TaskManager
  | .addTask title desc deadline priority, s => (ToDoApp.addTask title desc deadline priority s).2
  | .deleteTask id, s => ToDoApp.deleteTask id s
  | .updateTask id title desc deadline priority, s =>
    ToDoApp.updateTask id title desc deadline priority s
  | .markTaskCompleted id, s => ToDoApp.markTaskCompleted id s
  | .editTask id newTitle newDeadline, s => ToDoApp.editTask id newTitle newDeadline s
  | .updatePriority id newPriority, s => ToDoApp.updatePriority id newPriority s
  | .sortByDeadline, s => ToDoApp.sortByDeadline s
  | .undo, s => ToDoApp.undo s
  | .redo, s => ToDoApp.redo s

/-- The store after a sequence of calls, first call first. -/
def run : List Call → TaskManager → TaskManager
  | [], s => s
  | c :: cs, s => run cs (c.apply s)

/-- The ids returned by the successful `addTask` calls of a sequence, in the
order of the calls. -/
def addResults : List Call → TaskManager → List Int
  | [], _ => []
  | c :: cs, s =>
    match c with
    | .addTask title desc deadline priority =>
      match (addTask title desc deadline priority s).1 with
      | .ok id => id :: addResults cs (c.apply s)
      | .error _ => addResults cs (c.apply s)
    | _ => addResults cs (c.apply s)

/-! ## Predicates on the store used in the proofs -/

/-- The derived structures are the ones `syncDataStructures` builds from the
collection. -/
def Synced (s : TaskManager) : Prop :=
  s.heap = rebuildHeap s.tasks ∧ s.list = rebuildList s.tasks

/-- Every id in the collection and in the two histories has been handed out
already: it is below `nextId`. -/
def IdsBelow (s : TaskManager) : Prop :=
  0 < s.nextId ∧ (∀ t ∈ s.tasks, t.id < s.nextId) ∧
  (∀ a ∈ s.undoActions.items, a.before.id < s.nextId ∧ a.after.id < s.nextId) ∧
  (∀ a ∈ s.redoActions.items, a.before.id < s.nextId ∧ a.after.id < s.nextId)

/-- The common shape of `updateTask`, `editTask`, `updatePriority` and
`markTaskCompleted`: the first task with the id is replaced by its image
under `f`, and the pair is recorded as an `edit`. -/
def editWith (f : Task → Task) (id : Int) (s : TaskManager) : TaskManager :=
  match find_if (fun task => task.id == id) s.tasks with
  | none => s
  | some it =>
    syncDataStructures { s with
      tasks := s.tasks.set it (f (s.tasks.getD it Task.default)),
      undoActions := s.undoActions.push
        ⟨"edit", s.tasks.getD it Task.default, f (s.tasks.getD it Task.default)⟩ }

/-- The calls that record an `UndoAction`: every call but `sortByDeadline`,
`undo` and `redo`. -/
def Call.isMutation : Call → Bool
  | .sortByDeadline => false
  | .undo => false
  | .redo => false
  | _ => true

/-- What a recording call can do to the collection, the counter and the
histories: nothing (an `addTask` that throws, an id that is not found), append
a task with the next id, remove the first task with an id, or rewrite the
first task with an id keeping the id. -/
inductive FreshStep (s : TaskManager) : TaskManager → Prop where
  | noop : FreshStep s s
  | add (t : Task) (s2 : TaskManager) :
      t.id = s.nextId → s2.tasks = s.tasks ++ [t] → s2.nextId = s.nextId + 1 →
      s2.undoActions = s.undoActions.push ⟨"add", Task.default, t⟩ →
      s2.redoActions = s.redoActions → FreshStep s s2
  | delete (l1 : List Task) (t : Task) (l2 : List Task) (s2 : TaskManager) :
      s.tasks = l1 ++ t :: l2 → (∀ u ∈ l1, u.id ≠ t.id) →
      s2.tasks = l1 ++ l2 → s2.nextId = s.nextId →
      s2.undoActions = s.undoActions.push ⟨"delete", t, Task.default⟩ →
      s2.redoActions = s.redoActions → FreshStep s s2
  | edit (l1 : List Task) (t t2 : Task) (l2 : List Task) (s2 : TaskManager) :
      s.tasks = l1 ++ t :: l2 → (∀ u ∈ l1, u.id ≠ t.id) → t2.id = t.id →
      s2.tasks = l1 ++ t2 :: l2 → s2.nextId = s.nextId →
      s2.undoActions = s.undoActions.push ⟨"edit", t, t2⟩ →
      s2.redoActions = s.redoActions → FreshStep s s2

/-- What `sortByDeadline`, `undo` and `redo` can do: nothing (an empty
history), reorder the collection, or replay the top of a history and move it
to the other one. -/
inductive ReplayStep (s : TaskManager) : TaskManager → Prop where
  | noop : ReplayStep s s
  | sort (s2 : TaskManager) :
      List.Perm s2.tasks s.tasks → s2.nextId = s.nextId →
      s2.undoActions = s.undoActions → s2.redoActions = s.redoActions → ReplayStep s s2
  | undo (a : UndoAction) (rest : List UndoAction) (s2 : TaskManager) :
      s.undoActions.items = a :: rest → s2.tasks = undoTasks a s.tasks →
      s2.nextId = s.nextId → s2.undoActions = ⟨rest⟩ →
      s2.redoActions = s.redoActions.push a → ReplayStep s s2
  | redo (a : UndoAction) (rest : List UndoAction) (s2 : TaskManager) :
      s.redoActions.items = a :: rest → s2.tasks = redoTasks a s.tasks →
      s2.nextId = s.nextId → s2.redoActions = ⟨rest⟩ →
      s2.undoActions = s.undoActions.push a → ReplayStep s s2

/-- The action on top of the undo history matches the collection: the task
it added or edited is there as recorded, the task it deleted is not. -/
def UndoReady (a : UndoAction) (tasks : List Task) : Prop :=
  (a.type = "add" ∧ a.after ∈ tasks) ∨
  (a.type = "edit" ∧ a.after ∈ tasks ∧ a.before.id = a.after.id) ∨
  (a.type = "delete" ∧ ∀ u ∈ tasks, u.id ≠ a.before.id)

/-- The action on top of the redo history matches the collection: the task
it adds is not there, the task it edits or deletes is there as recorded. -/
def RedoReady (a : UndoAction) (tasks : List Task) : Prop :=
  (a.type = "add" ∧ ∀ u ∈ tasks, u.id ≠ a.after.id) ∨
  (a.type = "edit" ∧ a.before ∈ tasks ∧ a.before.id = a.after.id) ∨
  (a.type = "delete" ∧ a.before ∈ tasks)

/-- Every action of the undo history matches the collection it will be
undone on. -/
def UndoChain : List Task → List UndoAction → Prop
  | _, [] => True
  | tasks, a :: rest => UndoReady a tasks ∧ UndoChain (undoTasks a tasks) rest

/-- Every action of the redo history matches the collection it will be
redone on. -/
def RedoChain : List Task → List UndoAction → Prop
  | _, [] => True
  | tasks, a :: rest => RedoReady a tasks ∧ RedoChain (redoTasks a tasks) rest

/-- The state of a store whose histories describe its collection: ids are
unique and below the counter, the undo history matches the collection, and so
do the top `fresh` entries of the redo history, the ones put there since the
last recording call. -/
def Timeline (fresh : Nat) (s : TaskManager) : Prop :=
  IdsBelow s ∧ (s.tasks.map Task.id).Nodup ∧
  UndoChain s.tasks s.undoActions.items ∧ RedoChain s.tasks (s.redoActions.items.take fresh)

/-- The number of entries on top of the redo history that are fresh after a
call, given the number before it.  An entry is fresh from the `undo()` that
puts it there until a recording call (`addTask`, `deleteTask`, `updateTask`,
`markTaskCompleted`, `editTask`, `updatePriority`) changes the collection or
the undo history; from then on it is stale. -/
def Call.freshAfter (c : Call) (fresh : Nat) (s : TaskManager) : Nat :=
  if c.isMutation then
    if (c.apply s).tasks = s.tasks ∧ (c.apply s).undoActions = s.undoActions then fresh else 0
  else if c = .undo then
    if s.undoActions.isEmpty || s.redoActions.isFull then fresh else fresh + 1
  else if c = .redo then fresh - 1
  else fresh

/-- The call is a `redo()` that replays a stale entry: the redo history is not
empty and none of its entries is fresh. -/
def Call.staleReplay (c : Call) (fresh : Nat) (s : TaskManager) : Bool :=
  decide (c = .redo) && !s.redoActions.isEmpty && fresh == 0

/-- The call loses a record to a full history: a recording call that changes
the collection while the undo history is full, an `undo()` that pops an action
while the redo history is full, or a `redo()` that pops one while the undo
history is full. -/
def Call.dropsRecord (c : Call) (s : TaskManager) : Bool :=
  if c.isMutation then s.undoActions.isFull && decide ((c.apply s).tasks ≠ s.tasks)
  else if c = .undo then !s.undoActions.isEmpty && s.redoActions.isFull
  else if c = .redo then !s.redoActions.isEmpty && s.undoActions.isFull
  else false

/-- A sequence of calls in which no `redo()` replays a stale entry, started
with `fresh` fresh entries on the redo history.  Every other call may come at
any time. -/
def noStaleReplay : List Call → Nat → TaskManager → Bool
  | [], _, _ => true
  | c :: cs, fresh, s =>
    !c.staleReplay fresh s && noStaleReplay cs (c.freshAfter fresh s) (c.apply s)

/-- A sequence of calls in which no record is lost to a full history. -/
def noDroppedRecord : List Call → TaskManager → Bool
  | [], _ => true
  | c :: cs, s => !c.dropsRecord s && noDroppedRecord cs (c.apply s)

/-- The action adds or deletes the task with the id. -/
def Mentions (a : UndoAction) (id : Int) : Prop :=
  (a.type = "add" ∧ a.after.id = id) ∨ (a.type = "delete" ∧ a.before.id = id)

/-- Two recorded actions, `a` recorded before `b`, do not clash: an add is the
first action about its task, and a task is deleted once. -/
def Compatible (a b : UndoAction) : Prop :=
  (b.type = "add" → ¬ Mentions a b.after.id) ∧
  (b.type = "delete" → ¬ (a.type = "delete" ∧ a.before.id = b.before.id))

/-- The state of a store whose recorded actions are consistent with its
collection as far as ids go: ids are unique and below the counter, no task
that a delete on the undo history or a fresh add on the redo history would
bring back is in the collection, and the recorded actions, oldest first (the
undo history from the bottom, then the fresh entries of the redo history from
the top), do not clash. -/
def Ledger (fresh : Nat) (s : TaskManager) : Prop :=
  IdsBelow s ∧ (s.tasks.map Task.id).Nodup ∧
  (∀ a ∈ s.undoActions.items, a.type = "delete" → a.before.id ∉ s.tasks.map Task.id) ∧
  (∀ a ∈ s.redoActions.items.take fresh, a.type = "add" →
    a.after.id ∉ s.tasks.map Task.id) ∧
  (s.undoActions.items.reverse ++ s.redoActions.items.take fresh).Pairwise Compatible

/-- The values `addTask` accepts for a task: a non-empty title and a
priority from 1 to 10. -/
def Task.valid (t : Task) : Prop := t.title ≠ "" ∧ 1 ≤ t.priority ∧ t.priority ≤ 10

/-- The arguments of a call are values `addTask` would accept: `updateTask`
is given a non-empty title and a priority from 1 to 10, `editTask` a non-empty
title, `updatePriority` a priority from 1 to 10.  The other calls have no
argument that is written into a task without being checked. -/
def Call.validArgs : Call → Bool
  | .updateTask _ title _ _ priority => decide (title ≠ "" ∧ 1 ≤ priority ∧ priority ≤ 10)
  | .editTask _ newTitle _ => decide (newTitle ≠ "")
  | .updatePriority _ newPriority => decide (1 ≤ newPriority ∧ newPriority ≤ 10)
  | _ => true

/-- The snapshots of an action that `undo` or `redo` can write into the
collection are valid tasks. -/
def SnapshotsValid (a : UndoAction) : Prop :=
  (a.type = "add" → a.after.valid) ∧
  (a.type = "edit" → a.before.valid ∧ a.after.valid) ∧
  (a.type = "delete" → a.before.valid)

/-- Every task of the collection is valid, and so is every snapshot the
histories can bring back. -/
def AllValid (s : TaskManager) : Prop :=
  (∀ t ∈ s.tasks, t.valid) ∧ (∀ a ∈ s.undoActions.items, SnapshotsValid a) ∧
  (∀ a ∈ s.redoActions.items, SnapshotsValid a)

/-- The min-heap property of the array of a `MinHeap`: no element has a
smaller priority than its parent. -/
def IsMinHeap (h : List Task) : Prop :=
  ∀ i, 0 < i → i < h.length → priorityAt h (MinHeap.parent i) ≤ priorityAt h i

/-- One call on a history stack. -/
inductive StackOp where
  | push (a : UndoAction)
  | pop
deriving DecidableEq, Repr

/-- The stack after one call. -/
def StackOp.apply : StackOp → Stack → Stack
  | .push a, s => s.push a
  | .pop, s => s.pop.2

/-- The stack after a sequence of calls, first call first. -/
def runStack : List StackOp → Stack → Stack
  | [], s => s
  | op :: ops, s => runStack ops (op.apply s)

/-! ## The console variant (`task_manager_cli.cpp`)

The console program has its own copies of the classes.  Its `Task` has the
priority before the deadline and the default priority 5; its two history
stacks are global variables, here fields of the state. -/

/-- The class `Task` of the console variant. -/
structure Cli.Task where
  id : Int
  title : String
  description : String
  priority : Int
  deadline : String
  completed : Bool
deriving DecidableEq, Repr

/-- The default constructor `Task()` of the console variant. -/
def Cli.Task.default : Cli.Task := ⟨0, "", "", 5, "", false⟩

/-- The class `UndoAction` of the console variant. -/
structure Cli.UndoAction where
  type : String
  before : Cli.Task
  after : Cli.Task
deriving DecidableEq, Repr

/-- The default constructor `UndoAction()` of the console variant. -/
def Cli.UndoAction.default : Cli.UndoAction := ⟨"", Cli.Task.default, Cli.Task.default⟩

/-- The class `Stack` of the console variant; `items` lists `stack[top], ...,
stack[0]`. -/
structure Cli.Stack where
  items : List Cli.UndoAction
deriving DecidableEq, Repr

/-- The method `Stack::isFull` of the console variant. -/
def Cli.Stack.isFull (s : Cli.Stack) : Bool := s.items.length == MAX_SIZE

/-- The method `Stack::isEmpty` of the console variant. -/
def Cli.Stack.isEmpty (s : Cli.Stack) : Bool := s.items.length == 0

/-- The method `Stack::push` of the console variant. -/
def Cli.Stack.push (value : Cli.UndoAction) (s : Cli.Stack) : Cli.Stack :=
  if s.isFull then s else ⟨value :: s.items⟩

/-- The method `Stack::pop` of the console variant. -/
def Cli.Stack.pop (s : Cli.Stack) : Cli.UndoAction × Cli.Stack :=
  match s.items with
  | [] => (Cli.UndoAction.default, s)
  | a :: rest => (a, ⟨rest⟩)

/-- The class `MinHeap` of the console variant: the slots `0 .. size - 1`. -/
structure Cli.MinHeap where
  heap : List Cli.Task
deriving DecidableEq, Repr

/-- The value of `heap[i].priority` in the console variant. -/
def Cli.priorityAt (h : List Cli.Task) (i : Nat) : Int := (h.getD i Cli.Task.default).priority

/-- The call `swap(heap[i], heap[j])` in the console variant. -/
def Cli.swapAt (h : List Cli.Task) (i j : Nat) : List Cli.Task :=
  (h.set i (h.getD j Cli.Task.default)).set j (h.getD i Cli.Task.default)

/-- The `while` loop of `MinHeap::shiftUp` of the console variant, one
iteration per unit of fuel. -/
def Cli.shiftUpLoop : Nat → List Cli.Task → Nat → List Cli.Task
  | 0, h, _ => h
  | fuel + 1, h, i =>
    if 0 < i ∧ Cli.priorityAt h (MinHeap.parent i) > Cli.priorityAt h i then
      Cli.shiftUpLoop fuel (Cli.swapAt h i (MinHeap.parent i)) (MinHeap.parent i)
    else h

/-- The method `MinHeap::insert` of the console variant; `shiftUp` from `i`
takes at most `i` iterations. -/
def Cli.MinHeap.insert (task : Cli.Task) (h : Cli.MinHeap) : Cli.MinHeap :=
  if h.heap.length ≥ MAX_SIZE then h
  else ⟨Cli.shiftUpLoop h.heap.length (h.heap ++ [task]) h.heap.length⟩

/-- The class `TaskList` of the console variant: the tasks of the nodes from
`head` to `tail`, and the counter `nextId`. -/
structure Cli.TaskList where
  tasks : List Cli.Task
  nextId : Int
deriving DecidableEq, Repr

/-- The state of the console program: the list and the heap of `main`, and the
global variables `undoActions` and `redoActions`. -/
structure Cli.State where
  list : Cli.TaskList
  heap : Cli.MinHeap
  undoActions : Cli.Stack
  redoActions : Cli.Stack
deriving DecidableEq, Repr

/-- The walk of `TaskList::removeById`: the first node with the id is
unlinked. -/
def Cli.removeById (id : Int) : List Cli.Task → List Cli.Task
  | [] => []
  | t :: ts => if t.id = id then ts else t :: Cli.removeById id ts

/-- The walk of `TaskList::editTask`: the tasks after the call, and the
`UndoAction` the method pushes when it finds the id. -/
def Cli.editWalk (id : Int) (newTitle newDeadline : String) :
    List Cli.Task → List Cli.Task × Option Cli.UndoAction
  | [] => ([], none)
  | t :: ts =>
    if t.id = id then
      ({ t with title := newTitle, deadline := newDeadline } :: ts,
        some ⟨"edit", t, { t with title := newTitle, deadline := newDeadline }⟩)
    else (t :: (Cli.editWalk id newTitle newDeadline ts).1,
      (Cli.editWalk id newTitle newDeadline ts).2)

/-- The method `TaskList::editTask` of the console variant: it changes the
task and pushes the `edit` action on the global `undoActions`. -/
def Cli.editTask (id : Int) (newTitle newDeadline : String) (s : Cli.State) : Cli.State :=
  match (Cli.editWalk id newTitle newDeadline s.list.tasks).2 with
  | none => s
  | some action =>
    { s with
      list := { s.list with tasks := (Cli.editWalk id newTitle newDeadline s.list.tasks).1 },
      undoActions := s.undoActions.push action }

/-- The loop `heap = MinHeap(); while (current != nullptr) ...` of
`performUndo`: the tasks that are not completed, inserted from the head on. -/
def Cli.rebuildHeap (tasks : List Cli.Task) : Cli.MinHeap :=
  tasks.foldl (fun h task => if !task.completed then h.insert task else h) ⟨[]⟩

/-- The function `performUndo` of the console variant. -/
def Cli.performUndo (s : Cli.State) : Cli.State :=
  if s.undoActions.isEmpty then s
  else
    let action := s.undoActions.pop.1
    let s := { s with undoActions := s.undoActions.pop.2 }
    let s :=
      if action.type = "add" then
        { s with list := { s.list with tasks := Cli.removeById action.after.id s.list.tasks } }
      else Cli.editTask action.after.id action.before.title action.before.deadline s
    let s := { s with heap := Cli.rebuildHeap s.list.tasks }
    { s with redoActions := s.redoActions.push action }

/-! ## Lists, `find_if` and the positions it returns -/

theorem getD_split (l1 l2 : List Task) (t d : Task) :
    (l1 ++ t :: l2).getD l1.length d = t := by
  induction l1 with
  | nil => rfl
  | cons x xs ih => simpa using ih

theorem eraseIdx_split (l1 l2 : List Task) (t : Task) :
    (l1 ++ t :: l2).eraseIdx l1.length = l1 ++ l2 := by
  induction l1 with
  | nil => rfl
  | cons x xs ih => simpa using ih

theorem set_split (l1 l2 : List Task) (t x : Task) :
    (l1 ++ t :: l2).set l1.length x = l1 ++ x :: l2 := by
  induction l1 with
  | nil => rfl
  | cons y ys ih => simp [ih]

theorem find_if_of_split (pred : Task → Bool) (l1 l2 : List Task) (t : Task)
    (h1 : ∀ u ∈ l1, pred u = false) (ht : pred t = true) :
    find_if pred (l1 ++ t :: l2) = some l1.length := by
  induction l1 with
  | nil => simp [find_if, ht]
  | cons x xs ih =>
    have hx : pred x = false := h1 x (List.mem_cons_self _ _)
    have := ih (fun u hu => h1 u (List.mem_cons_of_mem _ hu))
    simp [find_if, hx, this]

theorem find_if_split (pred : Task → Bool) (l : List Task) (i : Nat)
    (h : find_if pred l = some i) :
    ∃ l1 t l2, l = l1 ++ t :: l2 ∧ l1.length = i ∧ pred t = true ∧
      ∀ u ∈ l1, pred u = false := by
  induction l generalizing i with
  | nil => simp [find_if] at h
  | cons x xs ih =>
    unfold find_if at h
    by_cases hx : pred x = true
    · simp [hx] at h
      exact ⟨[], x, xs, rfl, by simp [h], hx, by simp⟩
    · simp [hx] at h
      obtain ⟨j, hj, rfl⟩ := h
      obtain ⟨l1, t, l2, rfl, rfl, ht, h1⟩ := ih j hj
      refine ⟨x :: l1, t, l2, rfl, rfl, ht, ?_⟩
      intro u hu
      rcases List.mem_cons.1 hu with rfl | hu
      · simpa using hx
      · exact h1 u hu

theorem find_if_eq_none (pred : Task → Bool) (l : List Task) :
    find_if pred l = none ↔ ∀ u ∈ l, pred u = false := by
  induction l with
  | nil => simp [find_if]
  | cons x xs ih =>
    unfold find_if
    by_cases hx : pred x = true
    · simp [hx]
    · simp [hx, ih]

theorem find_if_some_of_mem (pred : Task → Bool) (l : List Task) (t : Task)
    (ht : t ∈ l) (hp : pred t = true) : ∃ i, find_if pred l = some i := by
  cases h : find_if pred l with
  | some i => exact ⟨i, rfl⟩
  | none =>
    have := (find_if_eq_none pred l).1 h t ht
    simp [this] at hp

/-! ## What each call does to the fields of the store -/

@[simp] theorem syncDataStructures_tasks (s : TaskManager) :
    (syncDataStructures s).tasks = s.tasks := rfl

@[simp] theorem syncDataStructures_nextId (s : TaskManager) :
    (syncDataStructures s).nextId = s.nextId := rfl

@[simp] theorem syncDataStructures_undoActions (s : TaskManager) :
    (syncDataStructures s).undoActions = s.undoActions := rfl

@[simp] theorem syncDataStructures_redoActions (s : TaskManager) :
    (syncDataStructures s).redoActions = s.redoActions := rfl

@[simp] theorem syncDataStructures_heap (s : TaskManager) :
    (syncDataStructures s).heap = rebuildHeap s.tasks := rfl

theorem addTask_ok (title desc deadline : String) (priority : Int) (s : TaskManager)
    (ht : title ≠ "") (hp : ¬ (priority < 1 ∨ priority > 10)) :
    addTask title desc deadline priority s =
      (.ok s.nextId,
        { syncDataStructures { s with
            undoActions := s.undoActions.push
              ⟨"add", Task.default, Task.new s.nextId title desc deadline priority⟩,
            tasks := s.tasks ++ [Task.new s.nextId title desc deadline priority] } with
          nextId := s.nextId + 1 }) := by
  simp [addTask, ht, hp]

theorem addTask_err (title desc deadline : String) (priority : Int) (s : TaskManager)
    (h : title = "" ∨ priority < 1 ∨ priority > 10) :
    (addTask title desc deadline priority s).2 = s ∧
      ∃ msg, (addTask title desc deadline priority s).1 = .error msg := by
  unfold addTask
  by_cases ht : title = ""
  · simp [ht]
  · have hp : priority < 1 ∨ priority > 10 := by tauto
    simp [ht, hp]

/-- The value of `nextId` after a call: only a successful `addTask`
increments it. -/
theorem nextId_apply (c : Call) (s : TaskManager) :
    (c.apply s).nextId = s.nextId ∨
      ∃ title desc deadline priority, c = .addTask title desc deadline priority ∧
        (addTask title desc deadline priority s).1 = .ok s.nextId ∧
        (c.apply s).nextId = s.nextId + 1 := by
  cases c with
  | addTask title desc deadline priority =>
    by_cases h : title = "" ∨ priority < 1 ∨ priority > 10
    · left
      simp [Call.apply, (addTask_err title desc deadline priority s h).1]
    · right
      have ht : title ≠ "" := by tauto
      have hp : ¬ (priority < 1 ∨ priority > 10) := by tauto
      exact ⟨title, desc, deadline, priority, rfl, by rw [addTask_ok _ _ _ _ _ ht hp],
        by simp [Call.apply, addTask_ok _ _ _ _ _ ht hp]⟩
  | deleteTask id =>
    left; simp only [Call.apply, deleteTask]; split <;> rfl
  | updateTask id title desc deadline priority =>
    left; simp only [Call.apply, updateTask]; split <;> rfl
  | markTaskCompleted id =>
    left; simp only [Call.apply, markTaskCompleted]; split <;> rfl
  | editTask id newTitle newDeadline =>
    left; simp only [Call.apply, editTask]; split <;> rfl
  | updatePriority id newPriority =>
    left; simp only [Call.apply, updatePriority]; split <;> rfl
  | sortByDeadline => left; rfl
  | undo => left; simp only [Call.apply, undo]; split <;> rfl
  | redo => left; simp only [Call.apply, redo]; split <;> rfl

/-- The ids handed out by a sequence of calls are consecutive, starting at the
`nextId` of the store the sequence starts from. -/
theorem addResults_eq (cs : List Call) (s : TaskManager) :
    addResults cs s =
      (List.range (addResults cs s).length).map (fun (k : Nat) => s.nextId + (k : Int)) ∧
    (run cs s).nextId = s.nextId + ((addResults cs s).length : Int) := by
  induction cs generalizing s with
  | nil => simp [addResults, run]
  | cons c cs ih =>
    obtain ⟨ih1, ih2⟩ := ih (c.apply s)
    rcases nextId_apply c s with h | ⟨title, desc, deadline, priority, rfl, hok, hn⟩
    · have hres : addResults (c :: cs) s = addResults cs (c.apply s) := by
        cases c with
        | addTask title desc deadline priority =>
          by_cases hv : title = "" ∨ priority < 1 ∨ priority > 10
          · obtain ⟨_, msg, hmsg⟩ := addTask_err title desc deadline priority s hv
            simp [addResults, hmsg]
          · have ht : title ≠ "" := by tauto
            have hp : ¬ (priority < 1 ∨ priority > 10) := by tauto
            simp [Call.apply, addTask_ok _ _ _ _ _ ht hp] at h
        | _ => rfl
      rw [hres, run, ih2, h]
      refine ⟨?_, rfl⟩
      conv_lhs => rw [ih1]
      rw [h]
    · have hres : addResults (Call.addTask title desc deadline priority :: cs) s =
          s.nextId :: addResults cs ((Call.addTask title desc deadline priority).apply s) := by
        simp [addResults, hok]
      rw [hres, run, ih2, hn]
      refine ⟨?_, by simp; ring⟩
      conv_lhs => rw [ih1]
      rw [hn, List.length_cons, List.range_succ_eq_map]
      simp [List.map_map, Function.comp_def]
      intro a _
      ring

/-! ## The heap holds the tasks it is given -/

theorem getD_cons_set_perm (t : List Task) (j : Nat) (x d : Task) (hj : j < t.length) :
    List.Perm (t.getD j d :: t.set j x) (x :: t) := by
  induction t generalizing j with
  | nil => simp at hj
  | cons y ys ih =>
    cases j with
    | zero =>
      simp only [List.getD_cons_zero, List.set_cons_zero]
      exact List.Perm.swap _ _ _
    | succ k =>
      simp only [List.getD_cons_succ, List.set_cons_succ]
      have hk : k < ys.length := by simpa using hj
      exact (List.Perm.swap _ _ _).trans (((ih k hk).cons y).trans (List.Perm.swap _ _ _))

theorem swapAt_perm (h : List Task) (i j : Nat) (hi : i < h.length) (hj : j < h.length) :
    List.Perm (swapAt h i j) h := by
  unfold swapAt
  induction h generalizing i j with
  | nil => simp at hi
  | cons y ys ih =>
    cases i with
    | zero =>
      cases j with
      | zero => simp
      | succ k =>
        have hk : k < ys.length := by simpa using hj
        simp only [List.getD_cons_zero, List.set_cons_zero, List.getD_cons_succ,
          List.set_cons_succ]
        exact getD_cons_set_perm ys k y _ hk
    | succ m =>
      have hm : m < ys.length := by simpa using hi
      cases j with
      | zero =>
        simp only [List.getD_cons_zero, List.set_cons_zero, List.getD_cons_succ,
          List.set_cons_succ]
        exact getD_cons_set_perm ys m y _ hm
      | succ k =>
        have hk : k < ys.length := by simpa using hj
        simp only [List.getD_cons_succ, List.set_cons_succ]
        exact (ih m k hm hk).cons y

theorem parent_le (i : Nat) : MinHeap.parent i ≤ i - 1 := by
  unfold MinHeap.parent
  omega

/-- The loop of `shiftUp` started at `i` ends within `i` iterations: more
fuel than `i` changes nothing. -/
theorem shiftUpLoop_fuel (fuel : Nat) (h : List Task) (i : Nat) (hi : i ≤ fuel) :
    shiftUpLoop fuel h i = shiftUpLoop i h i := by
  have key : ∀ f g (h : List Task) (i : Nat), i ≤ f → i ≤ g →
      shiftUpLoop f h i = shiftUpLoop g h i := by
    intro f
    induction f with
    | zero =>
      intro g h i hf _
      have hi0 : i = 0 := by omega
      subst hi0
      cases g with
      | zero => rfl
      | succ g => simp [shiftUpLoop]
    | succ f ih =>
      intro g h i hf hg
      cases g with
      | zero =>
        have hi0 : i = 0 := by omega
        subst hi0
        simp [shiftUpLoop]
      | succ g =>
        simp only [shiftUpLoop]
        split
        · rename_i hc
          have := parent_le i
          exact ih g _ _ (by omega) (by omega)
        · rfl
  exact key fuel i h i hi (Nat.le_refl i)

theorem shiftUpLoop_perm (fuel : Nat) (h : List Task) (i : Nat) (hi : i < h.length) :
    List.Perm (shiftUpLoop fuel h i) h := by
  induction fuel generalizing h i with
  | zero => exact List.Perm.refl _
  | succ fuel ih =>
    simp only [shiftUpLoop]
    split
    · have hp := parent_le i
      have hlt : MinHeap.parent i < h.length := by omega
      have hsw := swapAt_perm h i (MinHeap.parent i) hi hlt
      exact (ih _ _ (by rw [hsw.length_eq]; exact hlt)).trans hsw
    · exact List.Perm.refl _

theorem insert_perm (task : Task) (h : MinHeap) (hsize : h.size < MAX_SIZE) :
    List.Perm (h.insert task).heap (h.heap ++ [task]) := by
  have hn : ¬ h.size ≥ MAX_SIZE := by omega
  simp only [MinHeap.insert, hn, if_false, shiftUp]
  apply shiftUpLoop_perm
  simp [MinHeap.size]

theorem insert_size_le (task : Task) (h : MinHeap) (hsize : h.size ≤ MAX_SIZE) :
    (h.insert task).size ≤ MAX_SIZE := by
  by_cases hn : h.size ≥ MAX_SIZE
  · simpa [MinHeap.insert, hn] using hsize
  · have hlt : h.size < MAX_SIZE := by omega
    have := (insert_perm task h hlt).length_eq
    simp only [MinHeap.size] at *
    rw [this]
    simp
    omega

/-- The pending tasks of a collection: what `syncDataStructures` hands to the
heap. -/
theorem rebuild_fold_perm (tasks : List Task) (init : MinHeap)
    (hroom : init.size + (tasks.filter (fun task => !task.completed)).length ≤ MAX_SIZE) :
    List.Perm
      (tasks.foldl (fun h task => if !task.completed then h.insert task else h) init).heap
      (init.heap ++ tasks.filter (fun task => !task.completed)) := by
  induction tasks generalizing init with
  | nil => simp
  | cons t ts ih =>
    simp only [List.foldl_cons]
    cases hc : t.completed with
    | true =>
      simp only [List.filter_cons, hc] at hroom ⊢
      simpa using ih init (by simpa using hroom)
    | false =>
      simp only [List.filter_cons, hc] at hroom ⊢
      simp only [Bool.not_false, if_true, List.length_cons] at hroom ⊢
      have hlt : init.size < MAX_SIZE := by omega
      have hp := insert_perm t init hlt
      have hsz : (init.insert t).size = init.size + 1 := by
        have := hp.length_eq
        simpa [MinHeap.size] using this
      have := ih (init.insert t) (by omega)
      refine this.trans ?_
      have h2 : List.Perm ((init.insert t).heap ++ ts.filter (fun task => !task.completed))
          ((init.heap ++ [t]) ++ ts.filter (fun task => !task.completed)) :=
        hp.append_right _
      simpa using h2

theorem rebuild_fold_size_le (tasks : List Task) (init : MinHeap)
    (hsize : init.size ≤ MAX_SIZE) :
    (tasks.foldl (fun h task => if !task.completed then h.insert task else h) init).size
      ≤ MAX_SIZE := by
  induction tasks generalizing init with
  | nil => simpa using hsize
  | cons t ts ih =>
    simp only [List.foldl_cons]
    split
    · exact ih _ (insert_size_le t init hsize)
    · exact ih _ hsize

theorem rebuildHeap_perm (tasks : List Task)
    (hroom : (tasks.filter (fun task => !task.completed)).length ≤ MAX_SIZE) :
    List.Perm (rebuildHeap tasks).heap (tasks.filter (fun task => !task.completed)) := by
  have := rebuild_fold_perm tasks MinHeap.empty (by simpa [MinHeap.size, MinHeap.empty] using hroom)
  simpa [rebuildHeap, MinHeap.empty] using this

theorem rebuildHeap_size_le (tasks : List Task) : (rebuildHeap tasks).size ≤ MAX_SIZE :=
  rebuild_fold_size_le tasks MinHeap.empty (by simp [MinHeap.size, MinHeap.empty])

theorem synced_new : Synced TaskManager.new := ⟨rfl, rfl⟩

theorem synced_apply (c : Call) (s : TaskManager) (h : Synced s) : Synced (c.apply s) := by
  cases c with
  | addTask title desc deadline priority =>
    by_cases hv : title = "" ∨ priority < 1 ∨ priority > 10
    · simpa [Call.apply, (addTask_err title desc deadline priority s hv).1] using h
    · have ht : title ≠ "" := by tauto
      have hp : ¬ (priority < 1 ∨ priority > 10) := by tauto
      simp only [Call.apply, addTask_ok _ _ _ _ _ ht hp]
      exact ⟨rfl, rfl⟩
  | deleteTask id =>
    simp only [Call.apply, deleteTask]; split
    · exact h
    · exact ⟨rfl, rfl⟩
  | updateTask id title desc deadline priority =>
    simp only [Call.apply, updateTask]; split
    · exact h
    · exact ⟨rfl, rfl⟩
  | markTaskCompleted id =>
    simp only [Call.apply, markTaskCompleted]; split
    · exact h
    · exact ⟨rfl, rfl⟩
  | editTask id newTitle newDeadline =>
    simp only [Call.apply, editTask]; split
    · exact h
    · exact ⟨rfl, rfl⟩
  | updatePriority id newPriority =>
    simp only [Call.apply, updatePriority]; split
    · exact h
    · exact ⟨rfl, rfl⟩
  | sortByDeadline => exact ⟨rfl, rfl⟩
  | undo =>
    simp only [Call.apply, undo]; split
    · exact ⟨rfl, rfl⟩
    · exact h
  | redo =>
    simp only [Call.apply, redo]; split
    · exact ⟨rfl, rfl⟩
    · exact h

theorem synced_run (cs : List Call) (s : TaskManager) (h : Synced s) : Synced (run cs s) := by
  induction cs generalizing s with
  | nil => exact h
  | cons c cs ih => exact ih _ (synced_apply c s h)

theorem pending_after_adds (n : Nat) (s : TaskManager) :
    (getPendingTasks (run (List.replicate n (Call.addTask "t" "" "2025-01-01" 5)) s)).length =
      (getPendingTasks s).length + n := by
  induction n generalizing s with
  | zero => rfl
  | succ n ih =>
    rw [List.replicate_succ, run, ih]
    have ht : ("t" : String) ≠ "" := by decide
    have hp : ¬ ((5 : Int) < 1 ∨ (5 : Int) > 10) := by decide
    simp only [Call.apply, addTask_ok _ _ _ _ _ ht hp, getPendingTasks,
      syncDataStructures_tasks]
    simp [Task.new]
    omega

/-! ## The shape of each call's result -/

theorem push_items_of_lt (a : UndoAction) (st : Stack) (h : st.items.length < MAX_SIZE) :
    (st.push a).items = a :: st.items := by
  have : ¬ st.items.length = MAX_SIZE := by omega
  simp [Stack.push, Stack.isFull, this]

theorem push_items_of_full (a : UndoAction) (st : Stack) (h : st.items.length = MAX_SIZE) :
    (st.push a) = st := by
  simp [Stack.push, Stack.isFull, h]

theorem mem_push (a b : UndoAction) (st : Stack) (h : b ∈ (st.push a).items) :
    b = a ∨ b ∈ st.items := by
  unfold Stack.push at h
  split at h
  · exact Or.inr h
  · simpa using h

theorem undo_nil (s : TaskManager) (h : s.undoActions.items = []) : undo s = s := by
  simp [undo, Stack.isEmpty, h]

theorem undo_cons (s : TaskManager) (a : UndoAction) (rest : List UndoAction)
    (h : s.undoActions.items = a :: rest) :
    undo s =
      { syncDataStructures { s with undoActions := ⟨rest⟩, tasks := undoTasks a s.tasks } with
        redoActions := s.redoActions.push a } := by
  simp [undo, Stack.isEmpty, Stack.pop, h]

theorem redo_nil (s : TaskManager) (h : s.redoActions.items = []) : redo s = s := by
  simp [redo, Stack.isEmpty, h]

theorem redo_cons (s : TaskManager) (a : UndoAction) (rest : List UndoAction)
    (h : s.redoActions.items = a :: rest) :
    redo s =
      { syncDataStructures { s with redoActions := ⟨rest⟩, tasks := redoTasks a s.tasks } with
        undoActions := s.undoActions.push a } := by
  simp [redo, Stack.isEmpty, Stack.pop, h]

theorem updateTask_eq_editWith (id : Int) (title desc deadline : String) (priority : Int)
    (s : TaskManager) :
    updateTask id title desc deadline priority s =
      editWith (fun b => { b with
        title := title, description := desc, deadline := deadline, priority := priority })
        id s := by
  unfold updateTask editWith
  split <;> rfl

theorem markTaskCompleted_eq_editWith (id : Int) (s : TaskManager) :
    markTaskCompleted id s = editWith (fun b => { b with completed := true }) id s := by
  unfold markTaskCompleted editWith
  split <;> rfl

theorem editTask_eq_editWith (id : Int) (newTitle newDeadline : String) (s : TaskManager) :
    editTask id newTitle newDeadline s =
      editWith (fun b => { b with title := newTitle, deadline := newDeadline }) id s := by
  unfold editTask editWith
  split <;> rfl

theorem updatePriority_eq_editWith (id : Int) (newPriority : Int) (s : TaskManager) :
    updatePriority id newPriority s =
      editWith (fun b => { b with priority := newPriority }) id s := by
  unfold updatePriority editWith
  split <;> rfl

theorem id_pred_false_of_ne (id : Int) (l : List Task) (h : ∀ u ∈ l, u.id ≠ id) :
    ∀ u ∈ l, (fun task : Task => task.id == id) u = false := by
  intro u hu
  simpa using h u hu

/-- The result of `editWith` on a collection split at the first task with
the id. -/
theorem editWith_split (f : Task → Task) (id : Int) (s : TaskManager)
    (l1 l2 : List Task) (t : Task) (hs : s.tasks = l1 ++ t :: l2)
    (h1 : ∀ u ∈ l1, u.id ≠ id) (ht : t.id = id) :
    editWith f id s =
      syncDataStructures { s with
        tasks := l1 ++ f t :: l2,
        undoActions := s.undoActions.push ⟨"edit", t, f t⟩ } := by
  have hf : find_if (fun task => task.id == id) s.tasks = some l1.length := by
    rw [hs]
    exact find_if_of_split _ l1 l2 t (id_pred_false_of_ne id l1 h1) (by simpa using ht)
  unfold editWith
  rw [hf]
  simp only [hs, getD_split, set_split]

theorem editWith_absent (f : Task → Task) (id : Int) (s : TaskManager)
    (h : ∀ u ∈ s.tasks, u.id ≠ id) : editWith f id s = s := by
  have hf : find_if (fun task => task.id == id) s.tasks = none :=
    (find_if_eq_none _ _).2 (id_pred_false_of_ne id _ h)
  unfold editWith
  rw [hf]

/-- A collection with a task of the given id splits at the first such
task. -/
theorem split_at_id (id : Int) (l : List Task) (h : ∃ t ∈ l, t.id = id) :
    ∃ l1 t l2, l = l1 ++ t :: l2 ∧ (∀ u ∈ l1, u.id ≠ id) ∧ t.id = id := by
  obtain ⟨t, ht, hid⟩ := h
  obtain ⟨i, hi⟩ := find_if_some_of_mem (fun task => task.id == id) l t ht (by simpa using hid)
  obtain ⟨l1, t1, l2, hl, _, hp, h1⟩ := find_if_split _ l i hi
  exact ⟨l1, t1, l2, hl, fun u hu => by simpa using h1 u hu, by simpa using hp⟩

theorem deleteTask_split (id : Int) (s : TaskManager)
    (l1 l2 : List Task) (t : Task) (hs : s.tasks = l1 ++ t :: l2)
    (h1 : ∀ u ∈ l1, u.id ≠ id) (ht : t.id = id) :
    deleteTask id s =
      syncDataStructures { s with
        undoActions := s.undoActions.push ⟨"delete", t, Task.default⟩,
        tasks := l1 ++ l2 } := by
  have hf : find_if (fun task => task.id == id) s.tasks = some l1.length := by
    rw [hs]
    exact find_if_of_split _ l1 l2 t (id_pred_false_of_ne id l1 h1) (by simpa using ht)
  unfold deleteTask
  rw [hf]
  simp only [hs, getD_split, eraseIdx_split]

theorem deleteTask_absent (id : Int) (s : TaskManager)
    (h : ∀ u ∈ s.tasks, u.id ≠ id) : deleteTask id s = s := by
  have hf : find_if (fun task => task.id == id) s.tasks = none :=
    (find_if_eq_none _ _).2 (id_pred_false_of_ne id _ h)
  unfold deleteTask
  rw [hf]

/-! ## What `undo` and `redo` do to the collection -/

theorem undoTasks_add_split (a : UndoAction) (l1 l2 : List Task) (t : Task)
    (hty : a.type = "add") (h1 : ∀ u ∈ l1, u.id ≠ a.after.id) (ht : t.id = a.after.id) :
    undoTasks a (l1 ++ t :: l2) = l1 ++ l2 := by
  have hf := find_if_of_split (fun task => task.id == a.after.id) l1 l2 t
    (id_pred_false_of_ne _ l1 h1) (by simpa using ht)
  unfold undoTasks
  rw [if_pos hty, hf]
  simp only [eraseIdx_split]

theorem undoTasks_add_absent (a : UndoAction) (l : List Task)
    (hty : a.type = "add") (h : ∀ u ∈ l, u.id ≠ a.after.id) :
    undoTasks a l = l := by
  have hf : find_if (fun task => task.id == a.after.id) l = none :=
    (find_if_eq_none _ _).2 (id_pred_false_of_ne _ _ h)
  unfold undoTasks
  rw [if_pos hty, hf]

theorem undoTasks_edit_split (a : UndoAction) (l1 l2 : List Task) (t : Task)
    (hty : a.type = "edit") (h1 : ∀ u ∈ l1, u.id ≠ a.before.id) (ht : t.id = a.before.id) :
    undoTasks a (l1 ++ t :: l2) = l1 ++ a.before :: l2 := by
  have hf := find_if_of_split (fun task => task.id == a.before.id) l1 l2 t
    (id_pred_false_of_ne _ l1 h1) (by simpa using ht)
  have hne : ¬ a.type = "add" := by rw [hty]; decide
  unfold undoTasks
  rw [if_neg hne, if_pos hty, hf]
  simp only [set_split]

theorem undoTasks_edit_absent (a : UndoAction) (l : List Task)
    (hty : a.type = "edit") (h : ∀ u ∈ l, u.id ≠ a.before.id) :
    undoTasks a l = l := by
  have hf : find_if (fun task => task.id == a.before.id) l = none :=
    (find_if_eq_none _ _).2 (id_pred_false_of_ne _ _ h)
  have hne : ¬ a.type = "add" := by rw [hty]; decide
  unfold undoTasks
  rw [if_neg hne, if_pos hty, hf]

theorem undoTasks_delete (a : UndoAction) (l : List Task) (hty : a.type = "delete") :
    undoTasks a l = l ++ [a.before] := by
  have hne : ¬ a.type = "add" := by rw [hty]; decide
  have hne2 : ¬ a.type = "edit" := by rw [hty]; decide
  unfold undoTasks
  rw [if_neg hne, if_neg hne2, if_pos hty]

theorem redoTasks_add (a : UndoAction) (l : List Task) (hty : a.type = "add") :
    redoTasks a l = l ++ [a.after] := by
  unfold redoTasks
  rw [if_pos hty]

theorem redoTasks_edit_split (a : UndoAction) (l1 l2 : List Task) (t : Task)
    (hty : a.type = "edit") (h1 : ∀ u ∈ l1, u.id ≠ a.after.id) (ht : t.id = a.after.id) :
    redoTasks a (l1 ++ t :: l2) = l1 ++ a.after :: l2 := by
  have hf := find_if_of_split (fun task => task.id == a.after.id) l1 l2 t
    (id_pred_false_of_ne _ l1 h1) (by simpa using ht)
  have hne : ¬ a.type = "add" := by rw [hty]; decide
  unfold redoTasks
  rw [if_neg hne, if_pos hty, hf]
  simp only [set_split]

theorem redoTasks_edit_absent (a : UndoAction) (l : List Task)
    (hty : a.type = "edit") (h : ∀ u ∈ l, u.id ≠ a.after.id) :
    redoTasks a l = l := by
  have hf : find_if (fun task => task.id == a.after.id) l = none :=
    (find_if_eq_none _ _).2 (id_pred_false_of_ne _ _ h)
  have hne : ¬ a.type = "add" := by rw [hty]; decide
  unfold redoTasks
  rw [if_neg hne, if_pos hty, hf]

theorem redoTasks_delete_split (a : UndoAction) (l1 l2 : List Task) (t : Task)
    (hty : a.type = "delete") (h1 : ∀ u ∈ l1, u.id ≠ a.before.id) (ht : t.id = a.before.id) :
    redoTasks a (l1 ++ t :: l2) = l1 ++ l2 := by
  have hf := find_if_of_split (fun task => task.id == a.before.id) l1 l2 t
    (id_pred_false_of_ne _ l1 h1) (by simpa using ht)
  have hne : ¬ a.type = "add" := by rw [hty]; decide
  have hne2 : ¬ a.type = "edit" := by rw [hty]; decide
  unfold redoTasks
  rw [if_neg hne, if_neg hne2, if_pos hty, hf]
  simp only [eraseIdx_split]

theorem redoTasks_delete_absent (a : UndoAction) (l : List Task)
    (hty : a.type = "delete") (h : ∀ u ∈ l, u.id ≠ a.before.id) :
    redoTasks a l = l := by
  have hf : find_if (fun task => task.id == a.before.id) l = none :=
    (find_if_eq_none _ _).2 (id_pred_false_of_ne _ _ h)
  have hne : ¬ a.type = "add" := by rw [hty]; decide
  have hne2 : ¬ a.type = "edit" := by rw [hty]; decide
  unfold redoTasks
  rw [if_neg hne, if_neg hne2, if_pos hty, hf]

/-! ## Every call is one of a few steps -/

theorem editWith_freshStep (f : Task → Task) (hf : ∀ t, (f t).id = t.id) (id : Int)
    (s : TaskManager) : FreshStep s (editWith f id s) := by
  by_cases h : ∃ t ∈ s.tasks, t.id = id
  · obtain ⟨l1, t, l2, hl, h1, ht⟩ := split_at_id id s.tasks h
    rw [editWith_split f id s l1 l2 t hl h1 ht]
    exact FreshStep.edit l1 t (f t) l2 _ hl (by rw [ht]; exact h1) (hf t) rfl rfl rfl rfl
  · rw [editWith_absent f id s (fun u hu hid => h ⟨u, hu, hid⟩)]
    exact FreshStep.noop

theorem freshStep_apply (c : Call) (s : TaskManager) (hc : c.isMutation = true) :
    FreshStep s (c.apply s) := by
  cases c with
  | addTask title desc deadline priority =>
    by_cases hv : title = "" ∨ priority < 1 ∨ priority > 10
    · simp only [Call.apply, (addTask_err title desc deadline priority s hv).1]
      exact FreshStep.noop
    · have ht : title ≠ "" := by tauto
      have hp : ¬ (priority < 1 ∨ priority > 10) := by tauto
      simp only [Call.apply, addTask_ok _ _ _ _ _ ht hp]
      exact FreshStep.add (Task.new s.nextId title desc deadline priority) _ rfl rfl rfl rfl rfl
  | deleteTask id =>
    simp only [Call.apply]
    by_cases h : ∃ t ∈ s.tasks, t.id = id
    · obtain ⟨l1, t, l2, hl, h1, ht⟩ := split_at_id id s.tasks h
      rw [deleteTask_split id s l1 l2 t hl h1 ht]
      exact FreshStep.delete l1 t l2 _ hl (by rw [ht]; exact h1) rfl rfl rfl rfl
    · rw [deleteTask_absent id s (fun u hu hid => h ⟨u, hu, hid⟩)]
      exact FreshStep.noop
  | updateTask id title desc deadline priority =>
    simp only [Call.apply, updateTask_eq_editWith]
    apply editWith_freshStep
    intro t
    rfl
  | markTaskCompleted id =>
    simp only [Call.apply, markTaskCompleted_eq_editWith]
    apply editWith_freshStep
    intro t
    rfl
  | editTask id newTitle newDeadline =>
    simp only [Call.apply, editTask_eq_editWith]
    apply editWith_freshStep
    intro t
    rfl
  | updatePriority id newPriority =>
    simp only [Call.apply, updatePriority_eq_editWith]
    apply editWith_freshStep
    intro t
    rfl
  | sortByDeadline => simp [Call.isMutation] at hc
  | undo => simp [Call.isMutation] at hc
  | redo => simp [Call.isMutation] at hc

/-! ## The library sort: rearrangement, order, equivalent elements -/

theorem set_cons_perm {α : Type} (xs : List α) (j : Nat) (x b : α) (h : xs[j]? = some b) :
    List.Perm (b :: xs.set j x) (x :: xs) := by
  induction xs generalizing j with
  | nil => simp at h
  | cons y ys ih =>
    cases j with
    | zero =>
      simp only [List.getElem?_cons_zero, Option.some.injEq] at h
      subst h
      exact List.Perm.swap _ _ _
    | succ j =>
      simp only [List.getElem?_cons_succ] at h
      simp only [List.set_cons_succ]
      exact (List.Perm.swap y b _).trans (((ih j h).cons y).trans (List.Perm.swap x y _))

theorem iter_swap_perm {α : Type} (l : List α) (i j : Nat) : List.Perm (iter_swap l i j) l := by
  induction l generalizing i j with
  | nil => simp [iter_swap]
  | cons x xs ih =>
    cases i with
    | zero =>
      cases j with
      | zero => simp [iter_swap]
      | succ j =>
        unfold iter_swap
        cases hj : xs[j]? with
        | none => simp [hj]
        | some b =>
          simp only [List.getElem?_cons_zero, List.getElem?_cons_succ, hj, List.set_cons_zero,
            List.set_cons_succ]
          exact set_cons_perm xs j x b hj
    | succ i =>
      cases j with
      | zero =>
        unfold iter_swap
        cases hi : xs[i]? with
        | none => simp [hi]
        | some a =>
          simp only [List.getElem?_cons_zero, List.getElem?_cons_succ, hi, List.set_cons_zero,
            List.set_cons_succ]
          exact set_cons_perm xs i x a hi
      | succ j =>
        have h := ih i j
        unfold iter_swap at h ⊢
        simp only [List.getElem?_cons_succ]
        cases hi : xs[i]? with
        | none => simp
        | some a =>
          cases hj : xs[j]? with
          | none => simp
          | some b =>
            simp only [hi, hj] at h
            simp only [List.set_cons_succ]
            exact h.cons x

theorem iter_swap_length {α : Type} (l : List α) (i j : Nat) :
    (iter_swap l i j).length = l.length := (iter_swap_perm l i j).length_eq

theorem move_median_to_first_perm {α : Type} (comp : α → α → Bool) (l : List α)
    (result a b c : Nat) : List.Perm (move_median_to_first comp l result a b c) l := by
  unfold move_median_to_first
  split_ifs <;> exact iter_swap_perm _ _ _

theorem unguarded_partition_perm {α : Type} (comp : α → α → Bool) (fuel : Nat) (l : List α)
    (first last pivot : Nat) :
    List.Perm (unguarded_partition comp fuel l first last pivot).2 l := by
  induction fuel generalizing l first last with
  | zero => exact List.Perm.refl _
  | succ fuel ih =>
    unfold unguarded_partition
    cases hp : l[pivot]? with
    | none => exact List.Perm.refl _
    | some p =>
      simp only
      split_ifs
      · exact (ih _ _ _).trans (iter_swap_perm _ _ _)
      · exact List.Perm.refl _

theorem unguarded_partition_pivot_perm {α : Type} (comp : α → α → Bool) (l : List α)
    (first last : Nat) : List.Perm (unguarded_partition_pivot comp l first last).2 l := by
  unfold unguarded_partition_pivot
  exact (unguarded_partition_perm _ _ _ _ _ _).trans (move_median_to_first_perm _ _ _ _ _ _)

theorem push_heap_perm {α : Type} (comp : α → α → Bool) (first topIndex fuel : Nat)
    (l : List α) (holeIndex : Nat) :
    List.Perm (push_heap comp first topIndex fuel l holeIndex) l := by
  induction fuel generalizing l holeIndex with
  | zero => exact List.Perm.refl _
  | succ fuel ih =>
    unfold push_heap
    simp only
    split_ifs
    · exact (ih _ _).trans (iter_swap_perm _ _ _)
    · exact List.Perm.refl _

theorem adjust_heap_loop_perm {α : Type} (comp : α → α → Bool) (first len fuel : Nat)
    (l : List α) (holeIndex : Nat) :
    List.Perm (adjust_heap_loop comp first len fuel l holeIndex).2 l := by
  induction fuel generalizing l holeIndex with
  | zero => exact List.Perm.refl _
  | succ fuel ih =>
    unfold adjust_heap_loop
    simp only
    split_ifs <;>
      first
      | exact List.Perm.refl _
      | exact (ih _ _).trans (iter_swap_perm _ _ _)

theorem adjust_heap_perm {α : Type} (comp : α → α → Bool) (l : List α)
    (first holeIndex len : Nat) : List.Perm (adjust_heap comp l first holeIndex len) l := by
  unfold adjust_heap
  simp only
  refine (push_heap_perm _ _ _ _ _ _).trans ?_
  split_ifs
  · exact (iter_swap_perm _ _ _).trans (adjust_heap_loop_perm _ _ _ _ _ _)
  · exact adjust_heap_loop_perm _ _ _ _ _ _

theorem pop_heap_perm {α : Type} (comp : α → α → Bool) (l : List α)
    (first last result : Nat) : List.Perm (pop_heap comp l first last result) l :=
  (adjust_heap_perm _ _ _ _ _).trans (iter_swap_perm _ _ _)

theorem make_heap_loop_perm {α : Type} (comp : α → α → Bool) (first len parent : Nat)
    (l : List α) : List.Perm (make_heap_loop comp first len parent l) l := by
  induction parent generalizing l with
  | zero => exact adjust_heap_perm _ _ _ _ _
  | succ parent ih => exact (ih _).trans (adjust_heap_perm _ _ _ _ _)

theorem make_heap_perm {α : Type} (comp : α → α → Bool) (l : List α) (first last : Nat) :
    List.Perm (make_heap comp l first last) l := by
  unfold make_heap
  split_ifs
  · exact List.Perm.refl _
  · exact make_heap_loop_perm _ _ _ _ _

theorem heap_select_perm {α : Type} (comp : α → α → Bool) (l : List α)
    (first middle last : Nat) : List.Perm (heap_select comp l first middle last) l := by
  unfold heap_select
  have key : ∀ (is : List Nat) (m : List α),
      List.Perm (is.foldl
        (fun l i => if compAt comp l i first then pop_heap comp l first middle i else l) m) m := by
    intro is
    induction is with
    | nil => intro m; exact List.Perm.refl _
    | cons i is ih =>
      intro m
      simp only [List.foldl_cons]
      refine (ih _).trans ?_
      split_ifs
      · exact pop_heap_perm _ _ _ _ _
      · exact List.Perm.refl _
  exact (key _ _).trans (make_heap_perm _ _ _ _)

theorem sort_heap_perm {α : Type} (comp : α → α → Bool) (first k : Nat) (l : List α) :
    List.Perm (sort_heap comp first k l) l := by
  induction k generalizing l with
  | zero => simp [sort_heap]
  | succ k ih =>
    cases k with
    | zero => simp [sort_heap]
    | succ k =>
      rw [sort_heap]
      exact (ih _).trans (pop_heap_perm _ _ _ _ _)

theorem heap_sort_perm {α : Type} (comp : α → α → Bool) (l : List α)
    (first middle last : Nat) : List.Perm (heap_sort comp l first middle last) l :=
  (sort_heap_perm _ _ _ _).trans (heap_select_perm _ _ _ _ _)

theorem introsort_loop_perm {α : Type} (comp : α → α → Bool) (depth_limit : Nat) (l : List α)
    (first last : Nat) : List.Perm (introsort_loop comp depth_limit l first last) l := by
  induction depth_limit generalizing l first last with
  | zero =>
    unfold introsort_loop
    split_ifs
    · exact heap_sort_perm _ _ _ _ _
    · exact List.Perm.refl _
  | succ depth_limit ih =>
    unfold introsort_loop
    simp only
    split_ifs
    · exact (ih _ _ _).trans ((ih _ _ _).trans (unguarded_partition_pivot_perm _ _ _ _))
    · exact List.Perm.refl _

theorem introsort_loop_small {α : Type} (comp : α → α → Bool) (depth_limit : Nat) (l : List α)
    (first last : Nat) (h : last - first ≤ 16) :
    introsort_loop comp depth_limit l first last = l := by
  have hn : ¬ last - first > 16 := by omega
  cases depth_limit <;> simp [introsort_loop, hn]

/-! ### Enough fuel -/

theorem scan_up_ge {α : Type} (comp : α → α → Bool) (pivot : α) (xs : List α) (first : Nat) :
    first ≤ scan_up comp pivot xs first := by
  induction xs generalizing first with
  | nil => exact Nat.le_refl _
  | cons x xs ih =>
    unfold scan_up
    split_ifs
    · exact Nat.le_trans (Nat.le_succ _) (ih _)
    · exact Nat.le_refl _

theorem scan_down_le {α : Type} (comp : α → α → Bool) (pivot : α) (xs : List α) (last : Nat) :
    scan_down comp pivot xs last ≤ last := by
  induction xs generalizing last with
  | nil => exact Nat.le_refl _
  | cons x xs ih =>
    unfold scan_down
    split_ifs
    · exact Nat.le_trans (ih _) (Nat.sub_le _ _)
    · exact Nat.le_refl _

/-- The outer loop of `std::__unguarded_partition` on `[first, last)` ends
within `last - first + 1` turns: more fuel changes nothing. -/
theorem unguarded_partition_fuel {α : Type} (comp : α → α → Bool) (f g : Nat) (l : List α)
    (first last pivot : Nat) (hf : last ≤ first + f) (hg : last ≤ first + g) :
    unguarded_partition comp (f + 1) l first last pivot =
      unguarded_partition comp (g + 1) l first last pivot := by
  induction f generalizing g l first last with
  | zero =>
    rw [unguarded_partition, unguarded_partition]
    cases hp : l[pivot]? with
    | none => rfl
    | some p =>
      simp only
      have h1 := scan_up_ge comp p (l.drop first) first
      have h2 := scan_down_le comp p (l.take last).reverse (last - 1)
      rw [if_neg (by omega), if_neg (by omega)]
  | succ f ih =>
    rw [unguarded_partition, unguarded_partition]
    cases hp : l[pivot]? with
    | none => rfl
    | some p =>
      simp only
      have h1 := scan_up_ge comp p (l.drop first) first
      have h2 := scan_down_le comp p (l.take last).reverse (last - 1)
      by_cases hlt : scan_up comp p (l.drop first) first <
          scan_down comp p (l.take last).reverse (last - 1)
      · rw [if_pos hlt, if_pos hlt]
        cases g with
        | zero => omega
        | succ g => exact ih _ _ _ _ (by omega) (by omega)
      · rw [if_neg hlt, if_neg hlt]

/-- The loop of `std::__push_heap` ends within `holeIndex` turns. -/
theorem push_heap_fuel {α : Type} (comp : α → α → Bool) (first topIndex f g : Nat)
    (l : List α) (holeIndex : Nat) (hf : holeIndex ≤ f) (hg : holeIndex ≤ g) :
    push_heap comp first topIndex f l holeIndex =
      push_heap comp first topIndex g l holeIndex := by
  induction f generalizing g l holeIndex with
  | zero =>
    cases g with
    | zero => rfl
    | succ g =>
      have hc : ¬ (holeIndex > topIndex ∧
          compAt comp l (first + (holeIndex - 1) / 2) (first + holeIndex) = true) := by omega
      simp only [push_heap, hc, if_false]
  | succ f ih =>
    cases g with
    | zero =>
      have hc : ¬ (holeIndex > topIndex ∧
          compAt comp l (first + (holeIndex - 1) / 2) (first + holeIndex) = true) := by omega
      simp only [push_heap, hc, if_false]
    | succ g =>
      rw [push_heap, push_heap]
      split_ifs with hc
      · exact ih _ _ _ (by omega) (by omega)
      · rfl

/-- The first loop of `std::__adjust_heap` ends within `(len - 1) / 2 -
holeIndex` turns. -/
theorem adjust_heap_loop_fuel {α : Type} (comp : α → α → Bool) (first len f g : Nat)
    (l : List α) (holeIndex : Nat) (hf : (len - 1) / 2 ≤ holeIndex + f)
    (hg : (len - 1) / 2 ≤ holeIndex + g) :
    adjust_heap_loop comp first len f l holeIndex =
      adjust_heap_loop comp first len g l holeIndex := by
  induction f generalizing g l holeIndex with
  | zero =>
    cases g with
    | zero => rfl
    | succ g =>
      have hc : ¬ holeIndex < (len - 1) / 2 := by omega
      simp only [adjust_heap_loop, hc, if_false]
  | succ f ih =>
    cases g with
    | zero =>
      have hc : ¬ holeIndex < (len - 1) / 2 := by omega
      simp only [adjust_heap_loop, hc, if_false]
    | succ g =>
      rw [adjust_heap_loop, adjust_heap_loop]
      simp only
      split_ifs with hc h2
      · exact ih _ _ _ (by omega) (by omega)
      · exact ih _ _ _ (by omega) (by omega)
      · rfl

theorem lg_loop_spec (fuel n : Nat) (hn : 0 < n) (hf : n ≤ fuel) :
    2 ^ lg_loop fuel n ≤ n ∧ n < 2 ^ (lg_loop fuel n + 1) := by
  induction fuel generalizing n with
  | zero => omega
  | succ fuel ih =>
    unfold lg_loop
    split_ifs with h1
    · have : n = 1 := by omega
      subst this
      simp
    · have h := ih (n / 2) (by omega) (by omega)
      rw [pow_succ, pow_succ]
      omega

/-- The function `lg` is the floor of the binary logarithm, as `std::__lg`. -/
theorem lg_spec (n : Nat) (hn : 0 < n) : 2 ^ lg n ≤ n ∧ n < 2 ^ (lg n + 1) :=
  lg_loop_spec n n hn (Nat.le_refl _)

/-! ### The final insertion sort -/

theorem unguarded_linear_insert_perm {α : Type} (comp : α → α → Bool) (val : α)
    (sorted : List α) : List.Perm (unguarded_linear_insert comp val sorted) (val :: sorted) := by
  induction sorted with
  | nil => exact List.Perm.refl _
  | cons x xs ih =>
    unfold unguarded_linear_insert
    split_ifs
    · exact (ih.cons x).trans (List.Perm.swap _ _ _)
    · exact List.Perm.refl _

theorem insertion_step_perm {α : Type} (comp : α → α → Bool) (sorted : List α) (val : α) :
    List.Perm (insertion_step comp sorted val) (val :: sorted) := by
  unfold insertion_step
  cases h : sorted.getLast? with
  | none =>
    have : sorted = [] := List.getLast?_eq_none_iff.mp h
    subst this
    exact List.Perm.refl _
  | some front =>
    simp only
    split_ifs
    · exact List.perm_append_singleton _ _
    · exact unguarded_linear_insert_perm _ _ _

theorem foldl_insertion_step_perm {α : Type} (comp : α → α → Bool) (l sorted : List α) :
    List.Perm (l.foldl (insertion_step comp) sorted) (sorted ++ l) := by
  induction l generalizing sorted with
  | nil => simp
  | cons v vs ih =>
    simp only [List.foldl_cons]
    refine (ih _).trans ?_
    refine ((insertion_step_perm comp sorted v).append_right vs).trans ?_
    simp only [List.cons_append]
    exact List.perm_middle.symm

theorem foldl_unguarded_perm {α : Type} (comp : α → α → Bool) (l sorted : List α) :
    List.Perm (l.foldl (fun sorted val => unguarded_linear_insert comp val sorted) sorted)
      (sorted ++ l) := by
  induction l generalizing sorted with
  | nil => simp
  | cons v vs ih =>
    simp only [List.foldl_cons]
    refine (ih _).trans ?_
    refine ((unguarded_linear_insert_perm comp v sorted).append_right vs).trans ?_
    simp only [List.cons_append]
    exact List.perm_middle.symm

theorem final_insertion_sort_perm {α : Type} (comp : α → α → Bool) (l : List α) :
    List.Perm (final_insertion_sort comp l) l := by
  unfold final_insertion_sort
  split_ifs
  · refine (List.reverse_perm _).trans ((foldl_unguarded_perm _ _ _).trans ?_)
    refine ((foldl_insertion_step_perm comp (l.take 16) []).append_right _).trans ?_
    simp
  · refine (List.reverse_perm _).trans ((foldl_insertion_step_perm _ _ _).trans ?_)
    simp

/-- The function `std_sort` returns a permutation of the array, whatever the
comparison. -/
theorem std_sort_perm {α : Type} (comp : α → α → Bool) (l : List α) :
    List.Perm (std_sort comp l) l := by
  unfold std_sort
  split_ifs
  · exact List.Perm.refl _
  · exact (final_insertion_sort_perm _ _).trans (introsort_loop_perm _ _ _ _ _)

theorem unguarded_linear_insert_sorted {α : Type} (comp : α → α → Bool)
    (hasym : ∀ a b, comp a b = true → comp b a = false)
    (hnt : ∀ a b c, comp a c = true → comp a b = true ∨ comp b c = true)
    (val : α) (sorted : List α) (hs : sorted.Pairwise (fun y x => comp y x = false)) :
    (unguarded_linear_insert comp val sorted).Pairwise (fun y x => comp y x = false) := by
  induction sorted with
  | nil => simp [unguarded_linear_insert]
  | cons x xs ih =>
    rw [List.pairwise_cons] at hs
    unfold unguarded_linear_insert
    split_ifs with hc
    · rw [List.pairwise_cons]
      refine ⟨?_, ih hs.2⟩
      intro w hw
      have hw2 := (unguarded_linear_insert_perm comp val xs).mem_iff.mp hw
      rcases List.mem_cons.mp hw2 with rfl | hw3
      · exact hasym _ _ hc
      · exact hs.1 w hw3
    · rw [List.pairwise_cons]
      refine ⟨?_, List.pairwise_cons.mpr hs⟩
      intro z hz
      rcases List.mem_cons.mp hz with rfl | hz2
      · simpa using hc
      · cases hvz : comp val z with
        | false => rfl
        | true =>
          rcases hnt val x z hvz with h1 | h2
          · exact absurd h1 hc
          · rw [hs.1 z hz2] at h2
            exact absurd h2 (by decide)

/-- With the first element of the array greater than `val`, no element of the
sorted part is smaller than or equivalent to `val`. -/
theorem front_case {α : Type} (comp : α → α → Bool)
    (hasym : ∀ a b, comp a b = true → comp b a = false)
    (hnt : ∀ a b c, comp a c = true → comp a b = true ∨ comp b c = true)
    (val front : α) (sorted : List α) (hs : sorted.Pairwise (fun y x => comp y x = false))
    (hl : sorted.getLast? = some front) (hc : comp val front = true) (z : α) (hz : z ∈ sorted) :
    comp z front = false ∧ comp z val = false := by
  obtain ⟨init, rfl⟩ : ∃ init, sorted = init ++ [front] := by
    rw [List.getLast?_eq_some_iff] at hl
    exact hl
  have hff : comp front front = false := by
    cases h : comp front front with
    | false => rfl
    | true => rw [hasym _ _ h] at h; exact absurd h (by decide)
  have hzf : comp z front = false := by
    rcases List.mem_append.mp hz with h1 | h1
    · rw [List.pairwise_append] at hs
      exact hs.2.2 z h1 front (List.mem_singleton_self _)
    · rw [List.mem_singleton.mp h1]
      exact hff
  refine ⟨hzf, ?_⟩
  cases hzv : comp z val with
  | false => rfl
  | true =>
    rcases hnt z front val hzv with h1 | h2
    · rw [hzf] at h1; exact absurd h1 (by decide)
    · rw [hasym _ _ hc] at h2; exact absurd h2 (by decide)

theorem insertion_step_sorted {α : Type} (comp : α → α → Bool)
    (hasym : ∀ a b, comp a b = true → comp b a = false)
    (hnt : ∀ a b c, comp a c = true → comp a b = true ∨ comp b c = true)
    (sorted : List α) (val : α) (hs : sorted.Pairwise (fun y x => comp y x = false)) :
    (insertion_step comp sorted val).Pairwise (fun y x => comp y x = false) := by
  unfold insertion_step
  cases hl : sorted.getLast? with
  | none => simp
  | some front =>
    simp only
    split_ifs with hc
    · rw [List.pairwise_append]
      refine ⟨hs, by simp, ?_⟩
      intro z hz w hw
      rw [List.mem_singleton.mp hw]
      exact (front_case comp hasym hnt val front sorted hs hl hc z hz).2
    · exact unguarded_linear_insert_sorted comp hasym hnt val sorted hs

theorem unguarded_linear_insert_filter {α : Type} (comp : α → α → Bool) (q : α → Bool)
    (hq : ∀ a b, q a = true → q b = true → comp a b = false)
    (val : α) (sorted : List α) :
    (unguarded_linear_insert comp val sorted).filter q = (val :: sorted).filter q := by
  induction sorted with
  | nil => rfl
  | cons x xs ih =>
    unfold unguarded_linear_insert
    split_ifs with hc
    · rw [List.filter_cons, ih]
      cases hv : q val with
      | false => simp [List.filter_cons, hv]
      | true =>
        cases hx : q x with
        | false => simp [List.filter_cons, hv, hx]
        | true =>
          rw [hq val x hv hx] at hc
          exact absurd hc (by decide)
    · rfl

theorem insertion_step_filter {α : Type} (comp : α → α → Bool)
    (hasym : ∀ a b, comp a b = true → comp b a = false)
    (hnt : ∀ a b c, comp a c = true → comp a b = true ∨ comp b c = true)
    (q : α → Bool) (hq : ∀ a b, q a = true → q b = true → comp a b = false)
    (sorted : List α) (val : α) (hs : sorted.Pairwise (fun y x => comp y x = false)) :
    (insertion_step comp sorted val).filter q = (val :: sorted).filter q := by
  unfold insertion_step
  cases hl : sorted.getLast? with
  | none =>
    have : sorted = [] := List.getLast?_eq_none_iff.mp hl
    subst this
    rfl
  | some front =>
    simp only
    split_ifs with hc
    · cases hv : q val with
      | false => simp [List.filter_cons, hv]
      | true =>
        have hnone : sorted.filter q = [] := by
          rw [List.filter_eq_nil_iff]
          intro z hz hqz
          have h1 := front_case comp hasym hnt val front sorted hs hl hc z hz
          rcases hnt val z front hc with h2 | h2
          · rw [hq val z hv hqz] at h2; exact absurd h2 (by decide)
          · rw [h1.1] at h2; exact absurd h2 (by decide)
        simp [List.filter_cons, hv, hnone]
    · exact unguarded_linear_insert_filter comp q hq val sorted

theorem foldl_insertion_step_inv {α : Type} (comp : α → α → Bool)
    (hasym : ∀ a b, comp a b = true → comp b a = false)
    (hnt : ∀ a b c, comp a c = true → comp a b = true ∨ comp b c = true)
    (l sorted : List α) (hs : sorted.Pairwise (fun y x => comp y x = false)) :
    (l.foldl (insertion_step comp) sorted).Pairwise (fun y x => comp y x = false) ∧
    ∀ q : α → Bool, (∀ a b, q a = true → q b = true → comp a b = false) →
      (l.foldl (insertion_step comp) sorted).filter q = (l.reverse ++ sorted).filter q := by
  induction l generalizing sorted with
  | nil => exact ⟨hs, fun _ _ => by simp⟩
  | cons v vs ih =>
    simp only [List.foldl_cons]
    have h := ih _ (insertion_step_sorted comp hasym hnt sorted v hs)
    refine ⟨h.1, ?_⟩
    intro q hq
    rw [h.2 q hq, List.filter_append, insertion_step_filter comp hasym hnt q hq sorted v hs,
      ← List.filter_append]
    simp

theorem foldl_unguarded_inv {α : Type} (comp : α → α → Bool)
    (hasym : ∀ a b, comp a b = true → comp b a = false)
    (hnt : ∀ a b c, comp a c = true → comp a b = true ∨ comp b c = true)
    (l sorted : List α) (hs : sorted.Pairwise (fun y x => comp y x = false)) :
    (l.foldl (fun sorted val => unguarded_linear_insert comp val sorted) sorted).Pairwise
      (fun y x => comp y x = false) ∧
    ∀ q : α → Bool, (∀ a b, q a = true → q b = true → comp a b = false) →
      (l.foldl (fun sorted val => unguarded_linear_insert comp val sorted) sorted).filter q =
        (l.reverse ++ sorted).filter q := by
  induction l generalizing sorted with
  | nil => exact ⟨hs, fun _ _ => by simp⟩
  | cons v vs ih =>
    simp only [List.foldl_cons]
    have h := ih _ (unguarded_linear_insert_sorted comp hasym hnt v sorted hs)
    refine ⟨h.1, ?_⟩
    intro q hq
    rw [h.2 q hq, List.filter_append, unguarded_linear_insert_filter comp q hq v sorted,
      ← List.filter_append]
    simp

/-- The final insertion sort leaves the array sorted and keeps the elements
of a class of pairwise equivalent elements in their order. -/
theorem final_insertion_sort_inv {α : Type} (comp : α → α → Bool)
    (hasym : ∀ a b, comp a b = true → comp b a = false)
    (hnt : ∀ a b c, comp a c = true → comp a b = true ∨ comp b c = true)
    (l : List α) :
    (final_insertion_sort comp l).Pairwise (fun a b => comp b a = false) ∧
    ∀ q : α → Bool, (∀ a b, q a = true → q b = true → comp a b = false) →
      (final_insertion_sort comp l).filter q = l.filter q := by
  unfold final_insertion_sort
  split_ifs
  · have h1 := foldl_insertion_step_inv comp hasym hnt (l.take 16) [] List.Pairwise.nil
    have h2 := foldl_unguarded_inv comp hasym hnt (l.drop 16) _ h1.1
    refine ⟨List.pairwise_reverse.mpr h2.1, ?_⟩
    intro q hq
    rw [List.filter_reverse, h2.2 q hq, List.filter_append, h1.2 q hq, List.reverse_append,
      List.append_nil, ← List.filter_reverse, ← List.filter_reverse, List.reverse_reverse,
      List.reverse_reverse, ← List.filter_append, List.take_append_drop]
  · have h1 := foldl_insertion_step_inv comp hasym hnt l [] List.Pairwise.nil
    refine ⟨List.pairwise_reverse.mpr h1.1, ?_⟩
    intro q hq
    rw [List.filter_reverse, h1.2 q hq, List.append_nil, ← List.filter_reverse,
      List.reverse_reverse]

/-- Under a strict weak order `std_sort` returns a sorted array. -/
theorem std_sort_sorted {α : Type} (comp : α → α → Bool)
    (hasym : ∀ a b, comp a b = true → comp b a = false)
    (hnt : ∀ a b c, comp a c = true → comp a b = true ∨ comp b c = true)
    (l : List α) : (std_sort comp l).Pairwise (fun a b => comp b a = false) := by
  unfold std_sort
  split_ifs with h
  · rw [List.length_eq_zero.mp h]
    exact List.Pairwise.nil
  · exact (final_insertion_sort_inv comp hasym hnt _).1

/-- Under a strict weak order `std_sort` keeps equivalent elements of an array
of at most 16 elements in their order. -/
theorem std_sort_stable {α : Type} (comp : α → α → Bool)
    (hasym : ∀ a b, comp a b = true → comp b a = false)
    (hnt : ∀ a b c, comp a c = true → comp a b = true ∨ comp b c = true)
    (q : α → Bool) (hq : ∀ a b, q a = true → q b = true → comp a b = false)
    (l : List α) (hlen : l.length ≤ 16) : (std_sort comp l).filter q = l.filter q := by
  unfold std_sort
  split_ifs with h
  · rfl
  · rw [introsort_loop_small comp _ l 0 l.length (by omega)]
    exact (final_insertion_sort_inv comp hasym hnt l).2 q hq

theorem sortTasksByDeadline_perm (l : List Task) : List.Perm (sortTasksByDeadline l) l :=
  std_sort_perm deadlineLess l

theorem replayStep_apply (c : Call) (s : TaskManager) (hc : c.isMutation = false) :
    ReplayStep s (c.apply s) := by
  cases c with
  | sortByDeadline =>
    exact ReplayStep.sort _ (sortTasksByDeadline_perm s.tasks) rfl rfl rfl
  | undo =>
    simp only [Call.apply]
    cases h : s.undoActions.items with
    | nil => rw [undo_nil s h]; exact ReplayStep.noop
    | cons a rest =>
      rw [undo_cons s a rest h]
      exact ReplayStep.undo a rest _ h rfl rfl rfl rfl
  | redo =>
    simp only [Call.apply]
    cases h : s.redoActions.items with
    | nil => rw [redo_nil s h]; exact ReplayStep.noop
    | cons a rest =>
      rw [redo_cons s a rest h]
      exact ReplayStep.redo a rest _ h rfl rfl rfl rfl
  | addTask title desc deadline priority => simp [Call.isMutation] at hc
  | deleteTask id => simp [Call.isMutation] at hc
  | updateTask id title desc deadline priority => simp [Call.isMutation] at hc
  | markTaskCompleted id => simp [Call.isMutation] at hc
  | editTask id newTitle newDeadline => simp [Call.isMutation] at hc
  | updatePriority id newPriority => simp [Call.isMutation] at hc

/-! ## Ids stay below the counter -/

theorem mem_undoTasks (a : UndoAction) (l : List Task) (t : Task)
    (h : t ∈ undoTasks a l) : t ∈ l ∨ t = a.before := by
  unfold undoTasks at h
  split at h
  · split at h
    · exact Or.inl (List.mem_of_mem_eraseIdx h)
    · exact Or.inl h
  · split at h
    · split at h
      · exact List.mem_or_eq_of_mem_set h
      · exact Or.inl h
    · split at h
      · simpa using h
      · exact Or.inl h

theorem mem_redoTasks (a : UndoAction) (l : List Task) (t : Task)
    (h : t ∈ redoTasks a l) : t ∈ l ∨ t = a.after := by
  unfold redoTasks at h
  split at h
  · simpa using h
  · split at h
    · split at h
      · exact List.mem_or_eq_of_mem_set h
      · exact Or.inl h
    · split at h
      · split at h
        · exact Or.inl (List.mem_of_mem_eraseIdx h)
        · exact Or.inl h
      · exact Or.inl h

theorem idsBelow_new : IdsBelow TaskManager.new := by
  refine ⟨by decide, ?_, ?_, ?_⟩ <;> intro x hx <;> simp [TaskManager.new, Stack.empty] at hx

theorem idsBelow_freshStep (s s2 : TaskManager) (h : IdsBelow s) (hs : FreshStep s s2) :
    IdsBelow s2 := by
  obtain ⟨hpos, htasks, hU, hR⟩ := h
  cases hs with
  | noop => exact ⟨hpos, htasks, hU, hR⟩
  | add t _ hid ht hn hu hr =>
    refine ⟨by omega, ?_, ?_, ?_⟩
    · intro u hu2
      rw [ht] at hu2
      rcases List.mem_append.1 hu2 with h1 | h1
      · have := htasks u h1; omega
      · have : u = t := by simpa using h1
        subst this; omega
    · intro a ha
      rw [hu] at ha
      rcases mem_push _ _ _ ha with rfl | h1
      · simp only [Task.default]; omega
      · have := hU a h1; omega
    · intro a ha
      rw [hr] at ha
      have := hR a ha; omega
  | delete l1 t l2 _ hl h1 ht hn hu hr =>
    have htm : t ∈ s.tasks := by rw [hl]; simp
    refine ⟨by omega, ?_, ?_, ?_⟩
    · intro u hu2
      rw [ht] at hu2
      have hum : u ∈ s.tasks := by
        rw [hl]
        rcases List.mem_append.1 hu2 with h2 | h2
        · exact List.mem_append_left _ h2
        · exact List.mem_append_right _ (List.mem_cons_of_mem _ h2)
      have := htasks u hum; omega
    · intro a ha
      rw [hu] at ha
      rcases mem_push _ _ _ ha with rfl | h2
      · have := htasks t htm
        simp only [Task.default]; omega
      · have := hU a h2; omega
    · intro a ha
      rw [hr] at ha
      have := hR a ha; omega
  | edit l1 t t2 l2 _ hl h1 hid ht hn hu hr =>
    have htm : t ∈ s.tasks := by rw [hl]; simp
    have htlt := htasks t htm
    refine ⟨by omega, ?_, ?_, ?_⟩
    · intro u hu2
      rw [ht] at hu2
      rcases List.mem_append.1 hu2 with h2 | h2
      · have := htasks u (by rw [hl]; exact List.mem_append_left _ h2); omega
      · rcases List.mem_cons.1 h2 with rfl | h3
        · omega
        · have := htasks u (by rw [hl]; exact List.mem_append_right _ (List.mem_cons_of_mem _ h3))
          omega
    · intro a ha
      rw [hu] at ha
      rcases mem_push _ _ _ ha with rfl | h2
      · simp only; omega
      · have := hU a h2; omega
    · intro a ha
      rw [hr] at ha
      have := hR a ha; omega

theorem idsBelow_replayStep (s s2 : TaskManager) (h : IdsBelow s) (hs : ReplayStep s s2) :
    IdsBelow s2 := by
  obtain ⟨hpos, htasks, hU, hR⟩ := h
  cases hs with
  | noop => exact ⟨hpos, htasks, hU, hR⟩
  | sort _ hp hn hu hr =>
    refine ⟨by omega, ?_, by rw [hu, hn]; exact hU, by rw [hr, hn]; exact hR⟩
    intro u hu2
    have := htasks u (hp.subset hu2); omega
  | undo a rest _ hl ht hn hu hr =>
    have ha := hU a (by rw [hl]; simp)
    refine ⟨by omega, ?_, ?_, ?_⟩
    · intro u hu2
      rw [ht] at hu2
      rcases mem_undoTasks _ _ _ hu2 with h1 | rfl
      · have := htasks u h1; omega
      · omega
    · intro b hb
      rw [hu] at hb
      have := hU b (by rw [hl]; exact List.mem_cons_of_mem _ hb); omega
    · intro b hb
      rw [hr] at hb
      rcases mem_push _ _ _ hb with rfl | h1
      · omega
      · have := hR b h1; omega
  | redo a rest _ hl ht hn hr hu =>
    have ha := hR a (by rw [hl]; simp)
    refine ⟨by omega, ?_, ?_, ?_⟩
    · intro u hu2
      rw [ht] at hu2
      rcases mem_redoTasks _ _ _ hu2 with h1 | rfl
      · have := htasks u h1; omega
      · omega
    · intro b hb
      rw [hu] at hb
      rcases mem_push _ _ _ hb with rfl | h1
      · omega
      · have := hU b h1; omega
    · intro b hb
      rw [hr] at hb
      have := hR b (by rw [hl]; exact List.mem_cons_of_mem _ hb); omega

theorem idsBelow_apply (c : Call) (s : TaskManager) (h : IdsBelow s) : IdsBelow (c.apply s) := by
  cases hc : c.isMutation with
  | true => exact idsBelow_freshStep s _ h (freshStep_apply c s hc)
  | false => exact idsBelow_replayStep s _ h (replayStep_apply c s hc)

theorem idsBelow_run (cs : List Call) (s : TaskManager) (h : IdsBelow s) :
    IdsBelow (run cs s) := by
  induction cs generalizing s with
  | nil => exact h
  | cons c cs ih => exact ih _ (idsBelow_apply c s h)

/-! ## A mutation followed by `undo` -/

theorem undo_editWith_tasks (f : Task → Task) (hf : ∀ t, (f t).id = t.id) (id : Int)
    (s : TaskManager) (hroom : s.undoActions.items.length < MAX_SIZE)
    (hid : ∃ t ∈ s.tasks, t.id = id) :
    (undo (editWith f id s)).tasks = s.tasks := by
  obtain ⟨l1, t, l2, hl, h1, ht⟩ := split_at_id id s.tasks hid
  rw [editWith_split f id s l1 l2 t hl h1 ht]
  rw [undo_cons _ ⟨"edit", t, f t⟩ s.undoActions.items
    (by simp [push_items_of_lt _ _ hroom])]
  simp only [syncDataStructures_tasks]
  rw [undoTasks_edit_split ⟨"edit", t, f t⟩ l1 l2 (f t) rfl (by rw [ht]; exact h1) (hf t), hl]

/-! ## Unique ids and rearrangements -/

theorem eq_of_id_eq (l : List Task) (hnd : (l.map Task.id).Nodup) (t u : Task)
    (ht : t ∈ l) (hu : u ∈ l) (hid : t.id = u.id) : t = u :=
  List.inj_on_of_nodup_map hnd ht hu hid

theorem perm_split_cancel (l1 l2 m1 m2 : List Task) (t : Task)
    (hp : List.Perm (l1 ++ t :: l2) (m1 ++ t :: m2)) : List.Perm (l1 ++ l2) (m1 ++ m2) :=
  (List.perm_middle.symm.trans (hp.trans List.perm_middle)).cons_inv

theorem nodup_ids_perm (l l2 : List Task) (hp : List.Perm l l2)
    (hnd : (l.map Task.id).Nodup) : (l2.map Task.id).Nodup :=
  (hp.map Task.id).nodup_iff.1 hnd

theorem nodup_ids_split (l1 l2 : List Task) (t : Task)
    (hnd : ((l1 ++ t :: l2).map Task.id).Nodup) :
    ((l1 ++ l2).map Task.id).Nodup ∧ ∀ u ∈ l1 ++ l2, u.id ≠ t.id := by
  have hp : List.Perm (l1 ++ t :: l2) (t :: (l1 ++ l2)) := List.perm_middle
  have h2 := nodup_ids_perm _ _ hp hnd
  simp only [List.map_cons, List.nodup_cons, List.mem_map, not_exists, not_and] at h2
  exact ⟨h2.2, fun u hu => h2.1 u hu⟩

theorem nodup_ids_replace (l1 l2 : List Task) (t t2 : Task) (hid : t2.id = t.id)
    (hnd : ((l1 ++ t :: l2).map Task.id).Nodup) : ((l1 ++ t2 :: l2).map Task.id).Nodup := by
  have : (l1 ++ t2 :: l2).map Task.id = (l1 ++ t :: l2).map Task.id := by simp [hid]
  rw [this]
  exact hnd

/-- Removing the first task with an id gives rearrangements of each other on
rearrangements of a collection with unique ids. -/
theorem erase_first_perm (id : Int) (l l2 : List Task) (hp : List.Perm l l2)
    (hnd : (l.map Task.id).Nodup) :
    List.Perm
      (match find_if (fun task => task.id == id) l with
        | some it => l.eraseIdx it
        | none => l)
      (match find_if (fun task => task.id == id) l2 with
        | some it => l2.eraseIdx it
        | none => l2) := by
  by_cases h : ∃ t ∈ l, t.id = id
  · obtain ⟨t0, ht0, hid0⟩ := h
    obtain ⟨a1, t, a2, ha, ha1, hta⟩ := split_at_id id l ⟨t0, ht0, hid0⟩
    obtain ⟨b1, u, b2, hb, hb1, hub⟩ := split_at_id id l2 ⟨t0, hp.subset ht0, hid0⟩
    have hf1 := find_if_of_split (fun task => task.id == id) a1 a2 t
      (id_pred_false_of_ne id a1 ha1) (by simpa using hta)
    have hf2 := find_if_of_split (fun task => task.id == id) b1 b2 u
      (id_pred_false_of_ne id b1 hb1) (by simpa using hub)
    have htu : t = u := by
      apply eq_of_id_eq l hnd
      · rw [ha]; simp
      · apply hp.symm.subset; rw [hb]; simp
      · rw [hta, hub]
    subst htu
    subst ha
    subst hb
    rw [hf1, hf2]
    simp only [eraseIdx_split]
    exact perm_split_cancel _ _ _ _ _ hp
  · have h1 : ∀ u ∈ l, u.id ≠ id := fun u hu hid => h ⟨u, hu, hid⟩
    have h2 : ∀ u ∈ l2, u.id ≠ id := fun u hu hid => h ⟨u, hp.symm.subset hu, hid⟩
    rw [(find_if_eq_none _ _).2 (id_pred_false_of_ne id _ h1),
      (find_if_eq_none _ _).2 (id_pred_false_of_ne id _ h2)]
    exact hp

/-- Overwriting the first task with an id gives rearrangements of each other
on rearrangements of a collection with unique ids. -/
theorem set_first_perm (id : Int) (b : Task) (l l2 : List Task) (hp : List.Perm l l2)
    (hnd : (l.map Task.id).Nodup) :
    List.Perm
      (match find_if (fun task => task.id == id) l with
        | some it => l.set it b
        | none => l)
      (match find_if (fun task => task.id == id) l2 with
        | some it => l2.set it b
        | none => l2) := by
  by_cases h : ∃ t ∈ l, t.id = id
  · obtain ⟨t0, ht0, hid0⟩ := h
    obtain ⟨a1, t, a2, ha, ha1, hta⟩ := split_at_id id l ⟨t0, ht0, hid0⟩
    obtain ⟨b1, u, b2, hb, hb1, hub⟩ := split_at_id id l2 ⟨t0, hp.subset ht0, hid0⟩
    have hf1 := find_if_of_split (fun task => task.id == id) a1 a2 t
      (id_pred_false_of_ne id a1 ha1) (by simpa using hta)
    have hf2 := find_if_of_split (fun task => task.id == id) b1 b2 u
      (id_pred_false_of_ne id b1 hb1) (by simpa using hub)
    have htu : t = u := by
      apply eq_of_id_eq l hnd
      · rw [ha]; simp
      · apply hp.symm.subset; rw [hb]; simp
      · rw [hta, hub]
    subst htu
    subst ha
    subst hb
    rw [hf1, hf2]
    simp only [set_split]
    have := perm_split_cancel _ _ _ _ _ hp
    exact List.perm_middle.trans ((this.cons b).trans List.perm_middle.symm)
  · have h1 : ∀ u ∈ l, u.id ≠ id := fun u hu hid => h ⟨u, hu, hid⟩
    have h2 : ∀ u ∈ l2, u.id ≠ id := fun u hu hid => h ⟨u, hp.symm.subset hu, hid⟩
    rw [(find_if_eq_none _ _).2 (id_pred_false_of_ne id _ h1),
      (find_if_eq_none _ _).2 (id_pred_false_of_ne id _ h2)]
    exact hp

theorem undoTasks_perm (a : UndoAction) (l l2 : List Task) (hp : List.Perm l l2)
    (hnd : (l.map Task.id).Nodup) : List.Perm (undoTasks a l) (undoTasks a l2) := by
  unfold undoTasks
  split
  · exact erase_first_perm _ l l2 hp hnd
  · split
    · exact set_first_perm _ _ l l2 hp hnd
    · split
      · exact hp.append_right _
      · exact hp

theorem redoTasks_perm (a : UndoAction) (l l2 : List Task) (hp : List.Perm l l2)
    (hnd : (l.map Task.id).Nodup) : List.Perm (redoTasks a l) (redoTasks a l2) := by
  unfold redoTasks
  split
  · exact hp.append_right _
  · split
    · exact set_first_perm _ _ l l2 hp hnd
    · split
      · exact erase_first_perm _ l l2 hp hnd
      · exact hp

/-! ## Replaying an action that matches the collection -/

theorem split_at_member (l : List Task) (hnd : (l.map Task.id).Nodup) (t : Task)
    (ht : t ∈ l) :
    ∃ l1 l2, l = l1 ++ t :: l2 ∧ (∀ u ∈ l1, u.id ≠ t.id) ∧ (∀ u ∈ l1 ++ l2, u.id ≠ t.id) ∧
      ((l1 ++ l2).map Task.id).Nodup := by
  obtain ⟨l1, t1, l2, hl, h1, hid⟩ := split_at_id t.id l ⟨t, ht, rfl⟩
  have : t1 = t := eq_of_id_eq l hnd t1 t (by rw [hl]; simp) ht hid
  subst this
  rw [hl] at hnd
  obtain ⟨hn2, hne⟩ := nodup_ids_split l1 l2 t1 hnd
  exact ⟨l1, l2, hl, h1, hne, hn2⟩

theorem nodup_ids_append_singleton (l : List Task) (t : Task)
    (hnd : (l.map Task.id).Nodup) (h : ∀ u ∈ l, u.id ≠ t.id) :
    ((l ++ [t]).map Task.id).Nodup := by
  have hp : List.Perm (t :: l) (l ++ [t]) := List.perm_append_singleton t l |>.symm
  apply nodup_ids_perm _ _ hp
  simp only [List.map_cons, List.nodup_cons, List.mem_map, not_exists, not_and]
  exact ⟨fun u hu => h u hu, hnd⟩

/-- An action that matches the collection can be undone and then redone: the
collection in between has unique ids and matches the action for `redo`, and
the collection at the end is the one at the start, up to the position of a
task that was added. -/
theorem undo_then_redo (a : UndoAction) (l : List Task) (hnd : (l.map Task.id).Nodup)
    (hr : UndoReady a l) :
    ((undoTasks a l).map Task.id).Nodup ∧ RedoReady a (undoTasks a l) ∧
    List.Perm (redoTasks a (undoTasks a l)) l ∧
    (a.type ≠ "add" → redoTasks a (undoTasks a l) = l) ∧
    (a.type = "add" → ∃ l1 l2, l = l1 ++ a.after :: l2 ∧
      redoTasks a (undoTasks a l) = l1 ++ l2 ++ [a.after]) := by
  rcases hr with ⟨hty, hmem⟩ | ⟨hty, hmem, hid⟩ | ⟨hty, habs⟩
  · obtain ⟨l1, l2, hl, h1, hne, hn2⟩ := split_at_member l hnd a.after hmem
    have hu : undoTasks a l = l1 ++ l2 := by
      rw [hl]; exact undoTasks_add_split a l1 l2 a.after hty h1 rfl
    rw [hu, redoTasks_add a _ hty]
    refine ⟨hn2, Or.inl ⟨hty, hne⟩, ?_, fun h => absurd hty h, fun _ => ⟨l1, l2, hl, rfl⟩⟩
    rw [hl, List.append_assoc]
    exact List.Perm.append_left l1 (List.perm_append_singleton _ l2)
  · obtain ⟨l1, l2, hl, h1, hne, hn2⟩ := split_at_member l hnd a.after hmem
    have hu : undoTasks a l = l1 ++ a.before :: l2 := by
      rw [hl]
      exact undoTasks_edit_split a l1 l2 a.after hty (by rw [hid]; exact h1) hid.symm
    have hre : redoTasks a (l1 ++ a.before :: l2) = l := by
      rw [hl]
      exact redoTasks_edit_split a l1 l2 a.before hty h1 hid
    have hnadd : ¬ a.type = "add" := by rw [hty]; decide
    rw [hu, hre]
    refine ⟨?_, Or.inr (Or.inl ⟨hty, by simp, hid⟩), List.Perm.refl _, fun _ => rfl,
      fun h => absurd h hnadd⟩
    apply nodup_ids_replace l1 l2 a.after a.before hid
    rw [← hl]
    exact hnd
  · have hu : undoTasks a l = l ++ [a.before] := undoTasks_delete a l hty
    have hre : redoTasks a (l ++ [a.before]) = l := by
      have := redoTasks_delete_split a l [] a.before hty habs rfl
      simpa using this
    have hnadd : ¬ a.type = "add" := by rw [hty]; decide
    rw [hu, hre]
    exact ⟨nodup_ids_append_singleton l a.before hnd habs, Or.inr (Or.inr ⟨hty, by simp⟩),
      List.Perm.refl _, fun _ => rfl, fun h => absurd h hnadd⟩

/-- An action that matches the collection can be redone and then undone. -/
theorem redo_then_undo (a : UndoAction) (l : List Task) (hnd : (l.map Task.id).Nodup)
    (hr : RedoReady a l) :
    ((redoTasks a l).map Task.id).Nodup ∧ UndoReady a (redoTasks a l) ∧
    List.Perm (undoTasks a (redoTasks a l)) l := by
  rcases hr with ⟨hty, habs⟩ | ⟨hty, hmem, hid⟩ | ⟨hty, hmem⟩
  · have hre : redoTasks a l = l ++ [a.after] := redoTasks_add a l hty
    have hu : undoTasks a (l ++ [a.after]) = l := by
      have := undoTasks_add_split a l [] a.after hty habs rfl
      simpa using this
    rw [hre, hu]
    exact ⟨nodup_ids_append_singleton l a.after hnd habs, Or.inl ⟨hty, by simp⟩,
      List.Perm.refl _⟩
  · obtain ⟨l1, l2, hl, h1, hne, hn2⟩ := split_at_member l hnd a.before hmem
    have hre : redoTasks a l = l1 ++ a.after :: l2 := by
      rw [hl]
      exact redoTasks_edit_split a l1 l2 a.before hty (by rw [← hid]; exact h1) hid
    have hu : undoTasks a (l1 ++ a.after :: l2) = l := by
      rw [hl]
      exact undoTasks_edit_split a l1 l2 a.after hty h1 hid.symm
    rw [hre, hu]
    refine ⟨?_, Or.inr (Or.inl ⟨hty, by simp, hid⟩), List.Perm.refl _⟩
    apply nodup_ids_replace l1 l2 a.before a.after hid.symm
    rw [← hl]
    exact hnd
  · obtain ⟨l1, l2, hl, h1, hne, hn2⟩ := split_at_member l hnd a.before hmem
    have hre : redoTasks a l = l1 ++ l2 := by
      rw [hl]; exact redoTasks_delete_split a l1 l2 a.before hty h1 rfl
    rw [hre, undoTasks_delete a _ hty]
    refine ⟨hn2, Or.inr (Or.inr ⟨hty, hne⟩), ?_⟩
    rw [hl, List.append_assoc]
    exact List.Perm.append_left l1 (List.perm_append_singleton _ l2)

theorem undoReady_perm (a : UndoAction) (l l2 : List Task) (hp : List.Perm l l2)
    (h : UndoReady a l) : UndoReady a l2 := by
  rcases h with ⟨hty, hmem⟩ | ⟨hty, hmem, hid⟩ | ⟨hty, habs⟩
  · exact Or.inl ⟨hty, hp.subset hmem⟩
  · exact Or.inr (Or.inl ⟨hty, hp.subset hmem, hid⟩)
  · exact Or.inr (Or.inr ⟨hty, fun u hu => habs u (hp.symm.subset hu)⟩)

theorem redoReady_perm (a : UndoAction) (l l2 : List Task) (hp : List.Perm l l2)
    (h : RedoReady a l) : RedoReady a l2 := by
  rcases h with ⟨hty, habs⟩ | ⟨hty, hmem, hid⟩ | ⟨hty, hmem⟩
  · exact Or.inl ⟨hty, fun u hu => habs u (hp.symm.subset hu)⟩
  · exact Or.inr (Or.inl ⟨hty, hp.subset hmem, hid⟩)
  · exact Or.inr (Or.inr ⟨hty, hp.subset hmem⟩)

theorem undoChain_perm (us : List UndoAction) (l l2 : List Task) (hp : List.Perm l l2)
    (hnd : (l.map Task.id).Nodup) (h : UndoChain l us) : UndoChain l2 us := by
  induction us generalizing l l2 with
  | nil => trivial
  | cons a rest ih =>
    obtain ⟨hr, hc⟩ := h
    exact ⟨undoReady_perm a l l2 hp hr,
      ih _ _ (undoTasks_perm a l l2 hp hnd) (undo_then_redo a l hnd hr).1 hc⟩

theorem redoChain_perm (rs : List UndoAction) (l l2 : List Task) (hp : List.Perm l l2)
    (hnd : (l.map Task.id).Nodup) (h : RedoChain l rs) : RedoChain l2 rs := by
  induction rs generalizing l l2 with
  | nil => trivial
  | cons a rest ih =>
    obtain ⟨hr, hc⟩ := h
    exact ⟨redoReady_perm a l l2 hp hr,
      ih _ _ (redoTasks_perm a l l2 hp hnd) (redo_then_undo a l hnd hr).1 hc⟩

/-! ## The histories keep describing the collection -/

theorem push_of_isFull (a : UndoAction) (st : Stack) (h : st.isFull = true) :
    st.push a = st := by
  simp [Stack.push, h]

theorem push_of_not_isFull (a : UndoAction) (st : Stack) (h : st.isFull = false) :
    (st.push a).items = a :: st.items := by
  simp [Stack.push, h]

/-- A recording call that leaves the collection as it is leaves the counter
and the redo history as they are. -/
theorem freshStep_same (s s2 : TaskManager) (hs : FreshStep s s2) (ht : s2.tasks = s.tasks) :
    s2.nextId = s.nextId ∧ s2.redoActions = s.redoActions := by
  cases hs with
  | noop => exact ⟨rfl, rfl⟩
  | add t _ hid ht2 hn hu hr =>
    rw [ht2] at ht
    have := congrArg List.length ht
    simp at this
  | delete l1 t l2 _ hl h1 ht2 hn hu hr => exact ⟨hn, hr⟩
  | edit l1 t t2 l2 _ hl h1 hid ht2 hn hu hr => exact ⟨hn, hr⟩

/-- A recording call that changes the collection or the undo history, and
loses no record, found room on the undo history. -/
theorem freshStep_room (s s2 : TaskManager) (hs : FreshStep s s2)
    (hU : s.undoActions.isFull = false ∨ s2.tasks = s.tasks)
    (hchange : ¬ (s2.tasks = s.tasks ∧ s2.undoActions = s.undoActions)) :
    s.undoActions.isFull = false := by
  rcases hU with h1 | h1
  · exact h1
  · cases hfull : s.undoActions.isFull with
    | false => rfl
    | true =>
      exfalso
      apply hchange
      refine ⟨h1, ?_⟩
      cases hs with
      | noop => rfl
      | add t _ hid ht2 hn hu hr => rw [hu, push_of_isFull _ _ hfull]
      | delete l1 t l2 _ hl h1 ht2 hn hu hr => rw [hu, push_of_isFull _ _ hfull]
      | edit l1 t t2 l2 _ hl h1 hid ht2 hn hu hr => rw [hu, push_of_isFull _ _ hfull]

theorem timeline_new : Timeline 0 TaskManager.new := by
  refine ⟨idsBelow_new, ?_, ?_, ?_⟩
  · simp [TaskManager.new]
  · trivial
  · trivial

theorem timeline_congr (k : Nat) (s s2 : TaskManager) (h : Timeline k s) (hi : IdsBelow s2)
    (ht : s2.tasks = s.tasks) (hu : s2.undoActions = s.undoActions)
    (hr : s2.redoActions = s.redoActions) : Timeline k s2 := by
  obtain ⟨_, hnd, huc, hrc⟩ := h
  exact ⟨hi, by rw [ht]; exact hnd, by rw [ht, hu]; exact huc, by rw [ht, hr]; exact hrc⟩

/-- A recording call that changes the store and finds room on the undo
history: its record goes on top, and every entry of the redo history is stale
from now on. -/
theorem timeline_record (k : Nat) (s s2 : TaskManager) (h : Timeline k s)
    (hU : s.undoActions.isFull = false) (hs : FreshStep s s2) : Timeline 0 s2 := by
  have hids2 := idsBelow_freshStep s s2 h.1 hs
  obtain ⟨hids, hnd, huc, hrc⟩ := h
  cases hs with
  | noop => exact ⟨hids, hnd, huc, trivial⟩
  | add t _ hid ht hn hu hr =>
    have habs : ∀ u ∈ s.tasks, u.id ≠ t.id := by
      intro u hu2
      have := hids.2.1 u hu2
      omega
    refine ⟨hids2, ?_, ?_, trivial⟩
    · rw [ht]; exact nodup_ids_append_singleton _ _ hnd habs
    · rw [hu, push_of_not_isFull _ _ hU, ht]
      refine ⟨Or.inl ⟨rfl, by simp⟩, ?_⟩
      have := undoTasks_add_split ⟨"add", Task.default, t⟩ s.tasks [] t rfl habs rfl
      simp only [List.append_nil] at this
      rw [this]
      exact huc
  | delete l1 t l2 _ hl h1 ht hn hu hr =>
    rw [hl] at hnd
    obtain ⟨hn2, hne⟩ := nodup_ids_split l1 l2 t hnd
    refine ⟨hids2, ?_, ?_, trivial⟩
    · rw [ht]; exact hn2
    · rw [hu, push_of_not_isFull _ _ hU, ht]
      refine ⟨Or.inr (Or.inr ⟨rfl, hne⟩), ?_⟩
      rw [undoTasks_delete _ _ rfl]
      apply undoChain_perm _ s.tasks _ _ (by rw [hl]; exact hnd) huc
      rw [hl, List.append_assoc]
      exact List.Perm.append_left l1 (List.perm_append_singleton t l2).symm
  | edit l1 t t2 l2 _ hl h1 hid ht hn hu hr =>
    refine ⟨hids2, ?_, ?_, trivial⟩
    · rw [ht]
      apply nodup_ids_replace l1 l2 t t2 hid
      rw [← hl]; exact hnd
    · rw [hu, push_of_not_isFull _ _ hU, ht]
      refine ⟨Or.inr (Or.inl ⟨rfl, by simp, hid.symm⟩), ?_⟩
      rw [undoTasks_edit_split ⟨"edit", t, t2⟩ l1 l2 t2 rfl h1 hid, ← hl]
      exact huc

theorem timeline_freshStep (k : Nat) (s s2 : TaskManager) (h : Timeline k s)
    (hU : s.undoActions.isFull = false ∨ s2.tasks = s.tasks) (hs : FreshStep s s2) :
    Timeline (if s2.tasks = s.tasks ∧ s2.undoActions = s.undoActions then k else 0) s2 := by
  by_cases hsame : s2.tasks = s.tasks ∧ s2.undoActions = s.undoActions
  · rw [if_pos hsame]
    exact timeline_congr k s s2 h (idsBelow_freshStep s s2 h.1 hs) hsame.1 hsame.2
      (freshStep_same s s2 hs hsame.1).2
  · rw [if_neg hsame]
    exact timeline_record k s s2 h (freshStep_room s s2 hs hU hsame) hs

theorem timeline_sort (k : Nat) (s : TaskManager) (h : Timeline k s) :
    Timeline k (sortByDeadline s) := by
  have hids2 : IdsBelow (sortByDeadline s) := idsBelow_apply .sortByDeadline s h.1
  obtain ⟨hids, hnd, huc, hrc⟩ := h
  have hp : List.Perm (sortByDeadline s).tasks s.tasks := sortTasksByDeadline_perm s.tasks
  exact ⟨hids2, nodup_ids_perm _ _ hp.symm hnd, undoChain_perm _ _ _ hp.symm hnd huc,
    redoChain_perm _ _ _ hp.symm hnd hrc⟩

/-- An `undo()` whose action goes on the redo history: the action is one more
fresh entry. -/
theorem timeline_undo (k : Nat) (s : TaskManager) (a : UndoAction) (rest : List UndoAction)
    (h : Timeline k s) (hl : s.undoActions.items = a :: rest)
    (hroom : s.redoActions.isFull = false) : Timeline (k + 1) (undo s) := by
  have hids2 : IdsBelow (undo s) := idsBelow_apply .undo s h.1
  obtain ⟨hids, hnd, huc, hrc⟩ := h
  rw [hl] at huc
  obtain ⟨hready, hchain⟩ := huc
  obtain ⟨hnd2, hrr, hperm, _, _⟩ := undo_then_redo a s.tasks hnd hready
  have ht : (undo s).tasks = undoTasks a s.tasks := by rw [undo_cons s a rest hl]; rfl
  have hu : (undo s).undoActions.items = rest := by rw [undo_cons s a rest hl]; rfl
  have hr : (undo s).redoActions.items = a :: s.redoActions.items := by
    rw [undo_cons s a rest hl]
    exact push_of_not_isFull _ _ hroom
  refine ⟨hids2, by rw [ht]; exact hnd2, by rw [hu, ht]; exact hchain, ?_⟩
  rw [hr, ht, List.take_succ_cons]
  exact ⟨hrr, redoChain_perm _ _ _ hperm.symm hnd hrc⟩

/-- A `redo()` of a fresh entry whose action goes back on the undo history. -/
theorem timeline_redo (k : Nat) (s : TaskManager) (b : UndoAction) (rest : List UndoAction)
    (h : Timeline (k + 1) s) (hl : s.redoActions.items = b :: rest)
    (hroom : s.undoActions.isFull = false) : Timeline k (redo s) := by
  have hids2 : IdsBelow (redo s) := idsBelow_apply .redo s h.1
  obtain ⟨hids, hnd, huc, hrc⟩ := h
  rw [hl, List.take_succ_cons] at hrc
  obtain ⟨hready, hchain⟩ := hrc
  obtain ⟨hnd2, hur, hperm⟩ := redo_then_undo b s.tasks hnd hready
  have ht : (redo s).tasks = redoTasks b s.tasks := by rw [redo_cons s b rest hl]; rfl
  have hr : (redo s).redoActions.items = rest := by rw [redo_cons s b rest hl]; rfl
  have hu : (redo s).undoActions.items = b :: s.undoActions.items := by
    rw [redo_cons s b rest hl]
    exact push_of_not_isFull _ _ hroom
  refine ⟨hids2, by rw [ht]; exact hnd2, ?_, by rw [hr, ht]; exact hchain⟩
  rw [hu, ht]
  exact ⟨hur, undoChain_perm _ _ _ hperm.symm hnd huc⟩

theorem timeline_apply (c : Call) (k : Nat) (s : TaskManager) (h : Timeline k s)
    (hs : c.staleReplay k s = false) (hd : c.dropsRecord s = false) :
    Timeline (c.freshAfter k s) (c.apply s) := by
  cases hm : c.isMutation with
  | true =>
    simp only [Call.freshAfter, hm, if_true]
    apply timeline_freshStep k s _ h _ (freshStep_apply c s hm)
    simp only [Call.dropsRecord, hm, if_true, Bool.and_eq_false_iff, decide_eq_false_iff_not,
      ne_eq, not_not] at hd
    exact hd
  | false =>
    cases c with
    | sortByDeadline =>
      simp only [Call.freshAfter, Call.isMutation, Bool.false_eq_true, if_false,
        reduceCtorEq]
      exact timeline_sort k s h
    | undo =>
      simp only [Call.freshAfter, Call.isMutation, Bool.false_eq_true, if_false, if_true,
        Call.apply]
      cases hl : s.undoActions.items with
      | nil =>
        have he : s.undoActions.isEmpty = true := by simp [Stack.isEmpty, hl]
        rw [undo_nil s hl]
        simp only [he, Bool.true_or, if_true]
        exact h
      | cons a rest =>
        have he : s.undoActions.isEmpty = false := by simp [Stack.isEmpty, hl]
        have hroom : s.redoActions.isFull = false := by
          simp only [Call.dropsRecord, Call.isMutation, Bool.false_eq_true, if_false, if_true,
            he, Bool.not_false, Bool.true_and] at hd
          exact hd
        simp only [he, hroom, Bool.or_self, Bool.false_eq_true, if_false]
        exact timeline_undo k s a rest h hl hroom
    | redo =>
      simp only [Call.freshAfter, Call.isMutation, Bool.false_eq_true, if_false, if_true,
        reduceCtorEq, Call.apply]
      cases hl : s.redoActions.items with
      | nil =>
        rw [redo_nil s hl]
        obtain ⟨hids, hnd, huc, _⟩ := h
        refine ⟨hids, hnd, huc, ?_⟩
        rw [hl, List.take_nil]
        trivial
      | cons b rest =>
        have he : s.redoActions.isEmpty = false := by simp [Stack.isEmpty, hl]
        have hk : k ≠ 0 := by
          intro hk0
          simp [Call.staleReplay, he, hk0] at hs
        obtain ⟨j, rfl⟩ : ∃ j, k = j + 1 := ⟨k - 1, by omega⟩
        have hroom : s.undoActions.isFull = false := by
          simp only [Call.dropsRecord, Call.isMutation, Bool.false_eq_true, if_false, if_true,
            reduceCtorEq, he, Bool.not_false, Bool.true_and] at hd
          exact hd
        simp only [Nat.add_sub_cancel]
        exact timeline_redo j s b rest h hl hroom
    | addTask title desc deadline priority => simp [Call.isMutation] at hm
    | deleteTask id => simp [Call.isMutation] at hm
    | updateTask id title desc deadline priority => simp [Call.isMutation] at hm
    | markTaskCompleted id => simp [Call.isMutation] at hm
    | editTask id newTitle newDeadline => simp [Call.isMutation] at hm
    | updatePriority id newPriority => simp [Call.isMutation] at hm

theorem timeline_run (cs : List Call) (k : Nat) (s : TaskManager) (h : Timeline k s)
    (hs : noStaleReplay cs k s = true) (hd : noDroppedRecord cs s = true) :
    ∃ k2, Timeline k2 (run cs s) := by
  induction cs generalizing k s with
  | nil => exact ⟨k, h⟩
  | cons c cs ih =>
    simp only [noStaleReplay, noDroppedRecord, Bool.and_eq_true, Bool.not_eq_true'] at hs hd
    exact ih _ _ (timeline_apply c k s h hs.1 hd.1) hs.2 hd.2

/-! ## Ids of the collection after `undo` and `redo` -/

theorem ids_erase_first (id : Int) (l : List Task) :
    (match find_if (fun task => task.id == id) l with
      | some it => l.eraseIdx it
      | none => l).map Task.id = (l.map Task.id).erase id := by
  by_cases h : ∃ t ∈ l, t.id = id
  · obtain ⟨l1, t, l2, hl, h1, ht⟩ := split_at_id id l h
    have hf := find_if_of_split (fun task => task.id == id) l1 l2 t
      (id_pred_false_of_ne id l1 h1) (by simpa using ht)
    subst hl
    rw [hf]
    simp only [eraseIdx_split, List.map_append, List.map_cons]
    have hnot : id ∉ l1.map Task.id := by
      simp only [List.mem_map, not_exists, not_and]
      exact fun u hu => h1 u hu
    rw [List.erase_append_right _ hnot, ht, List.erase_cons_head]
  · have h1 : ∀ u ∈ l, u.id ≠ id := fun u hu hid => h ⟨u, hu, hid⟩
    rw [(find_if_eq_none _ _).2 (id_pred_false_of_ne id _ h1)]
    have hnot : id ∉ l.map Task.id := by
      simp only [List.mem_map, not_exists, not_and]
      exact fun u hu => h1 u hu
    rw [List.erase_of_not_mem hnot]

theorem ids_set_first (id : Int) (b : Task) (hb : b.id = id) (l : List Task) :
    (match find_if (fun task => task.id == id) l with
      | some it => l.set it b
      | none => l).map Task.id = l.map Task.id := by
  by_cases h : ∃ t ∈ l, t.id = id
  · obtain ⟨l1, t, l2, hl, h1, ht⟩ := split_at_id id l h
    have hf := find_if_of_split (fun task => task.id == id) l1 l2 t
      (id_pred_false_of_ne id l1 h1) (by simpa using ht)
    subst hl
    rw [hf]
    simp [set_split, hb, ht]
  · have h1 : ∀ u ∈ l, u.id ≠ id := fun u hu hid => h ⟨u, hu, hid⟩
    rw [(find_if_eq_none _ _).2 (id_pred_false_of_ne id _ h1)]

/-- The ids of the collection after the change `undo` makes for an action. -/
theorem ids_undoTasks (a : UndoAction) (l : List Task)
    (hnd : (l.map Task.id).Nodup)
    (hdel : a.type = "delete" → a.before.id ∉ l.map Task.id) :
    ((undoTasks a l).map Task.id).Nodup ∧
    (∀ y ∈ (undoTasks a l).map Task.id,
      y ∈ l.map Task.id ∨ (a.type = "delete" ∧ y = a.before.id)) ∧
    (a.type = "add" → a.after.id ∉ (undoTasks a l).map Task.id) := by
  unfold undoTasks
  split
  · rename_i hty
    rw [ids_erase_first]
    exact ⟨hnd.erase _, fun y hy => Or.inl (List.mem_of_mem_erase hy),
      fun _ => hnd.not_mem_erase⟩
  · rename_i hna
    split
    · rw [ids_set_first _ _ rfl]
      exact ⟨hnd, fun y hy => Or.inl hy, fun h => absurd h hna⟩
    · split
      · rename_i hty
        have hnot := hdel hty
        refine ⟨?_, ?_, fun h => absurd h hna⟩
        · rw [List.map_append, List.map_cons, List.map_nil]
          apply List.Nodup.append hnd (List.nodup_singleton _)
          intro x hx hx2
          have : x = a.before.id := by simpa using hx2
          subst this
          exact hnot hx
        · intro y hy
          rw [List.map_append, List.map_cons, List.map_nil] at hy
          rcases List.mem_append.1 hy with h1 | h1
          · exact Or.inl h1
          · exact Or.inr ⟨hty, by simpa using h1⟩
      · exact ⟨hnd, fun y hy => Or.inl hy, fun h => absurd h hna⟩

/-- The ids of the collection after the change `redo` makes for an action. -/
theorem ids_redoTasks (a : UndoAction) (l : List Task)
    (hnd : (l.map Task.id).Nodup)
    (hadd : a.type = "add" → a.after.id ∉ l.map Task.id) :
    ((redoTasks a l).map Task.id).Nodup ∧
    (∀ y ∈ (redoTasks a l).map Task.id,
      y ∈ l.map Task.id ∨ (a.type = "add" ∧ y = a.after.id)) ∧
    (a.type = "delete" → a.before.id ∉ (redoTasks a l).map Task.id) := by
  unfold redoTasks
  split
  · rename_i hty
    have hnot := hadd hty
    have hnd2 : ¬ a.type = "delete" := by rw [hty]; decide
    refine ⟨?_, ?_, fun h => absurd h hnd2⟩
    · rw [List.map_append, List.map_cons, List.map_nil]
      apply List.Nodup.append hnd (List.nodup_singleton _)
      intro x hx hx2
      have : x = a.after.id := by simpa using hx2
      subst this
      exact hnot hx
    · intro y hy
      rw [List.map_append, List.map_cons, List.map_nil] at hy
      rcases List.mem_append.1 hy with h1 | h1
      · exact Or.inl h1
      · exact Or.inr ⟨hty, by simpa using h1⟩
  · split
    · rename_i hna hty
      have hnd2 : ¬ a.type = "delete" := by rw [hty]; decide
      rw [ids_set_first _ _ rfl]
      exact ⟨hnd, fun y hy => Or.inl hy, fun h => absurd h hnd2⟩
    · split
      · rw [ids_erase_first]
        exact ⟨hnd.erase _, fun y hy => Or.inl (List.mem_of_mem_erase hy),
          fun _ => hnd.not_mem_erase⟩
      · rename_i hnd2
        exact ⟨hnd, fun y hy => Or.inl hy, fun h => absurd h hnd2⟩

theorem push_cases (a : UndoAction) (st : Stack) (h : st.items.length ≤ MAX_SIZE) :
    ((st.push a).items = a :: st.items ∧ st.items.length < MAX_SIZE) ∨ st.push a = st := by
  by_cases hlt : st.items.length < MAX_SIZE
  · exact Or.inl ⟨push_items_of_lt a st hlt, hlt⟩
  · exact Or.inr (push_items_of_full a st (by omega))

/-! ## Recorded actions stay consistent with the ids of the collection -/

theorem ledger_new : Ledger 0 TaskManager.new := by
  refine ⟨idsBelow_new, ?_, ?_, ?_, ?_⟩ <;> simp [TaskManager.new, Stack.empty]

theorem ledger_congr (k : Nat) (s s2 : TaskManager) (h : Ledger k s) (hi : IdsBelow s2)
    (ht : s2.tasks = s.tasks) (hu : s2.undoActions = s.undoActions)
    (hr : s2.redoActions = s.redoActions) : Ledger k s2 := by
  obtain ⟨_, hnd, hI2, hI3, hpw⟩ := h
  refine ⟨hi, by rw [ht]; exact hnd, ?_, ?_, by rw [hu, hr]; exact hpw⟩
  · rw [ht, hu]; exact hI2
  · rw [ht, hr]; exact hI3

/-- A recording call: the new action goes on the undo history, or is dropped
by a full one, and every entry of the redo history is stale from now on. -/
theorem ledger_record (k : Nat) (s s2 : TaskManager) (x : UndoAction) (h : Ledger k s)
    (hids2 : IdsBelow s2) (hnd2 : (s2.tasks.map Task.id).Nodup)
    (hu : s2.undoActions = s.undoActions.push x)
    (hold : ∀ a ∈ s.undoActions.items, a.type = "delete" →
      a.before.id ∉ s2.tasks.map Task.id)
    (hx : x.type = "delete" → x.before.id ∉ s2.tasks.map Task.id)
    (hcompat : ∀ y ∈ s.undoActions.items, Compatible y x) : Ledger 0 s2 := by
  obtain ⟨_, _, _, _, hpw0⟩ := h
  have hpw : s.undoActions.items.reverse.Pairwise Compatible :=
    (List.pairwise_append.1 hpw0).1
  cases hfull : s.undoActions.isFull with
  | false =>
    have hpush := push_of_not_isFull x s.undoActions hfull
    refine ⟨hids2, hnd2, ?_, ?_, ?_⟩
    · intro a ha
      rw [hu, hpush] at ha
      rcases List.mem_cons.1 ha with rfl | ha
      · exact hx
      · exact hold a ha
    · intro a ha
      simp at ha
    · rw [hu, hpush, List.take_zero, List.append_nil, List.reverse_cons]
      refine List.pairwise_append.2 ⟨hpw, List.pairwise_singleton _ _, ?_⟩
      intro y hy z hz
      have : z = x := by simpa using hz
      subst this
      exact hcompat y (List.mem_reverse.1 hy)
  | true =>
    have hsame := push_of_isFull x s.undoActions hfull
    refine ⟨hids2, hnd2, ?_, ?_, ?_⟩
    · intro a ha
      rw [hu, hsame] at ha
      exact hold a ha
    · intro a ha
      simp at ha
    · rw [hu, hsame, List.take_zero, List.append_nil]
      exact hpw

theorem ledger_stale (k : Nat) (s : TaskManager) (h : Ledger k s) : Ledger 0 s := by
  obtain ⟨hids, hnd, hI2, _, hpw⟩ := h
  refine ⟨hids, hnd, hI2, ?_, ?_⟩
  · intro a ha
    simp at ha
  · rw [List.take_zero, List.append_nil]
    exact (List.pairwise_append.1 hpw).1

theorem ledger_changed (k : Nat) (s s2 : TaskManager) (h : Ledger k s)
    (hs : FreshStep s s2) : Ledger 0 s2 := by
  have hids2 := idsBelow_freshStep s s2 h.1 hs
  have hfull := h
  obtain ⟨hids, hnd, hI2, hI3, hpw⟩ := h
  cases hs with
  | noop => exact ledger_stale k s hfull
  | add t _ hid ht hn hu hr =>
    have habs : ∀ u ∈ s.tasks, u.id ≠ t.id := by
      intro u hu2
      have := hids.2.1 u hu2
      omega
    apply ledger_record k s _ ⟨"add", Task.default, t⟩ hfull hids2 _ hu
    · intro a ha hty hmem
      rw [ht, List.map_append, List.map_cons, List.map_nil] at hmem
      rcases List.mem_append.1 hmem with h1 | h1
      · exact hI2 a ha hty h1
      · have h2 : a.before.id = t.id := by simpa using h1
        have := (hids.2.2.1 a ha).1
        omega
    · intro hty
      simp at hty
    · intro y hy
      refine ⟨fun _ hm => ?_, fun hty => by simp at hty⟩
      have hb := hids.2.2.1 y hy
      rcases hm with ⟨_, h1⟩ | ⟨_, h1⟩
      · simp only at h1; omega
      · simp only at h1; omega
    · rw [ht]; exact nodup_ids_append_singleton _ _ hnd habs
  | delete l1 t l2 _ hl h1 ht hn hu hr =>
    have hnd0 := hnd
    rw [hl] at hnd
    obtain ⟨hn2, hne⟩ := nodup_ids_split l1 l2 t hnd
    have hsub : ∀ y ∈ (l1 ++ l2).map Task.id, y ∈ s.tasks.map Task.id := by
      intro y hy
      rw [hl]
      simp only [List.map_append, List.map_cons, List.mem_append, List.mem_cons] at hy ⊢
      tauto
    have htin : t.id ∈ s.tasks.map Task.id := by rw [hl]; simp
    apply ledger_record k s _ ⟨"delete", t, Task.default⟩ hfull hids2 _ hu
    · intro a ha hty hmem
      rw [ht] at hmem
      exact hI2 a ha hty (hsub _ hmem)
    · intro _ hmem
      rw [ht] at hmem
      simp only [List.mem_map] at hmem
      obtain ⟨u, hu2, hid⟩ := hmem
      exact hne u hu2 hid
    · intro y hy
      refine ⟨fun hty => by simp at hty, fun _ hc => ?_⟩
      obtain ⟨hty, hid⟩ := hc
      apply hI2 y hy hty
      rw [hid]
      exact htin
    · rw [ht]; exact hn2
  | edit l1 t t2 l2 _ hl h1 hid ht hn hu hr =>
    have hmap : s2.tasks.map Task.id = s.tasks.map Task.id := by
      rw [ht, hl]; simp [hid]
    apply ledger_record k s _ ⟨"edit", t, t2⟩ hfull hids2 _ hu
    · intro a ha hty
      rw [hmap]
      exact hI2 a ha hty
    · intro hty
      simp at hty
    · intro y hy
      exact ⟨fun hty => by simp at hty, fun hty => by simp at hty⟩
    · rw [hmap]; exact hnd

theorem ledger_freshStep (k : Nat) (s s2 : TaskManager) (h : Ledger k s)
    (hs : FreshStep s s2) :
    Ledger (if s2.tasks = s.tasks ∧ s2.undoActions = s.undoActions then k else 0) s2 := by
  by_cases hsame : s2.tasks = s.tasks ∧ s2.undoActions = s.undoActions
  · rw [if_pos hsame]
    exact ledger_congr k s s2 h (idsBelow_freshStep s s2 h.1 hs) hsame.1 hsame.2
      (freshStep_same s s2 hs hsame.1).2
  · rw [if_neg hsame]
    exact ledger_changed k s s2 h hs

theorem ledger_sort (k : Nat) (s : TaskManager) (h : Ledger k s) :
    Ledger k (sortByDeadline s) := by
  have hids2 : IdsBelow (sortByDeadline s) := idsBelow_apply .sortByDeadline s h.1
  obtain ⟨hids, hnd, hI2, hI3, hpw⟩ := h
  have hp : List.Perm (sortByDeadline s).tasks s.tasks := sortTasksByDeadline_perm s.tasks
  have hpi := hp.map Task.id
  refine ⟨hids2, hpi.nodup_iff.2 hnd, ?_, ?_, hpw⟩
  · intro a ha hty hmem
    exact hI2 a ha hty (hpi.subset hmem)
  · intro a ha hty hmem
    exact hI3 a ha hty (hpi.subset hmem)

/-- An `undo()` that pops an action: the action is one more fresh entry of the
redo history, or is dropped by a full redo history. -/
theorem ledger_undo (k : Nat) (s : TaskManager) (a : UndoAction) (rest : List UndoAction)
    (h : Ledger k s) (hl : s.undoActions.items = a :: rest) :
    Ledger (if s.redoActions.isFull then k else k + 1) (undo s) := by
  have hids2 : IdsBelow (undo s) := idsBelow_apply .undo s h.1
  obtain ⟨hids, hnd, hI2, hI3, hpw⟩ := h
  have hamem : a ∈ s.undoActions.items := by rw [hl]; simp
  obtain ⟨hnd2, hmem2, hadd2⟩ := ids_undoTasks a s.tasks hnd (hI2 a hamem)
  have ht : (undo s).tasks = undoTasks a s.tasks := by rw [undo_cons s a rest hl]; rfl
  have hu : (undo s).undoActions.items = rest := by rw [undo_cons s a rest hl]; rfl
  have hr : (undo s).redoActions = s.redoActions.push a := by rw [undo_cons s a rest hl]
  rw [hl] at hpw
  have hL : (a :: rest).reverse ++ s.redoActions.items.take k =
      rest.reverse ++ a :: s.redoActions.items.take k := by simp
  rw [hL] at hpw
  obtain ⟨hpwU, hpwR, hcross⟩ := List.pairwise_append.1 hpw
  have hfromA := (List.pairwise_cons.1 hpwR).1
  have hJ2 : ∀ y ∈ rest, y.type = "delete" →
      y.before.id ∉ (undoTasks a s.tasks).map Task.id := by
    intro y hy hty hmem
    rcases hmem2 _ hmem with h1 | ⟨hdel, heq⟩
    · exact hI2 y (by rw [hl]; exact List.mem_cons_of_mem _ hy) hty h1
    · exact (hcross y (List.mem_reverse.2 hy) a (by simp)).2 hdel ⟨hty, heq⟩
  have hJ3 : ∀ z ∈ s.redoActions.items.take k, z.type = "add" →
      z.after.id ∉ (undoTasks a s.tasks).map Task.id := by
    intro z hz hty hmem
    rcases hmem2 _ hmem with h1 | ⟨hdel, heq⟩
    · exact hI3 z hz hty h1
    · exact (hfromA z hz).1 hty (Or.inr ⟨hdel, heq.symm⟩)
  cases hfull : s.redoActions.isFull with
  | true =>
    simp only [if_true]
    refine ⟨hids2, by rw [ht]; exact hnd2, by rw [hu, ht]; exact hJ2, ?_, ?_⟩
    · rw [hr, push_of_isFull _ _ hfull, ht]
      exact hJ3
    · rw [hu, hr, push_of_isFull _ _ hfull]
      refine List.pairwise_append.2 ⟨hpwU, (List.pairwise_cons.1 hpwR).2, ?_⟩
      intro y hy z hz
      exact hcross y hy z (List.mem_cons_of_mem _ hz)
  | false =>
    simp only [Bool.false_eq_true, if_false]
    have hpush := push_of_not_isFull a s.redoActions hfull
    refine ⟨hids2, by rw [ht]; exact hnd2, by rw [hu, ht]; exact hJ2, ?_, ?_⟩
    · intro z hz hty
      rw [hr, hpush, List.take_succ_cons] at hz
      rw [ht]
      rcases List.mem_cons.1 hz with rfl | hz
      · exact hadd2 hty
      · exact hJ3 z hz hty
    · rw [hu, hr, hpush, List.take_succ_cons]
      exact hpw

/-- A `redo()` of a fresh entry: the action goes back on the undo history, or
is dropped by a full undo history. -/
theorem ledger_redo (k : Nat) (s : TaskManager) (b : UndoAction) (rest : List UndoAction)
    (h : Ledger (k + 1) s) (hl : s.redoActions.items = b :: rest) :
    Ledger k (redo s) := by
  have hids2 : IdsBelow (redo s) := idsBelow_apply .redo s h.1
  obtain ⟨hids, hnd, hI2, hI3, hpw⟩ := h
  rw [hl, List.take_succ_cons] at hI3 hpw
  obtain ⟨hnd2, hmem2, hdel2⟩ := ids_redoTasks b s.tasks hnd (hI3 b (by simp))
  have ht : (redo s).tasks = redoTasks b s.tasks := by rw [redo_cons s b rest hl]; rfl
  have hr : (redo s).redoActions.items = rest := by rw [redo_cons s b rest hl]; rfl
  have hu : (redo s).undoActions = s.undoActions.push b := by rw [redo_cons s b rest hl]
  obtain ⟨hpwU, hpwR, hcross⟩ := List.pairwise_append.1 hpw
  have hfromB := (List.pairwise_cons.1 hpwR).1
  have hJ2 : ∀ y ∈ s.undoActions.items, y.type = "delete" →
      y.before.id ∉ (redoTasks b s.tasks).map Task.id := by
    intro y hy hty hmem
    rcases hmem2 _ hmem with h1 | ⟨hadd, heq⟩
    · exact hI2 y hy hty h1
    · exact (hcross y (List.mem_reverse.2 hy) b (by simp)).1 hadd (Or.inr ⟨hty, heq⟩)
  have hJ3 : ∀ z ∈ rest.take k, z.type = "add" →
      z.after.id ∉ (redoTasks b s.tasks).map Task.id := by
    intro z hz hty hmem
    rcases hmem2 _ hmem with h1 | ⟨hadd, heq⟩
    · exact hI3 z (List.mem_cons_of_mem _ hz) hty h1
    · exact (hfromB z hz).1 hty (Or.inl ⟨hadd, heq.symm⟩)
  cases hfull : s.undoActions.isFull with
  | true =>
    refine ⟨hids2, by rw [ht]; exact hnd2, ?_, by rw [hr, ht]; exact hJ3, ?_⟩
    · rw [hu, push_of_isFull _ _ hfull, ht]
      exact hJ2
    · rw [hu, hr, push_of_isFull _ _ hfull]
      refine List.pairwise_append.2 ⟨hpwU, (List.pairwise_cons.1 hpwR).2, ?_⟩
      intro y hy z hz
      exact hcross y hy z (List.mem_cons_of_mem _ hz)
  | false =>
    have hpush := push_of_not_isFull b s.undoActions hfull
    refine ⟨hids2, by rw [ht]; exact hnd2, ?_, by rw [hr, ht]; exact hJ3, ?_⟩
    · intro y hy hty
      rw [hu, hpush] at hy
      rw [ht]
      rcases List.mem_cons.1 hy with rfl | hy
      · exact hdel2 hty
      · exact hJ2 y hy hty
    · rw [hu, hr, hpush]
      have hL : (b :: s.undoActions.items).reverse ++ rest.take k =
          s.undoActions.items.reverse ++ b :: rest.take k := by simp
      rw [hL]
      exact hpw

theorem ledger_apply (c : Call) (k : Nat) (s : TaskManager) (h : Ledger k s)
    (hs : c.staleReplay k s = false) : Ledger (c.freshAfter k s) (c.apply s) := by
  cases hm : c.isMutation with
  | true =>
    simp only [Call.freshAfter, hm, if_true]
    exact ledger_freshStep k s _ h (freshStep_apply c s hm)
  | false =>
    cases c with
    | sortByDeadline =>
      simp only [Call.freshAfter, Call.isMutation, Bool.false_eq_true, if_false,
        reduceCtorEq]
      exact ledger_sort k s h
    | undo =>
      simp only [Call.freshAfter, Call.isMutation, Bool.false_eq_true, if_false, if_true,
        Call.apply]
      cases hl : s.undoActions.items with
      | nil =>
        have he : s.undoActions.isEmpty = true := by simp [Stack.isEmpty, hl]
        rw [undo_nil s hl]
        simp only [he, Bool.true_or, if_true]
        exact h
      | cons a rest =>
        have he : s.undoActions.isEmpty = false := by simp [Stack.isEmpty, hl]
        simp only [he, Bool.false_or]
        exact ledger_undo k s a rest h hl
    | redo =>
      simp only [Call.freshAfter, Call.isMutation, Bool.false_eq_true, if_false, if_true,
        reduceCtorEq, Call.apply]
      cases hl : s.redoActions.items with
      | nil =>
        rw [redo_nil s hl]
        obtain ⟨hids, hnd, hI2, _, hpw⟩ := h
        rw [hl, List.take_nil] at hpw
        refine ⟨hids, hnd, hI2, ?_, ?_⟩
        · intro a ha
          rw [hl, List.take_nil] at ha
          simp at ha
        · rw [hl, List.take_nil]
          exact hpw
      | cons b rest =>
        have he : s.redoActions.isEmpty = false := by simp [Stack.isEmpty, hl]
        have hk : k ≠ 0 := by
          intro hk0
          simp [Call.staleReplay, he, hk0] at hs
        obtain ⟨j, rfl⟩ : ∃ j, k = j + 1 := ⟨k - 1, by omega⟩
        simp only [Nat.add_sub_cancel]
        exact ledger_redo j s b rest h hl
    | addTask title desc deadline priority => simp [Call.isMutation] at hm
    | deleteTask id => simp [Call.isMutation] at hm
    | updateTask id title desc deadline priority => simp [Call.isMutation] at hm
    | markTaskCompleted id => simp [Call.isMutation] at hm
    | editTask id newTitle newDeadline => simp [Call.isMutation] at hm
    | updatePriority id newPriority => simp [Call.isMutation] at hm

theorem ledger_run (cs : List Call) (k : Nat) (s : TaskManager) (h : Ledger k s)
    (hs : noStaleReplay cs k s = true) : ∃ k2, Ledger k2 (run cs s) := by
  induction cs generalizing k s with
  | nil => exact ⟨k, h⟩
  | cons c cs ih =>
    simp only [noStaleReplay, Bool.and_eq_true, Bool.not_eq_true'] at hs
    exact ih _ _ (ledger_apply c k s h hs.1) hs.2

/-! ## Sessions that fill a history -/

theorem run_append (cs ds : List Call) (s : TaskManager) :
    run (cs ++ ds) s = run ds (run cs s) := by
  induction cs generalizing s with
  | nil => rfl
  | cons c cs ih => exact ih _

theorem noDroppedRecord_append (cs ds : List Call) (s : TaskManager) :
    noDroppedRecord (cs ++ ds) s = (noDroppedRecord cs s && noDroppedRecord ds (run cs s)) := by
  induction cs generalizing s with
  | nil => simp [noDroppedRecord, run]
  | cons c cs ih =>
    show (!c.dropsRecord s && noDroppedRecord (cs ++ ds) (c.apply s)) =
      ((!c.dropsRecord s && noDroppedRecord cs (c.apply s)) &&
        noDroppedRecord ds (run cs (c.apply s)))
    rw [ih, Bool.and_assoc]

theorem noStaleReplay_of_no_redo (cs : List Call) (k : Nat) (s : TaskManager)
    (h : ∀ c ∈ cs, c ≠ Call.redo) : noStaleReplay cs k s = true := by
  induction cs generalizing k s with
  | nil => rfl
  | cons c cs ih =>
    have hc : c ≠ Call.redo := h c (List.mem_cons_self _ _)
    simp only [noStaleReplay, Call.staleReplay, hc, decide_False, Bool.false_and, Bool.not_false,
      Bool.true_and]
    exact ih _ _ (fun d hd => h d (List.mem_cons_of_mem _ hd))

/-- Adds on a store with room on the undo history: the counter and the undo
history grow by one per add, the redo history stays, no record is lost. -/
theorem adds_stats (n : Nat) (s : TaskManager)
    (hroom : s.undoActions.items.length + n ≤ MAX_SIZE) :
    (run (List.replicate n (Call.addTask "t" "" "2025-01-01" 5)) s).nextId = s.nextId + n ∧
    (run (List.replicate n (Call.addTask "t" "" "2025-01-01" 5)) s).undoActions.items.length =
      s.undoActions.items.length + n ∧
    (run (List.replicate n (Call.addTask "t" "" "2025-01-01" 5)) s).redoActions =
      s.redoActions ∧
    noDroppedRecord (List.replicate n (Call.addTask "t" "" "2025-01-01" 5)) s = true := by
  induction n generalizing s with
  | zero => simp [run, noDroppedRecord]
  | succ n ih =>
    have hlt : s.undoActions.items.length < MAX_SIZE := by omega
    have hnf : s.undoActions.isFull = false := by
      simp only [Stack.isFull, beq_eq_false_iff_ne]
      omega
    have ht : ("t" : String) ≠ "" := by decide
    have hp : ¬ ((5 : Int) < 1 ∨ (5 : Int) > 10) := by decide
    have hs2 := addTask_ok "t" "" "2025-01-01" 5 s ht hp
    have hn : (Call.apply (.addTask "t" "" "2025-01-01" 5) s).nextId = s.nextId + 1 := by
      simp only [Call.apply, hs2]
    have hu : (Call.apply (.addTask "t" "" "2025-01-01" 5) s).undoActions.items.length =
        s.undoActions.items.length + 1 := by
      simp only [Call.apply, hs2, syncDataStructures_undoActions, push_items_of_lt _ _ hlt,
        List.length_cons]
    have hr : (Call.apply (.addTask "t" "" "2025-01-01" 5) s).redoActions = s.redoActions := by
      simp only [Call.apply, hs2, syncDataStructures_redoActions]
    obtain ⟨i1, i2, i3, i4⟩ := ih (Call.apply (.addTask "t" "" "2025-01-01" 5) s) (by omega)
    rw [List.replicate_succ]
    simp only [run, noDroppedRecord]
    refine ⟨by rw [i1, hn]; push_cast; omega, by rw [i2, hu]; omega, by rw [i3, hr], ?_⟩
    rw [i4]
    simp [Call.dropsRecord, Call.isMutation, hnf]

/-- Undos on a store whose redo history has room: the undo history shrinks and
the redo history grows by one per undo, the counter stays, no record is
lost. -/
theorem undos_stats (n : Nat) (s : TaskManager) (hU : n ≤ s.undoActions.items.length)
    (hR : s.redoActions.items.length + n ≤ MAX_SIZE) :
    (run (List.replicate n Call.undo) s).nextId = s.nextId ∧
    (run (List.replicate n Call.undo) s).undoActions.items.length =
      s.undoActions.items.length - n ∧
    (run (List.replicate n Call.undo) s).redoActions.items.length =
      s.redoActions.items.length + n ∧
    noDroppedRecord (List.replicate n Call.undo) s = true := by
  induction n generalizing s with
  | zero => simp [run, noDroppedRecord]
  | succ n ih =>
    have hlt : s.redoActions.items.length < MAX_SIZE := by omega
    have hnf : s.redoActions.isFull = false := by
      simp only [Stack.isFull, beq_eq_false_iff_ne]
      omega
    obtain ⟨a, rest, hl⟩ : ∃ a rest, s.undoActions.items = a :: rest := by
      cases h : s.undoActions.items with
      | nil => rw [h] at hU; simp at hU
      | cons a rest => exact ⟨a, rest, rfl⟩
    have hs2 := undo_cons s a rest hl
    have hn : (Call.apply .undo s).nextId = s.nextId := by
      simp only [Call.apply, hs2, syncDataStructures_nextId]
    have hu : (Call.apply .undo s).undoActions.items.length =
        s.undoActions.items.length - 1 := by
      simp only [Call.apply, hs2, syncDataStructures_undoActions, hl, List.length_cons,
        Nat.add_sub_cancel]
    have hr : (Call.apply .undo s).redoActions.items.length =
        s.redoActions.items.length + 1 := by
      simp only [Call.apply, hs2, push_items_of_lt _ _ hlt, List.length_cons]
    have hlen : s.undoActions.items.length = rest.length + 1 := by rw [hl]; rfl
    obtain ⟨i1, i2, i3, i4⟩ := ih (Call.apply .undo s) (by omega) (by omega)
    rw [List.replicate_succ]
    simp only [run, noDroppedRecord]
    refine ⟨by rw [i1, hn], by rw [i2, hu]; omega, by rw [i3, hr]; omega, ?_⟩
    rw [i4]
    simp [Call.dropsRecord, Call.isMutation, hnf]

/-- A hundred adds and a hundred undos on a fresh store: the undo history is
empty, the redo history is full, the counter is at 101; no `redo()` was
called and no record was lost. -/
theorem full_redo_state :
    (run (List.replicate 100 (Call.addTask "t" "" "2025-01-01" 5) ++
      List.replicate 100 Call.undo) TaskManager.new).nextId = 101 ∧
    (run (List.replicate 100 (Call.addTask "t" "" "2025-01-01" 5) ++
      List.replicate 100 Call.undo) TaskManager.new).undoActions.items = [] ∧
    (run (List.replicate 100 (Call.addTask "t" "" "2025-01-01" 5) ++
      List.replicate 100 Call.undo) TaskManager.new).redoActions.items.length = 100 ∧
    noDroppedRecord (List.replicate 100 (Call.addTask "t" "" "2025-01-01" 5) ++
      List.replicate 100 Call.undo) TaskManager.new = true := by
  obtain ⟨a1, a2, a3, a4⟩ := adds_stats 100 TaskManager.new (by decide)
  have hu0 : TaskManager.new.undoActions.items.length = 0 := rfl
  have hr0 : TaskManager.new.redoActions.items.length = 0 := rfl
  have hn0 : TaskManager.new.nextId = 1 := rfl
  rw [hu0] at a2
  obtain ⟨b1, b2, b3, b4⟩ := undos_stats 100
    (run (List.replicate 100 (Call.addTask "t" "" "2025-01-01" 5)) TaskManager.new)
    (by rw [a2]) (by rw [a3, hr0]; decide)
  rw [run_append, noDroppedRecord_append, a4, b4]
  refine ⟨by rw [b1, a1, hn0]; rfl, ?_, by rw [b3, a3, hr0], rfl⟩
  apply List.length_eq_zero.1
  rw [b2, a2]

/-- After 100 adds, 100 undos and one more add: the undo history holds the add
of task 101 alone, the redo history is full and its entries are about tasks
with smaller ids. -/
theorem full_redo_add_state :
    (run (List.replicate 100 (Call.addTask "t" "" "2025-01-01" 5) ++
      List.replicate 100 Call.undo ++ [Call.addTask "t" "" "2025-01-01" 5])
      TaskManager.new).undoActions.items =
      [⟨"add", Task.default, ⟨101, "t", "", "2025-01-01", 5, false⟩⟩] ∧
    (run (List.replicate 100 (Call.addTask "t" "" "2025-01-01" 5) ++
      List.replicate 100 Call.undo ++ [Call.addTask "t" "" "2025-01-01" 5])
      TaskManager.new).redoActions.items.length = 100 ∧
    (∀ b ∈ (run (List.replicate 100 (Call.addTask "t" "" "2025-01-01" 5) ++
      List.replicate 100 Call.undo ++ [Call.addTask "t" "" "2025-01-01" 5])
      TaskManager.new).redoActions.items, b.after.id < 101) := by
  obtain ⟨hn, hu, hr, _⟩ := full_redo_state
  have hids := idsBelow_run (List.replicate 100 (Call.addTask "t" "" "2025-01-01" 5) ++
    List.replicate 100 Call.undo) TaskManager.new idsBelow_new
  rw [run_append]
  generalize run (List.replicate 100 (Call.addTask "t" "" "2025-01-01" 5) ++
    List.replicate 100 Call.undo) TaskManager.new = s at hn hu hr hids
  have hadd := addTask_ok "t" "" "2025-01-01" 5 s (by decide) (by decide)
  simp only [run, Call.apply, hadd, syncDataStructures_undoActions,
    syncDataStructures_redoActions]
  refine ⟨?_, hr, ?_⟩
  · rw [push_items_of_lt _ _ (by rw [hu]; decide), hu, hn]
    rfl
  · intro b hb
    have := (hids.2.2.2 b hb).2
    omega

/-! ## addTask -/

/-- C1: `addTask` throws exactly when the title is empty or the priority is
outside `1 .. 10`, and a call that throws leaves the whole store (tasks,
`nextId`, list, heap, both histories) as it was. -/
theorem addTask_error_iff (title desc deadline : String) (priority : Int) (s : TaskManager) :
    ((∃ msg, (addTask title desc deadline priority s).1 = .error msg) ↔
        (title = "" ∨ priority < 1 ∨ priority > 10)) ∧
    ((∃ msg, (addTask title desc deadline priority s).1 = .error msg) →
        (addTask title desc deadline priority s).2 = s) := by
  unfold addTask
  by_cases ht : title = ""
  · simp [ht]
  · by_cases hp : priority < 1 ∨ priority > 10
    · simp [ht, hp]
    · simp [ht, hp]

/-- C2: with a non-empty title and a priority in `1 .. 10`, `addTask` returns
the current `nextId`, appends the new pending task with that id and the given
fields at the end of the collection, and increments `nextId`. -/
theorem addTask_success (title desc deadline : String) (priority : Int) (s : TaskManager)
    (ht : title ≠ "") (hlo : 1 ≤ priority) (hhi : priority ≤ 10) :
    (addTask title desc deadline priority s).1 = .ok s.nextId ∧
    getAllTasks (addTask title desc deadline priority s).2 =
      getAllTasks s ++ [⟨s.nextId, title, desc, deadline, priority, false⟩] ∧
    (addTask title desc deadline priority s).2.nextId = s.nextId + 1 := by
  have hp : ¬ (priority < 1 ∨ priority > 10) := by omega
  simp [addTask, ht, hp, getAllTasks, syncDataStructures, Task.new]

/-- The first example of the specification: on a fresh store
`addTask("Write report", "", "2025-03-01", 2)` returns 1 and the pending tasks
are the single task with id 1 and priority 2. -/
theorem addTask_success_witness :
    ((addTask "Write report" "" "2025-03-01" 2 TaskManager.new).1 = .ok 1 ∧
      getAllTasks (addTask "Write report" "" "2025-03-01" 2 TaskManager.new).2 =
        getAllTasks TaskManager.new ++ [⟨1, "Write report", "", "2025-03-01", 2, false⟩] ∧
      (addTask "Write report" "" "2025-03-01" 2 TaskManager.new).2.nextId = 1 + 1) ∧
    getPendingTasks (addTask "Write report" "" "2025-03-01" 2 TaskManager.new).2 =
      [⟨1, "Write report", "", "2025-03-01", 2, false⟩] :=
  ⟨addTask_success "Write report" "" "2025-03-01" 2 TaskManager.new (by decide) (by decide)
    (by decide), by decide⟩

/-- C3: in every sequence of public calls on a freshly constructed store, the
`k`-th successful `addTask` returns `k`: the returned ids are `1, 2, 3, ...`,
whatever deletes, updates, sorts, undos, redos and failing `addTask` calls lie
in between. -/
theorem addTask_ids_sequential (cs : List Call) :
    addResults cs TaskManager.new =
      (List.range (addResults cs TaskManager.new).length).map (fun (k : Nat) => (k : Int) + 1) := by
  have h := (addResults_eq cs TaskManager.new).1
  have h1 : TaskManager.new.nextId = 1 := rfl
  rw [h1] at h
  conv_lhs => rw [h]
  apply List.map_congr_left
  intro a _
  ring

/-! ## Heap and collection -/

/-- C5, as the code has it: after any sequence of public calls on a fresh
store, when the collection has at most `MAX_SIZE = 100` tasks that are not
completed, the heap holds exactly those tasks, field for field, as a
multiset. -/
theorem heap_matches_pending (cs : List Call)
    (hroom : (getPendingTasks (run cs TaskManager.new)).length ≤ MAX_SIZE) :
    List.Perm (run cs TaskManager.new).heap.heap (getPendingTasks (run cs TaskManager.new)) := by
  rw [(synced_run cs TaskManager.new synced_new).1]
  exact rebuildHeap_perm _ hroom

/-- Three adds, one completion: the heap holds the two pending tasks. -/
theorem heap_matches_pending_witness :
    (getPendingTasks (run [.addTask "a" "" "2025-01-03" 5, .addTask "b" "" "2025-01-02" 1,
        .addTask "c" "" "2025-01-01" 3, .markTaskCompleted 2] TaskManager.new)).length
      ≤ MAX_SIZE ∧
    List.Perm
      (run [.addTask "a" "" "2025-01-03" 5, .addTask "b" "" "2025-01-02" 1,
        .addTask "c" "" "2025-01-01" 3, .markTaskCompleted 2] TaskManager.new).heap.heap
      (getPendingTasks (run [.addTask "a" "" "2025-01-03" 5, .addTask "b" "" "2025-01-02" 1,
        .addTask "c" "" "2025-01-01" 3, .markTaskCompleted 2] TaskManager.new)) :=
  ⟨by decide, heap_matches_pending _ (by decide)⟩

/-- C5 as stated fails: after 101 successful `addTask` calls on a fresh store
the collection has 101 pending tasks, and the heap, which never holds more
than `MAX_SIZE = 100`, is not a rearrangement of them. -/
theorem heap_matches_pending_counterexample :
    ¬ List.Perm
      (run (List.replicate 101 (Call.addTask "t" "" "2025-01-01" 5)) TaskManager.new).heap.heap
      (getPendingTasks
        (run (List.replicate 101 (Call.addTask "t" "" "2025-01-01" 5)) TaskManager.new)) := by
  intro h
  have hlen := h.length_eq
  have hsync := (synced_run (List.replicate 101 (Call.addTask "t" "" "2025-01-01" 5))
    TaskManager.new synced_new).1
  have hle := rebuildHeap_size_le
    (run (List.replicate 101 (Call.addTask "t" "" "2025-01-01" 5)) TaskManager.new).tasks
  rw [← hsync] at hle
  have h101 : (getPendingTasks
      (run (List.replicate 101 (Call.addTask "t" "" "2025-01-01" 5)) TaskManager.new)).length
        = 101 := by
    have := pending_after_adds 101 TaskManager.new
    simpa [getPendingTasks, TaskManager.new] using this
  simp only [MinHeap.size, MAX_SIZE] at hle
  omega

/-! ## Undo after a mutation -/

/-- C6: in every state reached from a fresh store by public calls, if the
undo history has room (fewer than 100 entries), a successful `addTask`
followed by `undo()` gives back the collection as it was, same tasks in the
same order, while `nextId` stays incremented. -/
theorem addTask_undo (cs : List Call) (title desc deadline : String) (priority : Int)
    (hroom : (run cs TaskManager.new).undoActions.items.length < MAX_SIZE)
    (ht : title ≠ "") (hlo : 1 ≤ priority) (hhi : priority ≤ 10) :
    getAllTasks (undo (addTask title desc deadline priority (run cs TaskManager.new)).2) =
      getAllTasks (run cs TaskManager.new) ∧
    (undo (addTask title desc deadline priority (run cs TaskManager.new)).2).nextId =
      (run cs TaskManager.new).nextId + 1 := by
  have hinv := idsBelow_run cs TaskManager.new idsBelow_new
  generalize run cs TaskManager.new = s at hroom hinv ⊢
  have hp : ¬ (priority < 1 ∨ priority > 10) := by omega
  rw [addTask_ok _ _ _ _ _ ht hp]
  rw [undo_cons _ ⟨"add", Task.default, Task.new s.nextId title desc deadline priority⟩
    s.undoActions.items (by simp [push_items_of_lt _ _ hroom])]
  refine ⟨?_, rfl⟩
  simp only [getAllTasks, syncDataStructures_tasks]
  have h1 : ∀ u ∈ s.tasks, u.id ≠ s.nextId := by
    intro u hu
    have := hinv.2.1 u hu
    omega
  have := undoTasks_add_split
    ⟨"add", Task.default, Task.new s.nextId title desc deadline priority⟩ s.tasks []
    (Task.new s.nextId title desc deadline priority) rfl h1 rfl
  simpa using this

/-- After one add on a fresh store, a second add followed by `undo()` leaves
the single first task. -/
theorem addTask_undo_witness :
    (run [.addTask "a" "" "2025-01-01" 3] TaskManager.new).undoActions.items.length < MAX_SIZE ∧
    (getAllTasks (undo (addTask "b" "x" "2025-02-01" 7
        (run [.addTask "a" "" "2025-01-01" 3] TaskManager.new)).2) =
      getAllTasks (run [.addTask "a" "" "2025-01-01" 3] TaskManager.new) ∧
    (undo (addTask "b" "x" "2025-02-01" 7
        (run [.addTask "a" "" "2025-01-01" 3] TaskManager.new)).2).nextId =
      (run [.addTask "a" "" "2025-01-01" 3] TaskManager.new).nextId + 1) :=
  ⟨by decide, addTask_undo [.addTask "a" "" "2025-01-01" 3] "b" "x" "2025-02-01" 7
    (by decide) (by decide) (by decide) (by decide)⟩

/-- C7 as stated fails: with tasks 1 and 2 in the collection, `deleteTask(1)`
followed by `undo()` gives the order 2, 1 and not the original 1, 2. -/
theorem deleteTask_undo_counterexample :
    (run [.addTask "a" "" "2025-01-01" 3, .addTask "b" "" "2025-01-02" 4]
        TaskManager.new).undoActions.items.length < MAX_SIZE ∧
    (∃ t ∈ getAllTasks (run [.addTask "a" "" "2025-01-01" 3, .addTask "b" "" "2025-01-02" 4]
        TaskManager.new), t.id = 1) ∧
    getAllTasks (undo (deleteTask 1
        (run [.addTask "a" "" "2025-01-01" 3, .addTask "b" "" "2025-01-02" 4]
          TaskManager.new))) ≠
      getAllTasks (run [.addTask "a" "" "2025-01-01" 3, .addTask "b" "" "2025-01-02" 4]
        TaskManager.new) := by
  refine ⟨by decide, ⟨⟨1, "a", "", "2025-01-01", 3, false⟩, by decide, rfl⟩, by decide⟩

/-- C7, as the code has it: when the undo history has room and the id is
present, `deleteTask(id)` followed by `undo()` gives the collection without
the first task with that id, the other tasks in their order, followed by that
task with all its fields at the end.  This is a rearrangement of the
collection before the delete, and the same collection when the task was the
last one. -/
theorem deleteTask_undo (id : Int) (s : TaskManager)
    (hroom : s.undoActions.items.length < MAX_SIZE)
    (hid : ∃ t ∈ getAllTasks s, t.id = id) :
    ∃ l1 t l2, getAllTasks s = l1 ++ t :: l2 ∧ (∀ u ∈ l1, u.id ≠ id) ∧ t.id = id ∧
      getAllTasks (undo (deleteTask id s)) = l1 ++ l2 ++ [t] ∧
      List.Perm (getAllTasks (undo (deleteTask id s))) (getAllTasks s) ∧
      (l2 = [] → getAllTasks (undo (deleteTask id s)) = getAllTasks s) := by
  obtain ⟨l1, t, l2, hl, h1, ht⟩ := split_at_id id s.tasks hid
  have hres : getAllTasks (undo (deleteTask id s)) = l1 ++ l2 ++ [t] := by
    rw [deleteTask_split id s l1 l2 t hl h1 ht]
    rw [undo_cons _ ⟨"delete", t, Task.default⟩ s.undoActions.items
      (by simp [push_items_of_lt _ _ hroom])]
    simp only [getAllTasks, syncDataStructures_tasks]
    rw [undoTasks_delete _ _ rfl]
  refine ⟨l1, t, l2, hl, h1, ht, hres, ?_, ?_⟩
  · rw [hres]
    simp only [getAllTasks, hl]
    rw [List.append_assoc]
    exact List.Perm.append_left l1 (List.perm_append_singleton t l2)
  · intro h2
    rw [hres]
    simp [getAllTasks, hl, h2]

/-- Tasks 1 and 2, `deleteTask(1)`, `undo()`. -/
theorem deleteTask_undo_witness :
    (run [.addTask "a" "" "2025-01-01" 3, .addTask "b" "" "2025-01-02" 4]
        TaskManager.new).undoActions.items.length < MAX_SIZE ∧
    ∃ l1 t l2,
      getAllTasks (run [.addTask "a" "" "2025-01-01" 3, .addTask "b" "" "2025-01-02" 4]
        TaskManager.new) = l1 ++ t :: l2 ∧ (∀ u ∈ l1, u.id ≠ 1) ∧ t.id = 1 ∧
      getAllTasks (undo (deleteTask 1
        (run [.addTask "a" "" "2025-01-01" 3, .addTask "b" "" "2025-01-02" 4]
          TaskManager.new))) = l1 ++ l2 ++ [t] ∧
      List.Perm
        (getAllTasks (undo (deleteTask 1
          (run [.addTask "a" "" "2025-01-01" 3, .addTask "b" "" "2025-01-02" 4]
            TaskManager.new))))
        (getAllTasks (run [.addTask "a" "" "2025-01-01" 3, .addTask "b" "" "2025-01-02" 4]
          TaskManager.new)) ∧
      (l2 = [] → getAllTasks (undo (deleteTask 1
        (run [.addTask "a" "" "2025-01-01" 3, .addTask "b" "" "2025-01-02" 4]
          TaskManager.new))) =
        getAllTasks (run [.addTask "a" "" "2025-01-01" 3, .addTask "b" "" "2025-01-02" 4]
          TaskManager.new)) :=
  ⟨by decide, deleteTask_undo 1 _ (by decide)
    ⟨⟨1, "a", "", "2025-01-01", 3, false⟩, by decide, rfl⟩⟩

/-- C8: when the undo history has room and the id is present, each of
`updateTask`, `editTask`, `updatePriority` and `markTaskCompleted`, with any
arguments, followed by `undo()` gives back the collection as it was: same
order, every field of every task. -/
theorem update_undo (id : Int) (title desc deadline newTitle newDeadline : String)
    (priority newPriority : Int) (s : TaskManager)
    (hroom : s.undoActions.items.length < MAX_SIZE)
    (hid : ∃ t ∈ getAllTasks s, t.id = id) :
    getAllTasks (undo (updateTask id title desc deadline priority s)) = getAllTasks s ∧
    getAllTasks (undo (editTask id newTitle newDeadline s)) = getAllTasks s ∧
    getAllTasks (undo (updatePriority id newPriority s)) = getAllTasks s ∧
    getAllTasks (undo (markTaskCompleted id s)) = getAllTasks s := by
  simp only [getAllTasks] at hid ⊢
  rw [updateTask_eq_editWith, editTask_eq_editWith, updatePriority_eq_editWith,
    markTaskCompleted_eq_editWith]
  refine ⟨?_, ?_, ?_, ?_⟩ <;>
    exact undo_editWith_tasks _ (fun _ => by rfl) id s hroom hid

/-- Two tasks; each kind of update of task 1, then `undo()`. -/
theorem update_undo_witness :
    (run [.addTask "a" "" "2025-01-01" 3, .addTask "b" "" "2025-01-02" 4]
        TaskManager.new).undoActions.items.length < MAX_SIZE ∧
    (getAllTasks (undo (updateTask 1 "c" "d" "2026-05-05" 42
        (run [.addTask "a" "" "2025-01-01" 3, .addTask "b" "" "2025-01-02" 4]
          TaskManager.new))) =
      getAllTasks (run [.addTask "a" "" "2025-01-01" 3, .addTask "b" "" "2025-01-02" 4]
        TaskManager.new) ∧
    getAllTasks (undo (editTask 1 "e" "2027-01-01"
        (run [.addTask "a" "" "2025-01-01" 3, .addTask "b" "" "2025-01-02" 4]
          TaskManager.new))) =
      getAllTasks (run [.addTask "a" "" "2025-01-01" 3, .addTask "b" "" "2025-01-02" 4]
        TaskManager.new) ∧
    getAllTasks (undo (updatePriority 1 9
        (run [.addTask "a" "" "2025-01-01" 3, .addTask "b" "" "2025-01-02" 4]
          TaskManager.new))) =
      getAllTasks (run [.addTask "a" "" "2025-01-01" 3, .addTask "b" "" "2025-01-02" 4]
        TaskManager.new) ∧
    getAllTasks (undo (markTaskCompleted 1
        (run [.addTask "a" "" "2025-01-01" 3, .addTask "b" "" "2025-01-02" 4]
          TaskManager.new))) =
      getAllTasks (run [.addTask "a" "" "2025-01-01" 3, .addTask "b" "" "2025-01-02" 4]
        TaskManager.new)) :=
  ⟨by decide, update_undo 1 "c" "d" "2026-05-05" "e" "2027-01-01" 42 9 _ (by decide)
    ⟨⟨1, "a", "", "2025-01-01", 3, false⟩, by decide, rfl⟩⟩

/-! ## Unique ids -/

/-- C4 as stated fails: a `redo()` of a stale entry brings a second copy of
task 1 into the collection.  After add, delete, undo, delete, redo, undo, undo
the collection holds two tasks with id 1. -/
theorem ids_unique_counterexample :
    ¬ ((getAllTasks (run [.addTask "a" "" "2025-01-01" 3, .deleteTask 1, .undo, .deleteTask 1,
        .redo, .undo, .undo] TaskManager.new)).map Task.id).Nodup := by
  decide

/-- C4, as the code has it: in every state reached from a fresh store by a
sequence of public calls in which no `redo()` replays a stale entry, no two
tasks of the collection have the same id.  An entry of the redo history is
stale once a recording call (`addTask`, `deleteTask`, `updateTask`,
`markTaskCompleted`, `editTask`, `updatePriority`) has changed the store after
the `undo()` that put it there.  Every other call may come at any time, also a
recording call while undone actions wait on the redo history, and the
histories may be full. -/
theorem ids_unique (cs : List Call) (hd : noStaleReplay cs 0 TaskManager.new = true) :
    ((getAllTasks (run cs TaskManager.new)).map Task.id).Nodup := by
  obtain ⟨k, h⟩ := ledger_run cs 0 TaskManager.new ledger_new hd
  exact h.2.1

/-- Adds, a delete, a sort, undos and redos, with recording calls made while
undone actions wait on the redo history; every `redo()` replays an action
undone after the last recording call. -/
theorem ids_unique_witness :
    noStaleReplay [.addTask "a" "" "2025-01-03" 3, .addTask "b" "" "2025-01-02" 4,
        .deleteTask 1, .sortByDeadline, .undo, .undo, .redo, .updatePriority 2 7,
        .undo, .addTask "c" "" "2025-01-01" 5, .undo, .redo]
      0 TaskManager.new = true ∧
    (run [.addTask "a" "" "2025-01-03" 3, .addTask "b" "" "2025-01-02" 4,
        .deleteTask 1, .sortByDeadline, .undo, .undo, .redo, .updatePriority 2 7,
        .undo, .addTask "c" "" "2025-01-01" 5, .undo, .redo]
      TaskManager.new).redoActions.items ≠ [] ∧
    ((getAllTasks (run [.addTask "a" "" "2025-01-03" 3, .addTask "b" "" "2025-01-02" 4,
        .deleteTask 1, .sortByDeadline, .undo, .undo, .redo, .updatePriority 2 7,
        .undo, .addTask "c" "" "2025-01-01" 5, .undo, .redo]
      TaskManager.new)).map Task.id).Nodup :=
  ⟨by decide, by decide, ids_unique _ (by decide)⟩

/-! ## Undo followed by redo -/

set_option maxRecDepth 1000000 in
/-- C9 as stated fails, in five reachable states.

1. Order: with the collection in the order 2, 1 (tasks 1 and 2 added, task 1
   deleted and the delete undone), `undo()` takes task 2 out and `redo()` puts
   it back at the end, so the order is 1, 2 afterwards.
2. Empty undo history: after an add and its undo, `undo()` does nothing and
   `redo()` brings the task back.
3. Stale redo entry: after add 1, delete 1, undo, `updatePriority(1, 9)`,
   redo, undo, task 1 has priority 3 and the edit is on top of the undo
   history; `undo()` then `redo()` leaves it with priority 9.
4. Dropped record: after 100 adds the undo history is full and
   `deleteTask(100)` is not recorded; `undo()` finds no task 100 to remove and
   `redo()` appends it, so the collection grows from 99 to 100 tasks.
5. Full redo history: after 100 adds, 100 undos and one more add, a session
   without any `redo()` and without a lost record, the add of task 101 is on
   the undo history and the redo history is full; `undo()` takes task 101 out
   and its action is dropped, and `redo()` replays another action, so task 101
   is not back. -/
theorem undo_redo_counterexample :
    getAllTasks (redo (undo (run [.addTask "a" "" "2025-01-01" 3,
        .addTask "b" "" "2025-01-02" 4, .deleteTask 1, .undo] TaskManager.new))) ≠
      getAllTasks (run [.addTask "a" "" "2025-01-01" 3,
        .addTask "b" "" "2025-01-02" 4, .deleteTask 1, .undo] TaskManager.new) ∧
    ¬ List.Perm
      (getAllTasks (redo (undo (run [.addTask "a" "" "2025-01-01" 3, .undo]
        TaskManager.new))))
      (getAllTasks (run [.addTask "a" "" "2025-01-01" 3, .undo] TaskManager.new)) ∧
    ¬ List.Perm
      (getAllTasks (redo (undo (run [.addTask "a" "" "2025-01-01" 3, .deleteTask 1, .undo,
        .updatePriority 1 9, .redo, .undo] TaskManager.new))))
      (getAllTasks (run [.addTask "a" "" "2025-01-01" 3, .deleteTask 1, .undo,
        .updatePriority 1 9, .redo, .undo] TaskManager.new)) ∧
    ¬ List.Perm
      (getAllTasks (redo (undo (run (List.replicate 100 (Call.addTask "t" "" "2025-01-01" 5) ++
        [Call.deleteTask 100]) TaskManager.new))))
      (getAllTasks (run (List.replicate 100 (Call.addTask "t" "" "2025-01-01" 5) ++
        [Call.deleteTask 100]) TaskManager.new)) ∧
    (noStaleReplay (List.replicate 100 (Call.addTask "t" "" "2025-01-01" 5) ++
        List.replicate 100 Call.undo ++ [Call.addTask "t" "" "2025-01-01" 5])
        0 TaskManager.new = true ∧
      noDroppedRecord (List.replicate 100 (Call.addTask "t" "" "2025-01-01" 5) ++
        List.replicate 100 Call.undo ++ [Call.addTask "t" "" "2025-01-01" 5])
        TaskManager.new = true ∧
      (run (List.replicate 100 (Call.addTask "t" "" "2025-01-01" 5) ++
        List.replicate 100 Call.undo ++ [Call.addTask "t" "" "2025-01-01" 5])
        TaskManager.new).undoActions.items =
        [⟨"add", Task.default, ⟨101, "t", "", "2025-01-01", 5, false⟩⟩] ∧
      (run (List.replicate 100 (Call.addTask "t" "" "2025-01-01" 5) ++
        List.replicate 100 Call.undo ++ [Call.addTask "t" "" "2025-01-01" 5])
        TaskManager.new).redoActions.items.length = MAX_SIZE ∧
      ¬ List.Perm
        (getAllTasks (redo (undo (run (List.replicate 100 (Call.addTask "t" "" "2025-01-01" 5) ++
          List.replicate 100 Call.undo ++ [Call.addTask "t" "" "2025-01-01" 5])
          TaskManager.new))))
        (getAllTasks (run (List.replicate 100 (Call.addTask "t" "" "2025-01-01" 5) ++
          List.replicate 100 Call.undo ++ [Call.addTask "t" "" "2025-01-01" 5])
          TaskManager.new))) := by
  refine ⟨by decide, by decide, by decide, ?_, ?_, ?_, full_redo_add_state.1,
    full_redo_add_state.2.1, ?_⟩
  · intro h
    have hlen := h.length_eq
    revert hlen
    decide
  · apply noStaleReplay_of_no_redo
    intro c hc
    simp only [List.mem_append, List.mem_replicate, List.mem_singleton] at hc
    rcases hc with (⟨_, rfl⟩ | ⟨_, rfl⟩) | rfl <;> simp
  · obtain ⟨hn, hu, hr, hdrop⟩ := full_redo_state
    rw [noDroppedRecord_append, hdrop]
    generalize run (List.replicate 100 (Call.addTask "t" "" "2025-01-01" 5) ++
      List.replicate 100 Call.undo) TaskManager.new = s at hu
    simp only [noDroppedRecord, Call.dropsRecord, Call.isMutation, Stack.isFull, hu]
    have h0 : (([] : List UndoAction).length == MAX_SIZE) = false := by decide
    simp only [h0, if_true, Bool.false_and, Bool.not_false, Bool.and_self]
  · obtain ⟨hn, hu, hr, _⟩ := full_redo_state
    have hids := idsBelow_run (List.replicate 100 (Call.addTask "t" "" "2025-01-01" 5) ++
      List.replicate 100 Call.undo) TaskManager.new idsBelow_new
    rw [run_append]
    generalize run (List.replicate 100 (Call.addTask "t" "" "2025-01-01" 5) ++
      List.replicate 100 Call.undo) TaskManager.new = s at hn hu hr hids
    obtain ⟨r, rest, hrl⟩ : ∃ r rest, s.redoActions.items = r :: rest := by
      cases h : s.redoActions.items with
      | nil => rw [h] at hr; simp at hr
      | cons r rest => exact ⟨r, rest, rfl⟩
    have hadd := addTask_ok "t" "" "2025-01-01" 5 s (by decide) (by decide)
    have hpush : (s.undoActions.push ⟨"add", Task.default,
        Task.new s.nextId "t" "" "2025-01-01" 5⟩).items =
        [⟨"add", Task.default, Task.new s.nextId "t" "" "2025-01-01" 5⟩] := by
      rw [push_items_of_lt _ _ (by rw [hu]; decide), hu]
    have habs : ∀ u ∈ s.tasks, u.id ≠ s.nextId := by
      intro u hu2
      have := hids.2.1 u hu2
      omega
    have hundo : (undo (run [Call.addTask "t" "" "2025-01-01" 5] s)).tasks = s.tasks ∧
        (undo (run [Call.addTask "t" "" "2025-01-01" 5] s)).redoActions.items = r :: rest := by
      simp only [run, Call.apply, hadd]
      rw [undo_cons _ ⟨"add", Task.default, Task.new s.nextId "t" "" "2025-01-01" 5⟩ []
        (by simp only [syncDataStructures_undoActions]; exact hpush)]
      simp only [syncDataStructures_tasks, syncDataStructures_redoActions]
      refine ⟨?_, ?_⟩
      · have := undoTasks_add_split
          ⟨"add", Task.default, Task.new s.nextId "t" "" "2025-01-01" 5⟩ s.tasks []
          (Task.new s.nextId "t" "" "2025-01-01" 5) rfl habs rfl
        simpa using this
      · rw [push_items_of_full _ _ (by rw [hr]; rfl)]
        exact hrl
    have hredo : getAllTasks (redo (undo (run [Call.addTask "t" "" "2025-01-01" 5] s))) =
        redoTasks r s.tasks := by
      rw [redo_cons _ r rest hundo.2]
      simp only [getAllTasks, syncDataStructures_tasks, hundo.1]
    have hredo2 : getAllTasks (redo s) = redoTasks r s.tasks := by
      rw [redo_cons s r rest hrl]
      rfl
    have hids2 : IdsBelow (redo s) := idsBelow_apply .redo s hids
    have hn2 : (redo s).nextId = s.nextId := by
      rw [redo_cons s r rest hrl]
      rfl
    intro hperm
    have hmem : Task.new s.nextId "t" "" "2025-01-01" 5 ∈
        getAllTasks (run [Call.addTask "t" "" "2025-01-01" 5] s) := by
      simp only [run, Call.apply, hadd, getAllTasks, syncDataStructures_tasks]
      simp
    have hmem2 := hperm.symm.subset hmem
    rw [hredo, ← hredo2] at hmem2
    have := hids2.2.1 _ hmem2
    rw [hn2] at this
    simp only [Task.new] at this
    omega

/-- C9, as the code has it: in every state reached from a fresh store by a
sequence of public calls in which no `redo()` replays a stale entry and no
record is lost to a full history, with an undo history that is not empty and a
redo history that has room (fewer than 100 entries), `undo()` followed by
`redo()` leaves the same tasks, field for field.  The order is the same too
when the undone action is an edit or a delete; an undone add comes back at the
end of the collection.  Recording calls may be made while undone actions wait
on the redo history. -/
theorem undo_redo (cs : List Call) (a : UndoAction) (rest : List UndoAction)
    (hs : noStaleReplay cs 0 TaskManager.new = true)
    (hd : noDroppedRecord cs TaskManager.new = true)
    (htop : (run cs TaskManager.new).undoActions.items = a :: rest)
    (hroom : (run cs TaskManager.new).redoActions.items.length < MAX_SIZE) :
    List.Perm (getAllTasks (redo (undo (run cs TaskManager.new))))
      (getAllTasks (run cs TaskManager.new)) ∧
    (a.type ≠ "add" →
      getAllTasks (redo (undo (run cs TaskManager.new))) =
        getAllTasks (run cs TaskManager.new)) ∧
    (a.type = "add" → ∃ l1 l2,
      getAllTasks (run cs TaskManager.new) = l1 ++ a.after :: l2 ∧
      getAllTasks (redo (undo (run cs TaskManager.new))) = l1 ++ l2 ++ [a.after]) := by
  obtain ⟨k, htl⟩ := timeline_run cs 0 TaskManager.new timeline_new hs hd
  generalize run cs TaskManager.new = s at htop hroom htl ⊢
  obtain ⟨_, hnd, huc, _⟩ := htl
  rw [htop] at huc
  have hres : getAllTasks (redo (undo s)) = redoTasks a (undoTasks a s.tasks) := by
    rw [undo_cons s a rest htop]
    rw [redo_cons _ a s.redoActions.items (by simp [push_items_of_lt _ _ hroom])]
    rfl
  rw [hres]
  exact (undo_then_redo a s.tasks hnd huc.1).2.2

/-- An add, its undo, then two adds made while the undone add waits on the
redo history; `undo()` and `redo()` of the last add. -/
theorem undo_redo_witness :
    noStaleReplay [.addTask "a" "" "2025-01-01" 3, .undo, .addTask "b" "" "2025-01-02" 4,
      .addTask "c" "" "2025-01-03" 5] 0 TaskManager.new = true ∧
    noDroppedRecord [.addTask "a" "" "2025-01-01" 3, .undo, .addTask "b" "" "2025-01-02" 4,
      .addTask "c" "" "2025-01-03" 5] TaskManager.new = true ∧
    (run [.addTask "a" "" "2025-01-01" 3, .undo, .addTask "b" "" "2025-01-02" 4,
      .addTask "c" "" "2025-01-03" 5] TaskManager.new).undoActions.items =
      ⟨"add", Task.default, ⟨3, "c", "", "2025-01-03", 5, false⟩⟩ ::
        [⟨"add", Task.default, ⟨2, "b", "", "2025-01-02", 4, false⟩⟩] ∧
    (run [.addTask "a" "" "2025-01-01" 3, .undo, .addTask "b" "" "2025-01-02" 4,
      .addTask "c" "" "2025-01-03" 5] TaskManager.new).redoActions.items =
      [⟨"add", Task.default, ⟨1, "a", "", "2025-01-01", 3, false⟩⟩] ∧
    List.Perm
      (getAllTasks (redo (undo (run [.addTask "a" "" "2025-01-01" 3, .undo,
        .addTask "b" "" "2025-01-02" 4, .addTask "c" "" "2025-01-03" 5] TaskManager.new))))
      (getAllTasks (run [.addTask "a" "" "2025-01-01" 3, .undo,
        .addTask "b" "" "2025-01-02" 4, .addTask "c" "" "2025-01-03" 5] TaskManager.new)) :=
  ⟨by decide, by decide, by decide, by decide,
    (undo_redo [.addTask "a" "" "2025-01-01" 3, .undo, .addTask "b" "" "2025-01-02" 4,
        .addTask "c" "" "2025-01-03" 5]
      ⟨"add", Task.default, ⟨3, "c", "", "2025-01-03", 5, false⟩⟩
      [⟨"add", Task.default, ⟨2, "b", "", "2025-01-02", 4, false⟩⟩]
      (by decide) (by decide) (by decide) (by decide)).1⟩

/-! ## What undo does -/

/-- C10 as stated fails: `undo()` does not always push the action it pops.
After 100 adds, 100 undos and one more add (no call fails), the undo history
holds the add of task 101 and the redo history is full.  `undo()` pops that add
and the full redo history drops it: the redo history is what it was, and the
action is not among its entries. -/
theorem undo_effect_counterexample :
    (run (List.replicate 100 (Call.addTask "t" "" "2025-01-01" 5) ++
      List.replicate 100 Call.undo ++ [Call.addTask "t" "" "2025-01-01" 5])
      TaskManager.new).undoActions.items =
      [⟨"add", Task.default, ⟨101, "t", "", "2025-01-01", 5, false⟩⟩] ∧
    (run (List.replicate 100 (Call.addTask "t" "" "2025-01-01" 5) ++
      List.replicate 100 Call.undo ++ [Call.addTask "t" "" "2025-01-01" 5])
      TaskManager.new).redoActions.items.length = MAX_SIZE ∧
    (undo (run (List.replicate 100 (Call.addTask "t" "" "2025-01-01" 5) ++
      List.replicate 100 Call.undo ++ [Call.addTask "t" "" "2025-01-01" 5])
      TaskManager.new)).undoActions.items = [] ∧
    (undo (run (List.replicate 100 (Call.addTask "t" "" "2025-01-01" 5) ++
      List.replicate 100 Call.undo ++ [Call.addTask "t" "" "2025-01-01" 5])
      TaskManager.new)).redoActions =
      (run (List.replicate 100 (Call.addTask "t" "" "2025-01-01" 5) ++
        List.replicate 100 Call.undo ++ [Call.addTask "t" "" "2025-01-01" 5])
        TaskManager.new).redoActions ∧
    (⟨"add", Task.default, ⟨101, "t", "", "2025-01-01", 5, false⟩⟩ : UndoAction) ∉
      (undo (run (List.replicate 100 (Call.addTask "t" "" "2025-01-01" 5) ++
        List.replicate 100 Call.undo ++ [Call.addTask "t" "" "2025-01-01" 5])
        TaskManager.new)).redoActions.items := by
  obtain ⟨hu, hr, hb⟩ := full_redo_add_state
  generalize run (List.replicate 100 (Call.addTask "t" "" "2025-01-01" 5) ++
    List.replicate 100 Call.undo ++ [Call.addTask "t" "" "2025-01-01" 5])
    TaskManager.new = s at hu hr hb
  have hundo := undo_cons s _ [] hu
  have hred : (undo s).redoActions = s.redoActions := by
    rw [hundo]
    simp only [syncDataStructures_redoActions]
    exact push_items_of_full _ _ hr
  refine ⟨hu, hr, by rw [hundo]; rfl, hred, ?_⟩
  intro hmem
  rw [hred] at hmem
  have := hb _ hmem
  simp at this

/-- C10, as the code has it: with the action `a` on top of the undo history,
`undo()` pops `a`, leaves `nextId` alone, and changes the collection by the
type of `a`: an add removes the first task whose id is `a.after.id`, an edit
overwrites the first task whose id is `a.before.id` with `a.before`, a delete
appends `a.before` at the end.  When no task has the id, an add or an edit
leaves the collection as it is.  When the redo history holds fewer than 100
entries, `a` is put on top of it; a full redo history stays as it is. -/
theorem undo_effect (s : TaskManager) (a : UndoAction) (rest : List UndoAction)
    (htop : s.undoActions.items = a :: rest) :
    (undo s).undoActions.items = rest ∧
    (s.redoActions.items.length < MAX_SIZE →
      (undo s).redoActions.items = a :: s.redoActions.items) ∧
    (s.redoActions.items.length = MAX_SIZE → (undo s).redoActions = s.redoActions) ∧
    (undo s).nextId = s.nextId ∧
    (a.type = "add" →
      (∀ l1 t l2, getAllTasks s = l1 ++ t :: l2 → (∀ u ∈ l1, u.id ≠ a.after.id) →
        t.id = a.after.id → getAllTasks (undo s) = l1 ++ l2) ∧
      ((∀ u ∈ getAllTasks s, u.id ≠ a.after.id) → getAllTasks (undo s) = getAllTasks s)) ∧
    (a.type = "edit" →
      (∀ l1 t l2, getAllTasks s = l1 ++ t :: l2 → (∀ u ∈ l1, u.id ≠ a.before.id) →
        t.id = a.before.id → getAllTasks (undo s) = l1 ++ a.before :: l2) ∧
      ((∀ u ∈ getAllTasks s, u.id ≠ a.before.id) → getAllTasks (undo s) = getAllTasks s)) ∧
    (a.type = "delete" → getAllTasks (undo s) = getAllTasks s ++ [a.before]) := by
  have hu := undo_cons s a rest htop
  have htasks : getAllTasks (undo s) = undoTasks a (getAllTasks s) := by rw [hu]; rfl
  refine ⟨by rw [hu]; rfl, ?_, ?_, by rw [hu]; rfl, ?_, ?_, ?_⟩
  · intro h
    rw [hu]
    exact push_items_of_lt _ _ h
  · intro h
    rw [hu]
    exact push_items_of_full _ _ h
  · intro hty
    refine ⟨?_, fun h => by rw [htasks]; exact undoTasks_add_absent a _ hty h⟩
    intro l1 t l2 hl h1 ht
    rw [htasks, hl]
    exact undoTasks_add_split a l1 l2 t hty h1 ht
  · intro hty
    refine ⟨?_, fun h => by rw [htasks]; exact undoTasks_edit_absent a _ hty h⟩
    intro l1 t l2 hl h1 ht
    rw [htasks, hl]
    exact undoTasks_edit_split a l1 l2 t hty h1 ht
  · intro hty
    rw [htasks]
    exact undoTasks_delete a _ hty

/-- Tasks 1 and 2, task 1 deleted: `undo()` pops the delete, puts it on the
empty redo history and appends task 1 after task 2. -/
theorem undo_effect_witness :
    (run [.addTask "a" "" "2025-01-01" 3, .addTask "b" "" "2025-01-02" 4, .deleteTask 1]
      TaskManager.new).undoActions.items =
      ⟨"delete", ⟨1, "a", "", "2025-01-01", 3, false⟩, Task.default⟩ ::
        [⟨"add", Task.default, ⟨2, "b", "", "2025-01-02", 4, false⟩⟩,
         ⟨"add", Task.default, ⟨1, "a", "", "2025-01-01", 3, false⟩⟩] ∧
    (undo (run [.addTask "a" "" "2025-01-01" 3, .addTask "b" "" "2025-01-02" 4,
      .deleteTask 1] TaskManager.new)).redoActions.items =
      ⟨"delete", ⟨1, "a", "", "2025-01-01", 3, false⟩, Task.default⟩ ::
        (run [.addTask "a" "" "2025-01-01" 3, .addTask "b" "" "2025-01-02" 4,
          .deleteTask 1] TaskManager.new).redoActions.items ∧
    getAllTasks (undo (run [.addTask "a" "" "2025-01-01" 3, .addTask "b" "" "2025-01-02" 4,
      .deleteTask 1] TaskManager.new)) =
      getAllTasks (run [.addTask "a" "" "2025-01-01" 3, .addTask "b" "" "2025-01-02" 4,
        .deleteTask 1] TaskManager.new) ++ [⟨1, "a", "", "2025-01-01", 3, false⟩] :=
  ⟨by decide,
    (undo_effect
      (run [.addTask "a" "" "2025-01-01" 3, .addTask "b" "" "2025-01-02" 4, .deleteTask 1]
        TaskManager.new)
      ⟨"delete", ⟨1, "a", "", "2025-01-01", 3, false⟩, Task.default⟩
      [⟨"add", Task.default, ⟨2, "b", "", "2025-01-02", 4, false⟩⟩,
       ⟨"add", Task.default, ⟨1, "a", "", "2025-01-01", 3, false⟩⟩]
      (by decide)).2.1 (by decide),
    (undo_effect
      (run [.addTask "a" "" "2025-01-01" 3, .addTask "b" "" "2025-01-02" 4, .deleteTask 1]
        TaskManager.new)
      ⟨"delete", ⟨1, "a", "", "2025-01-01", 3, false⟩, Task.default⟩
      [⟨"add", Task.default, ⟨2, "b", "", "2025-01-02", 4, false⟩⟩,
       ⟨"add", Task.default, ⟨1, "a", "", "2025-01-01", 3, false⟩⟩]
      (by decide)).2.2.2.2.2.2 rfl⟩

/-! ## What redo does -/

set_option maxRecDepth 1000000 in
/-- C11 as stated fails: `redo()` does not always push the action back.  After
100 adds, one undo and one more add (no call fails), the redo history holds the
add of task 100 and the undo history is full, the add of task 101 on top.
`redo()` pops the add of task 100, appends the task, and the full undo history
drops the action: the undo history is what it was, with the add of task 101 on
top, and the action is not among its entries. -/
theorem redo_effect_counterexample :
    (run (List.replicate 100 (Call.addTask "t" "" "2025-01-01" 5) ++
      [Call.undo, Call.addTask "t" "" "2025-01-01" 5]) TaskManager.new).redoActions.items =
      [⟨"add", Task.default, ⟨100, "t", "", "2025-01-01", 5, false⟩⟩] ∧
    (run (List.replicate 100 (Call.addTask "t" "" "2025-01-01" 5) ++
      [Call.undo, Call.addTask "t" "" "2025-01-01" 5])
      TaskManager.new).undoActions.items.length = MAX_SIZE ∧
    (redo (run (List.replicate 100 (Call.addTask "t" "" "2025-01-01" 5) ++
      [Call.undo, Call.addTask "t" "" "2025-01-01" 5]) TaskManager.new)).redoActions.items =
      [] ∧
    (redo (run (List.replicate 100 (Call.addTask "t" "" "2025-01-01" 5) ++
      [Call.undo, Call.addTask "t" "" "2025-01-01" 5]) TaskManager.new)).undoActions =
      (run (List.replicate 100 (Call.addTask "t" "" "2025-01-01" 5) ++
        [Call.undo, Call.addTask "t" "" "2025-01-01" 5]) TaskManager.new).undoActions ∧
    (redo (run (List.replicate 100 (Call.addTask "t" "" "2025-01-01" 5) ++
      [Call.undo, Call.addTask "t" "" "2025-01-01" 5])
      TaskManager.new)).undoActions.items.head? =
      some ⟨"add", Task.default, ⟨101, "t", "", "2025-01-01", 5, false⟩⟩ ∧
    (⟨"add", Task.default, ⟨100, "t", "", "2025-01-01", 5, false⟩⟩ : UndoAction) ∉
      (redo (run (List.replicate 100 (Call.addTask "t" "" "2025-01-01" 5) ++
        [Call.undo, Call.addTask "t" "" "2025-01-01" 5]) TaskManager.new)).undoActions.items ∧
    (getAllTasks (redo (run (List.replicate 100 (Call.addTask "t" "" "2025-01-01" 5) ++
      [Call.undo, Call.addTask "t" "" "2025-01-01" 5]) TaskManager.new))).getLast? =
      some ⟨100, "t", "", "2025-01-01", 5, false⟩ :=
  ⟨by decide, by decide, by decide, by decide, by decide, by decide, by decide⟩

/-- C11, as the code has it: with the action `a` on top of the redo history,
`redo()` pops `a`, leaves `nextId` alone, and changes the collection by the
type of `a`: an add appends `a.after` at the end, an edit overwrites the first
task whose id is `a.after.id` with `a.after`, a delete removes the first task
whose id is `a.before.id`.  When no task has the id, an edit or a delete
leaves the collection as it is.  When the undo history holds fewer than 100
entries, `a` is put back on top of it; a full undo history stays as it is. -/
theorem redo_effect (s : TaskManager) (a : UndoAction) (rest : List UndoAction)
    (htop : s.redoActions.items = a :: rest) :
    (redo s).redoActions.items = rest ∧
    (s.undoActions.items.length < MAX_SIZE →
      (redo s).undoActions.items = a :: s.undoActions.items) ∧
    (s.undoActions.items.length = MAX_SIZE → (redo s).undoActions = s.undoActions) ∧
    (redo s).nextId = s.nextId ∧
    (a.type = "add" → getAllTasks (redo s) = getAllTasks s ++ [a.after]) ∧
    (a.type = "edit" →
      (∀ l1 t l2, getAllTasks s = l1 ++ t :: l2 → (∀ u ∈ l1, u.id ≠ a.after.id) →
        t.id = a.after.id → getAllTasks (redo s) = l1 ++ a.after :: l2) ∧
      ((∀ u ∈ getAllTasks s, u.id ≠ a.after.id) → getAllTasks (redo s) = getAllTasks s)) ∧
    (a.type = "delete" →
      (∀ l1 t l2, getAllTasks s = l1 ++ t :: l2 → (∀ u ∈ l1, u.id ≠ a.before.id) →
        t.id = a.before.id → getAllTasks (redo s) = l1 ++ l2) ∧
      ((∀ u ∈ getAllTasks s, u.id ≠ a.before.id) → getAllTasks (redo s) = getAllTasks s)) := by
  have hr := redo_cons s a rest htop
  have htasks : getAllTasks (redo s) = redoTasks a (getAllTasks s) := by rw [hr]; rfl
  refine ⟨by rw [hr]; rfl, ?_, ?_, by rw [hr]; rfl, ?_, ?_, ?_⟩
  · intro h
    rw [hr]
    exact push_items_of_lt _ _ h
  · intro h
    rw [hr]
    exact push_items_of_full _ _ h
  · intro hty
    rw [htasks]
    exact redoTasks_add a _ hty
  · intro hty
    refine ⟨?_, fun h => by rw [htasks]; exact redoTasks_edit_absent a _ hty h⟩
    intro l1 t l2 hl h1 ht
    rw [htasks, hl]
    exact redoTasks_edit_split a l1 l2 t hty h1 ht
  · intro hty
    refine ⟨?_, fun h => by rw [htasks]; exact redoTasks_delete_absent a _ hty h⟩
    intro l1 t l2 hl h1 ht
    rw [htasks, hl]
    exact redoTasks_delete_split a l1 l2 t hty h1 ht

/-- Tasks 1 and 2, task 1 deleted, the delete undone: `redo()` pops the
delete from the redo history, puts it back on top of the undo history and
removes task 1 again. -/
theorem redo_effect_witness :
    (run [.addTask "a" "" "2025-01-01" 3, .addTask "b" "" "2025-01-02" 4, .deleteTask 1,
      .undo] TaskManager.new).redoActions.items =
      ⟨"delete", ⟨1, "a", "", "2025-01-01", 3, false⟩, Task.default⟩ :: [] ∧
    (redo (run [.addTask "a" "" "2025-01-01" 3, .addTask "b" "" "2025-01-02" 4, .deleteTask 1,
      .undo] TaskManager.new)).undoActions.items =
      ⟨"delete", ⟨1, "a", "", "2025-01-01", 3, false⟩, Task.default⟩ ::
        (run [.addTask "a" "" "2025-01-01" 3, .addTask "b" "" "2025-01-02" 4, .deleteTask 1,
          .undo] TaskManager.new).undoActions.items ∧
    getAllTasks (redo (run [.addTask "a" "" "2025-01-01" 3, .addTask "b" "" "2025-01-02" 4,
      .deleteTask 1, .undo] TaskManager.new)) =
      [⟨2, "b", "", "2025-01-02", 4, false⟩] ++ [] :=
  ⟨by decide,
    (redo_effect
      (run [.addTask "a" "" "2025-01-01" 3, .addTask "b" "" "2025-01-02" 4, .deleteTask 1,
        .undo] TaskManager.new)
      ⟨"delete", ⟨1, "a", "", "2025-01-01", 3, false⟩, Task.default⟩ []
      (by decide)).2.1 (by decide),
    ((redo_effect
      (run [.addTask "a" "" "2025-01-01" 3, .addTask "b" "" "2025-01-02" 4, .deleteTask 1,
        .undo] TaskManager.new)
      ⟨"delete", ⟨1, "a", "", "2025-01-01", 3, false⟩, Task.default⟩ []
      (by decide)).2.2.2.2.2.2 rfl).1
      [⟨2, "b", "", "2025-01-02", 4, false⟩] ⟨1, "a", "", "2025-01-01", 3, false⟩ []
      (by decide) (by decide) rfl⟩

/-! ## Calls that find nothing to do -/

/-- C12: on an empty undo history `undo()` returns the store as it was
(collection, list, heap, both histories, `nextId`), and on an empty redo
history so does `redo()`. -/
theorem undo_redo_empty (s : TaskManager) :
    (s.undoActions.isEmpty = true → undo s = s) ∧
    (s.redoActions.isEmpty = true → redo s = s) := by
  constructor
  · intro h
    simp [undo, h]
  · intro h
    simp [redo, h]

/-- A fresh store has both histories empty. -/
theorem undo_redo_empty_witness :
    (TaskManager.new.undoActions.isEmpty = true ∧ undo TaskManager.new = TaskManager.new) ∧
    (TaskManager.new.redoActions.isEmpty = true ∧ redo TaskManager.new = TaskManager.new) :=
  ⟨⟨by decide, (undo_redo_empty TaskManager.new).1 (by decide)⟩,
    ⟨by decide, (undo_redo_empty TaskManager.new).2 (by decide)⟩⟩

/-- C13: when no task of the collection has the id, `deleteTask`,
`updateTask`, `markTaskCompleted`, `editTask` and `updatePriority` return the
store as it was: collection, list, heap, both histories and `nextId`. -/
theorem absent_id_noop (id : Int) (title desc deadline newTitle newDeadline : String)
    (priority newPriority : Int) (s : TaskManager)
    (habs : ∀ u ∈ getAllTasks s, u.id ≠ id) :
    deleteTask id s = s ∧
    updateTask id title desc deadline priority s = s ∧
    markTaskCompleted id s = s ∧
    editTask id newTitle newDeadline s = s ∧
    updatePriority id newPriority s = s := by
  rw [updateTask_eq_editWith, markTaskCompleted_eq_editWith, editTask_eq_editWith,
    updatePriority_eq_editWith]
  exact ⟨deleteTask_absent id s habs, editWith_absent _ id s habs, editWith_absent _ id s habs,
    editWith_absent _ id s habs, editWith_absent _ id s habs⟩

/-- Task 1 only; every call is made with the id 7. -/
theorem absent_id_noop_witness :
    (∀ u ∈ getAllTasks (run [.addTask "a" "" "2025-01-01" 3] TaskManager.new), u.id ≠ 7) ∧
    (deleteTask 7 (run [.addTask "a" "" "2025-01-01" 3] TaskManager.new) =
        run [.addTask "a" "" "2025-01-01" 3] TaskManager.new ∧
      updateTask 7 "c" "d" "2026-05-05" 42 (run [.addTask "a" "" "2025-01-01" 3] TaskManager.new) =
        run [.addTask "a" "" "2025-01-01" 3] TaskManager.new ∧
      markTaskCompleted 7 (run [.addTask "a" "" "2025-01-01" 3] TaskManager.new) =
        run [.addTask "a" "" "2025-01-01" 3] TaskManager.new ∧
      editTask 7 "e" "2027-01-01" (run [.addTask "a" "" "2025-01-01" 3] TaskManager.new) =
        run [.addTask "a" "" "2025-01-01" 3] TaskManager.new ∧
      updatePriority 7 9 (run [.addTask "a" "" "2025-01-01" 3] TaskManager.new) =
        run [.addTask "a" "" "2025-01-01" 3] TaskManager.new) :=
  ⟨by decide, absent_id_noop 7 "c" "d" "2026-05-05" "e" "2027-01-01" 42 9 _ (by decide)⟩

/-! ## What delete and the updates change -/

/-- C14: when some task has the id, `deleteTask(id)` removes the first task
with that id and nothing else: the tasks in front of it and behind it stay as
they are, in their order, and `nextId` is unchanged. -/
theorem deleteTask_effect (id : Int) (s : TaskManager)
    (hid : ∃ t ∈ getAllTasks s, t.id = id) :
    ∃ l1 t l2, getAllTasks s = l1 ++ t :: l2 ∧ (∀ u ∈ l1, u.id ≠ id) ∧ t.id = id ∧
      getAllTasks (deleteTask id s) = l1 ++ l2 ∧
      (getAllTasks (deleteTask id s)).length + 1 = (getAllTasks s).length ∧
      (deleteTask id s).nextId = s.nextId := by
  obtain ⟨l1, t, l2, hl, h1, ht⟩ := split_at_id id s.tasks hid
  refine ⟨l1, t, l2, hl, h1, ht, ?_, ?_, ?_⟩
  · rw [deleteTask_split id s l1 l2 t hl h1 ht]
    rfl
  · rw [deleteTask_split id s l1 l2 t hl h1 ht]
    simp only [getAllTasks, syncDataStructures_tasks, hl, List.length_append, List.length_cons]
    omega
  · rw [deleteTask_split id s l1 l2 t hl h1 ht]
    rfl

/-- Tasks 1, 2, 3: `deleteTask(2)`. -/
theorem deleteTask_effect_witness :
    (∃ t ∈ getAllTasks (run [.addTask "a" "" "2025-01-01" 3, .addTask "b" "" "2025-01-02" 4,
      .addTask "c" "" "2025-01-03" 5] TaskManager.new), t.id = 2) ∧
    ∃ l1 t l2,
      getAllTasks (run [.addTask "a" "" "2025-01-01" 3, .addTask "b" "" "2025-01-02" 4,
        .addTask "c" "" "2025-01-03" 5] TaskManager.new) = l1 ++ t :: l2 ∧
      (∀ u ∈ l1, u.id ≠ 2) ∧ t.id = 2 ∧
      getAllTasks (deleteTask 2 (run [.addTask "a" "" "2025-01-01" 3,
        .addTask "b" "" "2025-01-02" 4, .addTask "c" "" "2025-01-03" 5] TaskManager.new)) =
        l1 ++ l2 ∧
      (getAllTasks (deleteTask 2 (run [.addTask "a" "" "2025-01-01" 3,
        .addTask "b" "" "2025-01-02" 4, .addTask "c" "" "2025-01-03" 5]
        TaskManager.new))).length + 1 =
        (getAllTasks (run [.addTask "a" "" "2025-01-01" 3, .addTask "b" "" "2025-01-02" 4,
          .addTask "c" "" "2025-01-03" 5] TaskManager.new)).length ∧
      (deleteTask 2 (run [.addTask "a" "" "2025-01-01" 3, .addTask "b" "" "2025-01-02" 4,
        .addTask "c" "" "2025-01-03" 5] TaskManager.new)).nextId =
        (run [.addTask "a" "" "2025-01-01" 3, .addTask "b" "" "2025-01-02" 4,
          .addTask "c" "" "2025-01-03" 5] TaskManager.new).nextId :=
  ⟨⟨⟨2, "b", "", "2025-01-02", 4, false⟩, by decide, rfl⟩,
    deleteTask_effect 2 _ ⟨⟨2, "b", "", "2025-01-02", 4, false⟩, by decide, rfl⟩⟩

/-- C15: when some task has the id, `updateTask` writes the given title,
description, deadline and priority, whatever they are, into the first task
with that id, `editTask` writes the title and the deadline, `updatePriority`
the priority.  The task keeps its id, its completed flag, the fields not named
and its place; the tasks in front of it and behind it, and so the length of
the collection, are unchanged. -/
theorem update_frame (id : Int) (title desc deadline newTitle newDeadline : String)
    (priority newPriority : Int) (s : TaskManager)
    (hid : ∃ t ∈ getAllTasks s, t.id = id) :
    ∃ l1 t l2, getAllTasks s = l1 ++ t :: l2 ∧ (∀ u ∈ l1, u.id ≠ id) ∧ t.id = id ∧
      getAllTasks (updateTask id title desc deadline priority s) =
        l1 ++ ⟨t.id, title, desc, deadline, priority, t.completed⟩ :: l2 ∧
      getAllTasks (editTask id newTitle newDeadline s) =
        l1 ++ ⟨t.id, newTitle, t.description, newDeadline, t.priority, t.completed⟩ :: l2 ∧
      getAllTasks (updatePriority id newPriority s) =
        l1 ++ ⟨t.id, t.title, t.description, t.deadline, newPriority, t.completed⟩ :: l2 := by
  obtain ⟨l1, t, l2, hl, h1, ht⟩ := split_at_id id s.tasks hid
  refine ⟨l1, t, l2, hl, h1, ht, ?_, ?_, ?_⟩
  · rw [updateTask_eq_editWith, editWith_split _ id s l1 l2 t hl h1 ht]
    rfl
  · rw [editTask_eq_editWith, editWith_split _ id s l1 l2 t hl h1 ht]
    rfl
  · rw [updatePriority_eq_editWith, editWith_split _ id s l1 l2 t hl h1 ht]
    rfl

/-- Tasks 1 and 2; task 2 is updated, with an empty title and the priority 42
among the values. -/
theorem update_frame_witness :
    (∃ t ∈ getAllTasks (run [.addTask "a" "" "2025-01-01" 3, .addTask "b" "" "2025-01-02" 4]
      TaskManager.new), t.id = 2) ∧
    ∃ l1 t l2,
      getAllTasks (run [.addTask "a" "" "2025-01-01" 3, .addTask "b" "" "2025-01-02" 4]
        TaskManager.new) = l1 ++ t :: l2 ∧
      (∀ u ∈ l1, u.id ≠ 2) ∧ t.id = 2 ∧
      getAllTasks (updateTask 2 "" "d" "never" 42
        (run [.addTask "a" "" "2025-01-01" 3, .addTask "b" "" "2025-01-02" 4]
          TaskManager.new)) =
        l1 ++ ⟨t.id, "", "d", "never", 42, t.completed⟩ :: l2 ∧
      getAllTasks (editTask 2 "e" "2027-01-01"
        (run [.addTask "a" "" "2025-01-01" 3, .addTask "b" "" "2025-01-02" 4]
          TaskManager.new)) =
        l1 ++ ⟨t.id, "e", t.description, "2027-01-01", t.priority, t.completed⟩ :: l2 ∧
      getAllTasks (updatePriority 2 0
        (run [.addTask "a" "" "2025-01-01" 3, .addTask "b" "" "2025-01-02" 4]
          TaskManager.new)) =
        l1 ++ ⟨t.id, t.title, t.description, t.deadline, 0, t.completed⟩ :: l2 :=
  ⟨⟨⟨2, "b", "", "2025-01-02", 4, false⟩, by decide, rfl⟩,
    update_frame 2 "" "d" "never" "e" "2027-01-01" 42 0 _
      ⟨⟨2, "b", "", "2025-01-02", 4, false⟩, by decide, rfl⟩⟩

/-! ## The redo history under fresh calls -/

/-- C18: `addTask`, `deleteTask`, `updateTask`, `editTask`, `updatePriority`,
`markTaskCompleted` and `sortByDeadline` leave the redo history as it is, in
every store state and for all arguments. -/
theorem redo_history_frame (id : Int) (title desc deadline newTitle newDeadline : String)
    (priority newPriority : Int) (s : TaskManager) :
    (addTask title desc deadline priority s).2.redoActions = s.redoActions ∧
    (deleteTask id s).redoActions = s.redoActions ∧
    (updateTask id title desc deadline priority s).redoActions = s.redoActions ∧
    (editTask id newTitle newDeadline s).redoActions = s.redoActions ∧
    (updatePriority id newPriority s).redoActions = s.redoActions ∧
    (markTaskCompleted id s).redoActions = s.redoActions ∧
    (sortByDeadline s).redoActions = s.redoActions := by
  refine ⟨?_, ?_, ?_, ?_, ?_, ?_, rfl⟩
  · by_cases hv : title = "" ∨ priority < 1 ∨ priority > 10
    · rw [(addTask_err title desc deadline priority s hv).1]
    · have ht : title ≠ "" := by tauto
      have hp : ¬ (priority < 1 ∨ priority > 10) := by tauto
      rw [addTask_ok _ _ _ _ _ ht hp]
      rfl
  · unfold deleteTask; split <;> rfl
  · unfold updateTask; split <;> rfl
  · unfold editTask; split <;> rfl
  · unfold updatePriority; split <;> rfl
  · unfold markTaskCompleted; split <;> rfl

/-! ## Completing a task -/

theorem mem_insert (x task : Task) (h : MinHeap) (hx : x ∈ (h.insert task).heap) :
    x ∈ h.heap ∨ x = task := by
  by_cases hn : h.size ≥ MAX_SIZE
  · left
    simpa [MinHeap.insert, hn] using hx
  · have hp := insert_perm task h (by omega)
    have := hp.subset hx
    simpa using this

theorem mem_rebuild_fold (x : Task) (tasks : List Task) (init : MinHeap)
    (hx : x ∈ (tasks.foldl
      (fun h task => if !task.completed then h.insert task else h) init).heap) :
    x ∈ init.heap ∨ (x ∈ tasks ∧ x.completed = false) := by
  induction tasks generalizing init with
  | nil => exact Or.inl hx
  | cons t ts ih =>
    simp only [List.foldl_cons] at hx
    rcases ih _ hx with h1 | ⟨h1, h2⟩
    · cases hc : t.completed with
      | true =>
        simp only [hc, Bool.not_true, Bool.false_eq_true, if_false] at h1
        exact Or.inl h1
      | false =>
        simp only [hc, Bool.not_false, if_true] at h1
        rcases mem_insert x t init h1 with h3 | h3
        · exact Or.inl h3
        · subst h3
          exact Or.inr ⟨List.mem_cons_self _ _, hc⟩
    · exact Or.inr ⟨List.mem_cons_of_mem _ h1, h2⟩

/-- The heap `syncDataStructures` builds holds only pending tasks of the
collection. -/
theorem mem_rebuildHeap (x : Task) (tasks : List Task) (hx : x ∈ (rebuildHeap tasks).heap) :
    x ∈ tasks ∧ x.completed = false := by
  rcases mem_rebuild_fold x tasks MinHeap.empty hx with h | h
  · simp [MinHeap.empty] at h
  · exact h

/-- C16: when ids are unique and some task has the id, `markTaskCompleted(id)`
sets the completed flag of that task and changes no other field and no other
task; afterwards no task of `getPendingTasks` and no task of the heap has the
id, and the completed task is in `getCompletedTasks`. -/
theorem markTaskCompleted_effect (id : Int) (s : TaskManager)
    (hnd : ((getAllTasks s).map Task.id).Nodup)
    (hid : ∃ t ∈ getAllTasks s, t.id = id) :
    ∃ l1 t l2, getAllTasks s = l1 ++ t :: l2 ∧ t.id = id ∧
      getAllTasks (markTaskCompleted id s) =
        l1 ++ ⟨t.id, t.title, t.description, t.deadline, t.priority, true⟩ :: l2 ∧
      (∀ u ∈ getPendingTasks (markTaskCompleted id s), u.id ≠ id) ∧
      (∀ u ∈ (markTaskCompleted id s).heap.heap, u.id ≠ id) ∧
      (⟨t.id, t.title, t.description, t.deadline, t.priority, true⟩ : Task) ∈
        getCompletedTasks (markTaskCompleted id s) := by
  obtain ⟨l1, t, l2, hl, h1, ht⟩ := split_at_id id s.tasks hid
  have hnd2 : ((l1 ++ t :: l2).map Task.id).Nodup := by
    simp only [getAllTasks] at hnd
    rw [hl] at hnd
    exact hnd
  obtain ⟨_, hne⟩ := nodup_ids_split l1 l2 t hnd2
  have hres : markTaskCompleted id s =
      syncDataStructures { s with
        tasks := l1 ++ ⟨t.id, t.title, t.description, t.deadline, t.priority, true⟩ :: l2,
        undoActions := s.undoActions.push
          ⟨"edit", t, ⟨t.id, t.title, t.description, t.deadline, t.priority, true⟩⟩ } := by
    rw [markTaskCompleted_eq_editWith, editWith_split _ id s l1 l2 t hl h1 ht]
  have hpend : ∀ u ∈ l1 ++ ⟨t.id, t.title, t.description, t.deadline, t.priority, true⟩ :: l2,
      u.completed = false → u.id ≠ id := by
    intro u hu hc
    rcases List.mem_append.1 hu with h2 | h2
    · exact h1 u h2
    · rcases List.mem_cons.1 h2 with rfl | h3
      · simp at hc
      · rw [← ht]
        exact hne u (List.mem_append_right _ h3)
  refine ⟨l1, t, l2, hl, ht, by rw [hres]; rfl, ?_, ?_, ?_⟩
  · intro u hu
    rw [hres] at hu
    simp only [getPendingTasks, syncDataStructures_tasks, List.mem_filter,
      Bool.not_eq_true'] at hu
    exact hpend u hu.1 hu.2
  · intro u hu
    rw [hres, syncDataStructures_heap] at hu
    obtain ⟨h2, h3⟩ := mem_rebuildHeap u _ hu
    exact hpend u h2 h3
  · rw [hres]
    simp [getCompletedTasks]

/-- Example scenario 4 of the specification: task 1, pending with priority 3,
is completed. -/
theorem markTaskCompleted_effect_witness :
    ((getAllTasks (run [.addTask "a" "" "2025-01-01" 3, .addTask "b" "" "2025-01-02" 4]
      TaskManager.new)).map Task.id).Nodup ∧
    (∃ t ∈ getAllTasks (run [.addTask "a" "" "2025-01-01" 3, .addTask "b" "" "2025-01-02" 4]
      TaskManager.new), t.id = 1) ∧
    ∃ l1 t l2,
      getAllTasks (run [.addTask "a" "" "2025-01-01" 3, .addTask "b" "" "2025-01-02" 4]
        TaskManager.new) = l1 ++ t :: l2 ∧ t.id = 1 ∧
      getAllTasks (markTaskCompleted 1
        (run [.addTask "a" "" "2025-01-01" 3, .addTask "b" "" "2025-01-02" 4]
          TaskManager.new)) =
        l1 ++ ⟨t.id, t.title, t.description, t.deadline, t.priority, true⟩ :: l2 ∧
      (∀ u ∈ getPendingTasks (markTaskCompleted 1
        (run [.addTask "a" "" "2025-01-01" 3, .addTask "b" "" "2025-01-02" 4]
          TaskManager.new)), u.id ≠ 1) ∧
      (∀ u ∈ (markTaskCompleted 1
        (run [.addTask "a" "" "2025-01-01" 3, .addTask "b" "" "2025-01-02" 4]
          TaskManager.new)).heap.heap, u.id ≠ 1) ∧
      (⟨t.id, t.title, t.description, t.deadline, t.priority, true⟩ : Task) ∈
        getCompletedTasks (markTaskCompleted 1
          (run [.addTask "a" "" "2025-01-01" 3, .addTask "b" "" "2025-01-02" 4]
            TaskManager.new)) :=
  ⟨by decide, ⟨⟨1, "a", "", "2025-01-01", 3, false⟩, by decide, rfl⟩,
    markTaskCompleted_effect 1 _ (by decide)
      ⟨⟨1, "a", "", "2025-01-01", 3, false⟩, by decide, rfl⟩⟩

/-! ## The top of the undo history -/

set_option maxRecDepth 1000000 in
/-- C17 as stated fails: after 100 successful `addTask` calls the undo history
is full; the next `addTask` succeeds and returns 101, but its record is
dropped and the top of the undo history is still the add of task 100. -/
theorem undo_top_counterexample :
    (addTask "t" "" "2025-01-01" 5
      (run (List.replicate 100 (Call.addTask "t" "" "2025-01-01" 5)) TaskManager.new)).1 =
      .ok 101 ∧
    (addTask "t" "" "2025-01-01" 5
      (run (List.replicate 100 (Call.addTask "t" "" "2025-01-01" 5))
        TaskManager.new)).2.undoActions.items.head? =
      some ⟨"add", Task.default, ⟨100, "t", "", "2025-01-01", 5, false⟩⟩ ∧
    (addTask "t" "" "2025-01-01" 5
      (run (List.replicate 100 (Call.addTask "t" "" "2025-01-01" 5))
        TaskManager.new)).2.undoActions.items.head? ≠
      some ⟨"add", Task.default, ⟨101, "t", "", "2025-01-01", 5, false⟩⟩ := by
  refine ⟨?_, by decide, by decide⟩
  rw [addTask_ok _ _ _ _ _ (by decide) (by decide)]
  have hn : (run (List.replicate 100 (Call.addTask "t" "" "2025-01-01" 5))
      TaskManager.new).nextId = 101 := by decide
  simp only [hn]

/-- C17, as the code has it: when the undo history holds fewer than 100
entries, a successful `addTask`, `deleteTask`, `updateTask`, `editTask`,
`updatePriority` or `markTaskCompleted` puts its record on top of the undo
history, above the entries that were there.  The record of an add has the
default task as `before` and the new task as `after`; the record of a delete
has the removed task as `before` and the default task as `after`; the record
of an update is an edit with the task as it was as `before` and the task as it
is in the collection afterwards as `after`. -/
theorem undo_top_records (s : TaskManager)
    (hroom : s.undoActions.items.length < MAX_SIZE) :
    (∀ (title desc deadline : String) (priority : Int),
      title ≠ "" → 1 ≤ priority → priority ≤ 10 →
      (addTask title desc deadline priority s).2.undoActions.items =
        ⟨"add", Task.default, ⟨s.nextId, title, desc, deadline, priority, false⟩⟩ ::
          s.undoActions.items ∧
      getAllTasks (addTask title desc deadline priority s).2 =
        getAllTasks s ++ [⟨s.nextId, title, desc, deadline, priority, false⟩]) ∧
    (∀ (id : Int) (l1 : List Task) (t : Task) (l2 : List Task),
      getAllTasks s = l1 ++ t :: l2 → (∀ u ∈ l1, u.id ≠ id) → t.id = id →
      (deleteTask id s).undoActions.items =
        ⟨"delete", t, Task.default⟩ :: s.undoActions.items ∧
      (∀ (title desc deadline : String) (priority : Int),
        (updateTask id title desc deadline priority s).undoActions.items =
          ⟨"edit", t, ⟨t.id, title, desc, deadline, priority, t.completed⟩⟩ ::
            s.undoActions.items ∧
        getAllTasks (updateTask id title desc deadline priority s) =
          l1 ++ ⟨t.id, title, desc, deadline, priority, t.completed⟩ :: l2) ∧
      (∀ (newTitle newDeadline : String),
        (editTask id newTitle newDeadline s).undoActions.items =
          ⟨"edit", t, ⟨t.id, newTitle, t.description, newDeadline, t.priority, t.completed⟩⟩ ::
            s.undoActions.items ∧
        getAllTasks (editTask id newTitle newDeadline s) =
          l1 ++ ⟨t.id, newTitle, t.description, newDeadline, t.priority, t.completed⟩ :: l2) ∧
      (∀ (newPriority : Int),
        (updatePriority id newPriority s).undoActions.items =
          ⟨"edit", t, ⟨t.id, t.title, t.description, t.deadline, newPriority, t.completed⟩⟩ ::
            s.undoActions.items ∧
        getAllTasks (updatePriority id newPriority s) =
          l1 ++ ⟨t.id, t.title, t.description, t.deadline, newPriority, t.completed⟩ :: l2) ∧
      (markTaskCompleted id s).undoActions.items =
        ⟨"edit", t, ⟨t.id, t.title, t.description, t.deadline, t.priority, true⟩⟩ ::
          s.undoActions.items ∧
      getAllTasks (markTaskCompleted id s) =
        l1 ++ ⟨t.id, t.title, t.description, t.deadline, t.priority, true⟩ :: l2) := by
  constructor
  · intro title desc deadline priority ht hlo hhi
    have hp : ¬ (priority < 1 ∨ priority > 10) := by omega
    rw [addTask_ok _ _ _ _ _ ht hp]
    exact ⟨push_items_of_lt _ _ hroom, rfl⟩
  · intro id l1 t l2 hl h1 ht
    refine ⟨?_, ?_, ?_, ?_, ?_, ?_⟩
    · rw [deleteTask_split id s l1 l2 t hl h1 ht]
      exact push_items_of_lt _ _ hroom
    · intro title desc deadline priority
      rw [updateTask_eq_editWith, editWith_split _ id s l1 l2 t hl h1 ht]
      exact ⟨push_items_of_lt _ _ hroom, rfl⟩
    · intro newTitle newDeadline
      rw [editTask_eq_editWith, editWith_split _ id s l1 l2 t hl h1 ht]
      exact ⟨push_items_of_lt _ _ hroom, rfl⟩
    · intro newPriority
      rw [updatePriority_eq_editWith, editWith_split _ id s l1 l2 t hl h1 ht]
      exact ⟨push_items_of_lt _ _ hroom, rfl⟩
    · rw [markTaskCompleted_eq_editWith, editWith_split _ id s l1 l2 t hl h1 ht]
      exact push_items_of_lt _ _ hroom
    · rw [markTaskCompleted_eq_editWith, editWith_split _ id s l1 l2 t hl h1 ht]
      rfl

/-- Task 1 is added to a fresh store and then deleted: the delete is on top
of the undo history, above the add. -/
theorem undo_top_records_witness :
    (run [.addTask "a" "" "2025-01-01" 3] TaskManager.new).undoActions.items.length
      < MAX_SIZE ∧
    (deleteTask 1 (run [.addTask "a" "" "2025-01-01" 3] TaskManager.new)).undoActions.items =
      ⟨"delete", ⟨1, "a", "", "2025-01-01", 3, false⟩, Task.default⟩ ::
        (run [.addTask "a" "" "2025-01-01" 3] TaskManager.new).undoActions.items :=
  ⟨by decide,
    ((undo_top_records (run [.addTask "a" "" "2025-01-01" 3] TaskManager.new)
      (by decide)).2 1 [] ⟨1, "a", "", "2025-01-01", 3, false⟩ [] (by decide)
      (by simp) rfl).1⟩

/-! ## Titles and priorities of the tasks in the collection -/

theorem mem_undoTasks_typed (a : UndoAction) (l : List Task) (t : Task)
    (h : t ∈ undoTasks a l) :
    t ∈ l ∨ (t = a.before ∧ (a.type = "edit" ∨ a.type = "delete")) := by
  unfold undoTasks at h
  split at h
  · split at h
    · exact Or.inl (List.mem_of_mem_eraseIdx h)
    · exact Or.inl h
  · split at h
    · rename_i hty
      split at h
      · rcases List.mem_or_eq_of_mem_set h with h1 | h1
        · exact Or.inl h1
        · exact Or.inr ⟨h1, Or.inl hty⟩
      · exact Or.inl h
    · split at h
      · rename_i hty
        rcases List.mem_append.1 h with h1 | h1
        · exact Or.inl h1
        · exact Or.inr ⟨by simpa using h1, Or.inr hty⟩
      · exact Or.inl h

theorem mem_redoTasks_typed (a : UndoAction) (l : List Task) (t : Task)
    (h : t ∈ redoTasks a l) :
    t ∈ l ∨ (t = a.after ∧ (a.type = "add" ∨ a.type = "edit")) := by
  unfold redoTasks at h
  split at h
  · rename_i hty
    rcases List.mem_append.1 h with h1 | h1
    · exact Or.inl h1
    · exact Or.inr ⟨by simpa using h1, Or.inl hty⟩
  · split at h
    · rename_i hty
      split at h
      · rcases List.mem_or_eq_of_mem_set h with h1 | h1
        · exact Or.inl h1
        · exact Or.inr ⟨h1, Or.inr hty⟩
      · exact Or.inl h
    · split at h
      · split at h
        · exact Or.inl (List.mem_of_mem_eraseIdx h)
        · exact Or.inl h
      · exact Or.inl h

theorem allValid_new : AllValid TaskManager.new := by
  refine ⟨?_, ?_, ?_⟩ <;> intro x hx <;> simp [TaskManager.new, Stack.empty] at hx

theorem allValid_push (x : UndoAction) (st : Stack) (hx : SnapshotsValid x)
    (h : ∀ a ∈ st.items, SnapshotsValid a) : ∀ a ∈ (st.push x).items, SnapshotsValid a := by
  intro a ha
  rcases mem_push _ _ _ ha with rfl | h1
  · exact hx
  · exact h a h1

theorem allValid_editWith (f : Task → Task) (hf : ∀ t, t.valid → (f t).valid) (id : Int)
    (s : TaskManager) (h : AllValid s) : AllValid (editWith f id s) := by
  by_cases hid : ∃ t ∈ s.tasks, t.id = id
  · obtain ⟨l1, t, l2, hl, h1, ht⟩ := split_at_id id s.tasks hid
    rw [editWith_split f id s l1 l2 t hl h1 ht]
    obtain ⟨htasks, hU, hR⟩ := h
    have htv : t.valid := htasks t (by rw [hl]; simp)
    refine ⟨?_, ?_, hR⟩
    · intro u hu
      simp only [syncDataStructures_tasks] at hu
      rcases List.mem_append.1 hu with h2 | h2
      · exact htasks u (by rw [hl]; exact List.mem_append_left _ h2)
      · rcases List.mem_cons.1 h2 with rfl | h3
        · exact hf t htv
        · exact htasks u (by rw [hl]; exact List.mem_append_right _ (List.mem_cons_of_mem _ h3))
    · apply allValid_push _ _ _ hU
      exact ⟨fun hty => by simp at hty, fun _ => ⟨htv, hf t htv⟩, fun hty => by simp at hty⟩
  · rw [editWith_absent f id s (fun u hu hi => hid ⟨u, hu, hi⟩)]
    exact h

theorem allValid_replayStep (s s2 : TaskManager) (h : AllValid s) (hs : ReplayStep s s2) :
    AllValid s2 := by
  obtain ⟨htasks, hU, hR⟩ := h
  cases hs with
  | noop => exact ⟨htasks, hU, hR⟩
  | sort _ hp hn hu hr =>
    exact ⟨fun t ht => htasks t (hp.subset ht), by rw [hu]; exact hU, by rw [hr]; exact hR⟩
  | undo a rest _ hl ht hn hu hr =>
    have ha : SnapshotsValid a := hU a (by rw [hl]; simp)
    refine ⟨?_, ?_, ?_⟩
    · intro t htm
      rw [ht] at htm
      rcases mem_undoTasks_typed _ _ _ htm with h1 | ⟨rfl, hty | hty⟩
      · exact htasks t h1
      · exact (ha.2.1 hty).1
      · exact ha.2.2 hty
    · intro b hb
      rw [hu] at hb
      exact hU b (by rw [hl]; exact List.mem_cons_of_mem _ hb)
    · rw [hr]
      exact allValid_push _ _ ha hR
  | redo a rest _ hl ht hn hr hu =>
    have ha : SnapshotsValid a := hR a (by rw [hl]; simp)
    refine ⟨?_, ?_, ?_⟩
    · intro t htm
      rw [ht] at htm
      rcases mem_redoTasks_typed _ _ _ htm with h1 | ⟨rfl, hty | hty⟩
      · exact htasks t h1
      · exact ha.1 hty
      · exact (ha.2.1 hty).2
    · rw [hu]
      exact allValid_push _ _ ha hU
    · intro b hb
      rw [hr] at hb
      exact hR b (by rw [hl]; exact List.mem_cons_of_mem _ hb)

theorem allValid_apply (c : Call) (s : TaskManager) (hc : c.validArgs = true)
    (h : AllValid s) : AllValid (c.apply s) := by
  cases c with
  | addTask title desc deadline priority =>
    by_cases hv : title = "" ∨ priority < 1 ∨ priority > 10
    · simp only [Call.apply, (addTask_err title desc deadline priority s hv).1]
      exact h
    · have ht : title ≠ "" := by tauto
      have hp : ¬ (priority < 1 ∨ priority > 10) := by tauto
      have hnew : (Task.new s.nextId title desc deadline priority).valid :=
        ⟨ht, by simp only [Task.new]; omega, by simp only [Task.new]; omega⟩
      simp only [Call.apply, addTask_ok _ _ _ _ _ ht hp]
      obtain ⟨htasks, hU, hR⟩ := h
      refine ⟨?_, ?_, hR⟩
      · intro u hu
        simp only [syncDataStructures_tasks] at hu
        rcases List.mem_append.1 hu with h2 | h2
        · exact htasks u h2
        · have : u = Task.new s.nextId title desc deadline priority := by simpa using h2
          rw [this]
          exact hnew
      · apply allValid_push _ _ _ hU
        exact ⟨fun _ => hnew, fun hty => by simp at hty, fun hty => by simp at hty⟩
  | deleteTask id =>
    simp only [Call.apply]
    by_cases hid : ∃ t ∈ s.tasks, t.id = id
    · obtain ⟨l1, t, l2, hl, h1, ht⟩ := split_at_id id s.tasks hid
      rw [deleteTask_split id s l1 l2 t hl h1 ht]
      obtain ⟨htasks, hU, hR⟩ := h
      have htv : t.valid := htasks t (by rw [hl]; simp)
      refine ⟨?_, ?_, hR⟩
      · intro u hu
        simp only [syncDataStructures_tasks] at hu
        apply htasks u
        rw [hl]
        rcases List.mem_append.1 hu with h2 | h2
        · exact List.mem_append_left _ h2
        · exact List.mem_append_right _ (List.mem_cons_of_mem _ h2)
      · apply allValid_push _ _ _ hU
        exact ⟨fun hty => by simp at hty, fun hty => by simp at hty, fun _ => htv⟩
    · rw [deleteTask_absent id s (fun u hu hi => hid ⟨u, hu, hi⟩)]
      exact h
  | updateTask id title desc deadline priority =>
    simp only [Call.validArgs, decide_eq_true_eq] at hc
    simp only [Call.apply, updateTask_eq_editWith]
    apply allValid_editWith _ _ id s h
    intro t _
    exact hc
  | markTaskCompleted id =>
    simp only [Call.apply, markTaskCompleted_eq_editWith]
    apply allValid_editWith _ _ id s h
    intro t htv
    exact htv
  | editTask id newTitle newDeadline =>
    simp only [Call.validArgs, decide_eq_true_eq] at hc
    simp only [Call.apply, editTask_eq_editWith]
    apply allValid_editWith _ _ id s h
    intro t htv
    exact ⟨hc, htv.2⟩
  | updatePriority id newPriority =>
    simp only [Call.validArgs, decide_eq_true_eq] at hc
    simp only [Call.apply, updatePriority_eq_editWith]
    apply allValid_editWith _ _ id s h
    intro t htv
    exact ⟨htv.1, hc⟩
  | sortByDeadline => exact allValid_replayStep s _ h (replayStep_apply _ s rfl)
  | undo => exact allValid_replayStep s _ h (replayStep_apply _ s rfl)
  | redo => exact allValid_replayStep s _ h (replayStep_apply _ s rfl)

theorem allValid_run (cs : List Call) (s : TaskManager)
    (hcs : cs.all Call.validArgs = true) (h : AllValid s) : AllValid (run cs s) := by
  induction cs generalizing s with
  | nil => exact h
  | cons c cs ih =>
    simp only [List.all_cons, Bool.and_eq_true] at hcs
    exact ih _ hcs.2 (allValid_apply c s hcs.1 h)

/-- C19 as stated fails: the update methods write their arguments into the
task without checking them.  After `addTask("a", "", "2025-01-01", 3)` and
`updateTask(1, "", "", "2025-01-01", 42)` the only task of the collection has
an empty title and the priority 42.  In the same way `editTask(1, "", ...)`
leaves an empty title and `updatePriority(1, 0)` the priority 0. -/
theorem tasks_valid_counterexample :
    (¬ ∀ t ∈ getAllTasks (run [.addTask "a" "" "2025-01-01" 3,
        .updateTask 1 "" "" "2025-01-01" 42] TaskManager.new),
      t.title ≠ "" ∧ 1 ≤ t.priority ∧ t.priority ≤ 10) ∧
    (¬ ∀ t ∈ getAllTasks (run [.addTask "a" "" "2025-01-01" 3,
        .editTask 1 "" "2025-01-01"] TaskManager.new),
      t.title ≠ "" ∧ 1 ≤ t.priority ∧ t.priority ≤ 10) ∧
    (¬ ∀ t ∈ getAllTasks (run [.addTask "a" "" "2025-01-01" 3,
        .updatePriority 1 0] TaskManager.new),
      t.title ≠ "" ∧ 1 ≤ t.priority ∧ t.priority ≤ 10) := by
  decide

/-- C19, as the code has it: in every state reached from a fresh store by a
sequence of public calls in which every `updateTask` is given a non-empty
title and a priority from 1 to 10, every `editTask` a non-empty title and
every `updatePriority` a priority from 1 to 10, every task of the collection
has a non-empty title and a priority from 1 to 10.  `addTask` checks its
arguments itself, and `undo` and `redo` only bring back snapshots of tasks
that were in the collection. -/
theorem tasks_valid (cs : List Call) (hcs : cs.all Call.validArgs = true) :
    ∀ t ∈ getAllTasks (run cs TaskManager.new),
      t.title ≠ "" ∧ 1 ≤ t.priority ∧ t.priority ≤ 10 :=
  (allValid_run cs TaskManager.new hcs allValid_new).1

/-- A failing add, valid updates, a delete, undos and a redo. -/
theorem tasks_valid_witness :
    [Call.addTask "a" "" "2025-01-01" 3, .addTask "" "" "2025-01-01" 30,
      .updateTask 1 "b" "" "2025-01-02" 10, .editTask 1 "c" "soon", .updatePriority 1 1,
      .markTaskCompleted 1, .deleteTask 1, .undo, .undo, .redo].all Call.validArgs = true ∧
    ∀ t ∈ getAllTasks (run [.addTask "a" "" "2025-01-01" 3, .addTask "" "" "2025-01-01" 30,
      .updateTask 1 "b" "" "2025-01-02" 10, .editTask 1 "c" "soon", .updatePriority 1 1,
      .markTaskCompleted 1, .deleteTask 1, .undo, .undo, .redo] TaskManager.new),
      t.title ≠ "" ∧ 1 ≤ t.priority ∧ t.priority ≤ 10 :=
  ⟨by decide, tasks_valid _ (by decide)⟩

/-! ## Tasks by priority -/

theorem sortTasksByPriority_perm (l : List Task) : List.Perm (sortTasksByPriority l) l :=
  std_sort_perm priorityLess l

theorem priorityLess_asymm (a b : Task) (h : priorityLess a b = true) :
    priorityLess b a = false := by
  simp only [priorityLess, decide_eq_true_eq, decide_eq_false_iff_not] at h ⊢
  omega

theorem priorityLess_negTrans (a b c : Task) (h : priorityLess a c = true) :
    priorityLess a b = true ∨ priorityLess b c = true := by
  simp only [priorityLess, decide_eq_true_eq] at h ⊢
  omega

theorem sortTasksByPriority_sorted (l : List Task) :
    (sortTasksByPriority l).Pairwise (fun a b => a.priority ≤ b.priority) := by
  refine (std_sort_sorted priorityLess priorityLess_asymm priorityLess_negTrans l).imp ?_
  intro a b h
  simp only [priorityLess, decide_eq_false_iff_not] at h
  omega

/-- C20: `getTasksByPriority` returns a rearrangement of the whole collection,
pending and completed tasks alike, in which the priority of a task is at most
the priority of every task behind it. -/
theorem getTasksByPriority_sorted (s : TaskManager) :
    List.Perm (getTasksByPriority s) (getAllTasks s) ∧
    (getTasksByPriority s).Pairwise (fun a b => a.priority ≤ b.priority) :=
  ⟨sortTasksByPriority_perm s.tasks, sortTasksByPriority_sorted s.tasks⟩

/-- Example scenario 2 of the specification: task 1 with priority 5, task 2
with priority 1; by priority the order is task 2, task 1. -/
theorem getTasksByPriority_sorted_witness :
    getTasksByPriority (run [.addTask "first" "" "2025-01-01" 5,
      .addTask "second" "" "2025-01-02" 1] TaskManager.new) =
      [⟨2, "second", "", "2025-01-02", 1, false⟩, ⟨1, "first", "", "2025-01-01", 5, false⟩] ∧
    List.Perm
      (getTasksByPriority (run [.addTask "first" "" "2025-01-01" 5,
        .addTask "second" "" "2025-01-02" 1] TaskManager.new))
      (getAllTasks (run [.addTask "first" "" "2025-01-01" 5,
        .addTask "second" "" "2025-01-02" 1] TaskManager.new)) ∧
    (getTasksByPriority (run [.addTask "first" "" "2025-01-01" 5,
      .addTask "second" "" "2025-01-02" 1] TaskManager.new)).Pairwise
      (fun a b => a.priority ≤ b.priority) :=
  ⟨by decide, getTasksByPriority_sorted _⟩

/-! ## Equal priorities -/

/-- C21, counterexample: seventeen tasks of priority 5, added in the order of
their ids 1 to 17.  `getTasksByPriority` returns them in another order: task 9
comes first, and task 17 comes before task 10. -/
theorem getTasksByPriority_stable_counterexample :
    (getAllTasks (run (List.replicate 17 (.addTask "t" "" "2025-01-01" 5))
      TaskManager.new)).map (fun t => (t.id, t.priority)) =
      [(1, 5), (2, 5), (3, 5), (4, 5), (5, 5), (6, 5), (7, 5), (8, 5), (9, 5), (10, 5),
        (11, 5), (12, 5), (13, 5), (14, 5), (15, 5), (16, 5), (17, 5)] ∧
    (getTasksByPriority (run (List.replicate 17 (.addTask "t" "" "2025-01-01" 5))
      TaskManager.new)).map (fun t => (t.id, t.priority)) =
      [(9, 5), (17, 5), (16, 5), (15, 5), (14, 5), (13, 5), (12, 5), (11, 5), (10, 5),
        (1, 5), (8, 5), (7, 5), (6, 5), (5, 5), (4, 5), (3, 5), (2, 5)] := by
  decide

/-- C21, amended: among at most 16 tasks `getTasksByPriority` keeps the tasks
of equal priority in the order of the collection; whatever the number of
tasks, the tasks of a given priority in the result are those of the
collection, in some order. -/
theorem getTasksByPriority_stable (s : TaskManager) (p : Int) :
    List.Perm ((getTasksByPriority s).filter (fun t => t.priority == p))
      ((getAllTasks s).filter (fun t => t.priority == p)) ∧
    ((getAllTasks s).length ≤ 16 →
      (getTasksByPriority s).filter (fun t => t.priority == p) =
        (getAllTasks s).filter (fun t => t.priority == p)) := by
  refine ⟨(sortTasksByPriority_perm s.tasks).filter _, ?_⟩
  intro hlen
  refine std_sort_stable priorityLess priorityLess_asymm priorityLess_negTrans _ ?_ s.tasks hlen
  intro a b ha hb
  simp only [beq_iff_eq] at ha hb
  simp only [priorityLess, decide_eq_false_iff_not]
  omega

/-- Three tasks, the first and the third of priority 5: by priority the second
comes first, and the first still comes before the third. -/
theorem getTasksByPriority_stable_witness :
    (getAllTasks (run [.addTask "a" "" "2025-01-01" 5, .addTask "b" "" "2025-01-02" 1,
      .addTask "c" "" "2025-01-03" 5] TaskManager.new)).length ≤ 16 ∧
    (getTasksByPriority (run [.addTask "a" "" "2025-01-01" 5, .addTask "b" "" "2025-01-02" 1,
      .addTask "c" "" "2025-01-03" 5] TaskManager.new)).map (fun t => t.id) = [2, 1, 3] ∧
    (getTasksByPriority (run [.addTask "a" "" "2025-01-01" 5, .addTask "b" "" "2025-01-02" 1,
      .addTask "c" "" "2025-01-03" 5] TaskManager.new)).filter (fun t => t.priority == 5) =
      (getAllTasks (run [.addTask "a" "" "2025-01-01" 5, .addTask "b" "" "2025-01-02" 1,
        .addTask "c" "" "2025-01-03" 5] TaskManager.new)).filter (fun t => t.priority == 5) :=
  ⟨by decide, by decide, (getTasksByPriority_stable _ 5).2 (by decide)⟩

/-! ## Sorting by deadline -/

theorem isLessThan_asymm (a b : Date) (h : a.isLessThan b = true) : b.isLessThan a = false := by
  unfold Date.isLessThan at h ⊢
  split_ifs at h ⊢ <;> simp only [decide_eq_true_eq, decide_eq_false_iff_not] at h ⊢ <;> omega

theorem isLessThan_negTrans (a b c : Date) (h : a.isLessThan c = true) :
    a.isLessThan b = true ∨ b.isLessThan c = true := by
  unfold Date.isLessThan at h ⊢
  split_ifs at h ⊢ <;> simp only [decide_eq_true_eq] at h ⊢ <;> omega

theorem deadlineLess_asymm (a b : Task) (h : deadlineLess a b = true) :
    deadlineLess b a = false :=
  isLessThan_asymm _ _ h

theorem deadlineLess_negTrans (a b c : Task) (h : deadlineLess a c = true) :
    deadlineLess a b = true ∨ deadlineLess b c = true :=
  isLessThan_negTrans _ _ _ h

/-- C23: on a store whose deadlines are of the shape `YYYY-MM-DD`, the strings
on which `sscanf` assigns the three fields of a `Date`, `sortByDeadline`
rearranges the collection so that no task has a deadline earlier, under
`isLessThan` on the parsed dates, than a task placed before it. -/
theorem sortByDeadline_sorted (s : TaskManager)
    (_hwf : ∀ t ∈ s.tasks, Date.wellFormed t.deadline = true) :
    List.Perm (sortByDeadline s).tasks s.tasks ∧
    (sortByDeadline s).tasks.Pairwise
      (fun a b => (Date.parse b.deadline).isLessThan (Date.parse a.deadline) = false) :=
  ⟨sortTasksByDeadline_perm s.tasks,
    std_sort_sorted deadlineLess deadlineLess_asymm deadlineLess_negTrans s.tasks⟩

/-- Three tasks with the deadlines 2025-03-01, 2025-01-15 and 2025-02-10 come
out in the order 2, 3, 1. -/
theorem sortByDeadline_sorted_witness :
    (∀ t ∈ (run [.addTask "a" "" "2025-03-01" 1, .addTask "b" "" "2025-01-15" 2,
      .addTask "c" "" "2025-02-10" 3] TaskManager.new).tasks,
      Date.wellFormed t.deadline = true) ∧
    (sortByDeadline (run [.addTask "a" "" "2025-03-01" 1, .addTask "b" "" "2025-01-15" 2,
      .addTask "c" "" "2025-02-10" 3] TaskManager.new)).tasks =
      [⟨2, "b", "", "2025-01-15", 2, false⟩, ⟨3, "c", "", "2025-02-10", 3, false⟩,
        ⟨1, "a", "", "2025-03-01", 1, false⟩] ∧
    (sortByDeadline (run [.addTask "a" "" "2025-03-01" 1, .addTask "b" "" "2025-01-15" 2,
      .addTask "c" "" "2025-02-10" 3] TaskManager.new)).tasks.Pairwise
      (fun a b => (Date.parse b.deadline).isLessThan (Date.parse a.deadline) = false) :=
  ⟨by decide, by decide, (sortByDeadline_sorted _ (by decide)).2⟩

/-! ## The history stack -/

/-- C28: on a history stack with fewer than 100 entries, `push(a)` followed by
`pop()` returns `a` and leaves the stack with the entries it had before the
push, in the same order. -/
theorem push_pop (s : Stack) (a : UndoAction) (hroom : s.items.length < MAX_SIZE) :
    (s.push a).pop.1 = a ∧ (s.push a).pop.2 = s ∧
    (s.push a).items = a :: s.items := by
  have hp := push_items_of_lt a s hroom
  refine ⟨?_, ?_, hp⟩
  · simp [Stack.pop, hp]
  · simp [Stack.pop, hp]

/-- A push on the empty stack, then a pop. -/
theorem push_pop_witness :
    Stack.empty.items.length < MAX_SIZE ∧
    ((Stack.empty.push ⟨"add", Task.default, ⟨1, "a", "", "2025-01-01", 3, false⟩⟩).pop.1 =
        ⟨"add", Task.default, ⟨1, "a", "", "2025-01-01", 3, false⟩⟩ ∧
      (Stack.empty.push ⟨"add", Task.default, ⟨1, "a", "", "2025-01-01", 3, false⟩⟩).pop.2 =
        Stack.empty ∧
      (Stack.empty.push ⟨"add", Task.default, ⟨1, "a", "", "2025-01-01", 3, false⟩⟩).items =
        ⟨"add", Task.default, ⟨1, "a", "", "2025-01-01", 3, false⟩⟩ :: Stack.empty.items) :=
  ⟨by decide, push_pop Stack.empty _ (by decide)⟩

theorem pop_length_le (s : Stack) : s.pop.2.items.length ≤ s.items.length := by
  unfold Stack.pop
  split
  · exact Nat.le_refl _
  · rename_i a rest h
    simp [h]

theorem push_length_le (a : UndoAction) (s : Stack) (h : s.items.length ≤ MAX_SIZE) :
    (s.push a).items.length ≤ MAX_SIZE := by
  rcases push_cases a s h with ⟨hp, hlt⟩ | hsame
  · rw [hp]
    simp only [List.length_cons]
    omega
  · rw [hsame]
    exact h

theorem runStack_length_le (ops : List StackOp) (s : Stack) (h : s.items.length ≤ MAX_SIZE) :
    (runStack ops s).items.length ≤ MAX_SIZE := by
  induction ops generalizing s with
  | nil => exact h
  | cons op ops ih =>
    apply ih
    cases op with
    | push a => exact push_length_le a s h
    | pop => exact Nat.le_trans (pop_length_le s) h

/-- C29: a history stack with 100 entries drops the action given to `push`:
the stack after the call is the stack before it, entries and top.  So a stack
that starts empty, or with at most 100 entries, holds at most 100 entries
after any sequence of pushes and pops. -/
theorem push_full (s : Stack) (a : UndoAction) (ops : List StackOp) :
    (s.items.length = MAX_SIZE → s.push a = s ∧ (s.push a).pop = s.pop) ∧
    (runStack ops Stack.empty).items.length ≤ MAX_SIZE ∧
    (s.items.length ≤ MAX_SIZE → (runStack ops s).items.length ≤ MAX_SIZE) := by
  refine ⟨?_, ?_, ?_⟩
  · intro h
    have := push_items_of_full a s h
    exact ⟨this, by rw [this]⟩
  · exact runStack_length_le ops Stack.empty (by simp [Stack.empty])
  · exact runStack_length_le ops s

/-- A stack of 100 entries; one more push. -/
theorem push_full_witness :
    (Stack.mk (List.replicate 100 UndoAction.default)).items.length = MAX_SIZE ∧
    (Stack.mk (List.replicate 100 UndoAction.default)).push
        ⟨"add", Task.default, ⟨1, "a", "", "2025-01-01", 3, false⟩⟩ =
      Stack.mk (List.replicate 100 UndoAction.default) :=
  ⟨by decide,
    ((push_full (Stack.mk (List.replicate 100 UndoAction.default))
      ⟨"add", Task.default, ⟨1, "a", "", "2025-01-01", 3, false⟩⟩ []).1 (by decide)).1⟩

/-- C30: `pop()` on an empty history stack returns the default `UndoAction`
(empty type, default task as `before` and as `after`) and leaves the stack
empty. -/
theorem pop_empty (s : Stack) (h : s.isEmpty = true) :
    s.pop.1 = ⟨"", ⟨0, "", "", "", 1, false⟩, ⟨0, "", "", "", 1, false⟩⟩ ∧
    s.pop.2 = s ∧ s.pop.2.isEmpty = true := by
  have hnil : s.items = [] := by
    simp only [Stack.isEmpty, beq_iff_eq] at h
    exact List.length_eq_zero.1 h
  simp [Stack.pop, hnil, h, UndoAction.default, Task.default]

/-- The stack of a fresh store. -/
theorem pop_empty_witness :
    Stack.empty.isEmpty = true ∧
    (Stack.empty.pop.1 = ⟨"", ⟨0, "", "", "", 1, false⟩, ⟨0, "", "", "", 1, false⟩⟩ ∧
      Stack.empty.pop.2 = Stack.empty ∧ Stack.empty.pop.2.isEmpty = true) :=
  ⟨by decide, pop_empty Stack.empty (by decide)⟩

/-! ## Extracting from an empty heap -/

/-- C27: `extractMin` on an empty heap returns the default task (id 0, empty
title, description and deadline, priority 1, not completed) and leaves the
heap empty. -/
theorem extractMin_empty (h : MinHeap) (hempty : h.isEmpty = true) :
    h.extractMin.1 = ⟨0, "", "", "", 1, false⟩ ∧ h.extractMin.2 = h ∧
    h.extractMin.2.isEmpty = true := by
  have hz : h.size = 0 := by simpa [MinHeap.isEmpty] using hempty
  simp [MinHeap.extractMin, hz, hempty, Task.default]

/-- The heap of a fresh store. -/
theorem extractMin_empty_witness :
    MinHeap.empty.isEmpty = true ∧
    (MinHeap.empty.extractMin.1 = ⟨0, "", "", "", 1, false⟩ ∧
      MinHeap.empty.extractMin.2 = MinHeap.empty ∧
      MinHeap.empty.extractMin.2.isEmpty = true) :=
  ⟨by decide, extractMin_empty MinHeap.empty (by decide)⟩

/-! ## Searching -/

theorem findFrom_isSome_iff (q s : List Char) (i : Nat) :
    (findFrom q s i).isSome = true ↔ q <:+: s := by
  induction s generalizing i with
  | nil =>
    unfold findFrom
    cases q with
    | nil => simp
    | cons c cs => simp [List.isPrefixOf]
  | cons c cs ih =>
    unfold findFrom
    rw [List.infix_cons_iff]
    by_cases hp : q.isPrefixOf (c :: cs) = true
    · simp only [hp, if_true, Option.isSome_some, true_iff]
      exact Or.inl (List.isPrefixOf_iff_prefix.1 hp)
    · simp only [hp, if_false, Bool.false_eq_true]
      rw [ih]
      constructor
      · exact Or.inr
      · rintro (h | h)
        · exact absurd (List.isPrefixOf_iff_prefix.2 h) hp
        · exact h

theorem stringFind_isSome_iff (s q : String) :
    (stringFind s q).isSome = true ↔ q.toList <:+: s.toList :=
  findFrom_isSome_iff q.toList s.toList 0

/-- C22: `searchTasks(q)` returns the tasks of the collection, in collection
order, whose title or description has `q` as a run of consecutive characters
(compared as they are, so case matters); a task is in the result exactly when
it is in the collection and matches, and the empty query returns the whole
collection. -/
theorem searchTasks_spec (q : String) (s : TaskManager) :
    searchTasks q s =
      (getAllTasks s).filter (fun t =>
        decide (q.toList <:+: t.title.toList ∨ q.toList <:+: t.description.toList)) ∧
    (∀ t, t ∈ searchTasks q s ↔
      t ∈ getAllTasks s ∧
        (q.toList <:+: t.title.toList ∨ q.toList <:+: t.description.toList)) ∧
    List.Sublist (searchTasks q s) (getAllTasks s) ∧
    searchTasks "" s = getAllTasks s := by
  have heq : searchTasks q s =
      (getAllTasks s).filter (fun t =>
        decide (q.toList <:+: t.title.toList ∨ q.toList <:+: t.description.toList)) := by
    unfold searchTasks getAllTasks
    apply List.filter_congr
    intro t _
    rw [Bool.eq_iff_iff]
    simp only [Bool.or_eq_true, stringFind_isSome_iff, decide_eq_true_eq]
  refine ⟨heq, ?_, ?_, ?_⟩
  · intro t
    rw [heq]
    simp only [List.mem_filter, decide_eq_true_eq]
  · rw [heq]
    exact List.filter_sublist _
  · unfold searchTasks getAllTasks
    apply List.filter_eq_self.2
    intro t _
    have : (stringFind t.title "").isSome = true :=
      (stringFind_isSome_iff t.title "").2 (by simp)
    simp [this]

/-- Three tasks; the query `port` matches the title `Write report` and the
description `airport run`, and `Port` matches nothing. -/
theorem searchTasks_spec_witness :
    searchTasks "port" (run [.addTask "Write report" "" "2025-03-01" 2,
        .addTask "Shopping" "milk" "2025-03-02" 5,
        .addTask "Drive" "airport run" "2025-03-03" 7] TaskManager.new) =
      [⟨1, "Write report", "", "2025-03-01", 2, false⟩,
       ⟨3, "Drive", "airport run", "2025-03-03", 7, false⟩] ∧
    searchTasks "Port" (run [.addTask "Write report" "" "2025-03-01" 2,
        .addTask "Shopping" "milk" "2025-03-02" 5,
        .addTask "Drive" "airport run" "2025-03-03" 7] TaskManager.new) = [] ∧
    searchTasks "" (run [.addTask "Write report" "" "2025-03-01" 2,
        .addTask "Shopping" "milk" "2025-03-02" 5,
        .addTask "Drive" "airport run" "2025-03-03" 7] TaskManager.new) =
      getAllTasks (run [.addTask "Write report" "" "2025-03-01" 2,
        .addTask "Shopping" "milk" "2025-03-02" 5,
        .addTask "Drive" "airport run" "2025-03-03" 7] TaskManager.new) :=
  ⟨by decide, by decide, (searchTasks_spec "" _).2.2.2⟩

/-! ## Sorting records nothing -/

/-- C24: `sortByDeadline` leaves the undo history, the redo history and
`nextId` as they are.  An `undo()` right after it therefore pops the action
that was on top before the sort and applies it to the sorted collection: the
mutation recorded before the sort is reverted, the order of the sort is kept
for the other tasks. -/
theorem sortByDeadline_frame (s : TaskManager) :
    (sortByDeadline s).undoActions = s.undoActions ∧
    (sortByDeadline s).redoActions = s.redoActions ∧
    (sortByDeadline s).nextId = s.nextId ∧
    (∀ a rest, s.undoActions.items = a :: rest →
      getAllTasks (undo (sortByDeadline s)) =
        undoTasks a (getAllTasks (sortByDeadline s)) ∧
      (undo (sortByDeadline s)).undoActions.items = rest) := by
  refine ⟨rfl, rfl, rfl, ?_⟩
  intro a rest h
  have h2 : (sortByDeadline s).undoActions.items = a :: rest := h
  rw [undo_cons _ a rest h2]
  exact ⟨rfl, rfl⟩

/-- Task 1 with a late deadline, task 2 with an early one, a sort, then
`undo()`: the add of task 2 is reverted and task 1 remains. -/
theorem sortByDeadline_frame_witness :
    (sortByDeadline (run [.addTask "a" "" "2025-05-01" 3, .addTask "b" "" "2025-01-02" 4]
      TaskManager.new)).undoActions =
      (run [.addTask "a" "" "2025-05-01" 3, .addTask "b" "" "2025-01-02" 4]
        TaskManager.new).undoActions ∧
    getAllTasks (sortByDeadline (run [.addTask "a" "" "2025-05-01" 3,
      .addTask "b" "" "2025-01-02" 4] TaskManager.new)) =
      [⟨2, "b", "", "2025-01-02", 4, false⟩, ⟨1, "a", "", "2025-05-01", 3, false⟩] ∧
    getAllTasks (undo (sortByDeadline (run [.addTask "a" "" "2025-05-01" 3,
      .addTask "b" "" "2025-01-02" 4] TaskManager.new))) =
      [⟨1, "a", "", "2025-05-01", 3, false⟩] :=
  ⟨(sortByDeadline_frame _).1, by decide, by decide⟩

/-! ## The min-heap: `insert` and `extractMin` -/

theorem getD_set_self (l : List Task) (i : Nat) (a d : Task) (hi : i < l.length) :
    (l.set i a).getD i d = a := by
  simp [List.getD_eq_getElem?_getD, hi]

theorem getD_set_ne (l : List Task) (i k : Nat) (a d : Task) (hk : k ≠ i) :
    (l.set i a).getD k d = l.getD k d := by
  simp [List.getD_eq_getElem?_getD, List.getElem?_set_ne (Ne.symm hk)]

theorem length_swapAt (h : List Task) (i j : Nat) : (swapAt h i j).length = h.length := by
  simp [swapAt]

theorem getD_swapAt_left (h : List Task) (i j : Nat) (d : Task)
    (hi : i < h.length) (hj : j < h.length) :
    (swapAt h i j).getD i d = h.getD j d := by
  unfold swapAt
  by_cases hij : i = j
  · subst hij
    rw [getD_set_self _ _ _ _ (by simpa using hi)]
    simp [List.getD_eq_getElem?_getD, hi]
  · rw [getD_set_ne _ _ _ _ _ hij, getD_set_self _ _ _ _ hi]
    simp [List.getD_eq_getElem?_getD, hj]

theorem getD_swapAt_right (h : List Task) (i j : Nat) (d : Task)
    (hi : i < h.length) (hj : j < h.length) :
    (swapAt h i j).getD j d = h.getD i d := by
  unfold swapAt
  rw [getD_set_self _ _ _ _ (by simpa using hj)]
  simp [List.getD_eq_getElem?_getD, hi]

theorem getD_swapAt_other (h : List Task) (i j k : Nat) (d : Task)
    (hki : k ≠ i) (hkj : k ≠ j) :
    (swapAt h i j).getD k d = h.getD k d := by
  unfold swapAt
  rw [getD_set_ne _ _ _ _ _ hkj, getD_set_ne _ _ _ _ _ hki]

theorem priorityAt_swapAt_left (h : List Task) (i j : Nat)
    (hi : i < h.length) (hj : j < h.length) :
    priorityAt (swapAt h i j) i = priorityAt h j := by
  unfold priorityAt
  rw [getD_swapAt_left h i j _ hi hj]

theorem priorityAt_swapAt_right (h : List Task) (i j : Nat)
    (hi : i < h.length) (hj : j < h.length) :
    priorityAt (swapAt h i j) j = priorityAt h i := by
  unfold priorityAt
  rw [getD_swapAt_right h i j _ hi hj]

theorem priorityAt_swapAt_other (h : List Task) (i j k : Nat)
    (hki : k ≠ i) (hkj : k ≠ j) :
    priorityAt (swapAt h i j) k = priorityAt h k := by
  unfold priorityAt
  rw [getD_swapAt_other h i j k _ hki hkj]

theorem parent_lt (j : Nat) (hj : 0 < j) : MinHeap.parent j < j := by
  unfold MinHeap.parent
  omega

/-- The loop of `shiftUp` restores the heap property when the only edge that
may violate it is the one from `i` to its parent. -/
theorem shiftUpLoop_heap (fuel : Nat) (h : List Task) (i : Nat)
    (hi : i < h.length) (hf : i ≤ fuel)
    (hA : ∀ j, 0 < j → j < h.length → j ≠ i →
      priorityAt h (MinHeap.parent j) ≤ priorityAt h j)
    (hB : ∀ j, 0 < j → j < h.length → MinHeap.parent j = i → 0 < i →
      priorityAt h (MinHeap.parent i) ≤ priorityAt h j) :
    IsMinHeap (shiftUpLoop fuel h i) := by
  induction fuel generalizing h i with
  | zero =>
    have hi0 : i = 0 := by omega
    subst hi0
    intro j hj hlen
    exact hA j hj hlen (by omega)
  | succ fuel ih =>
    simp only [shiftUpLoop]
    split
    · rename_i hc
      obtain ⟨hpos, hgt⟩ := hc
      have hp := parent_lt i hpos
      have hpl : MinHeap.parent i < h.length := by omega
      apply ih
      · rw [length_swapAt]; exact hpl
      · omega
      · intro j hj hlen hjp
        rw [length_swapAt] at hlen
        by_cases hji : j = i
        · subst hji
          rw [priorityAt_swapAt_left h _ _ hi hpl, priorityAt_swapAt_right h _ _ hi hpl]
          omega
        · rw [priorityAt_swapAt_other h _ _ j hji hjp]
          by_cases hpi : MinHeap.parent j = i
          · rw [hpi, priorityAt_swapAt_left h _ _ hi hpl]
            exact hB j hj hlen hpi hpos
          · by_cases hpp : MinHeap.parent j = MinHeap.parent i
            · rw [hpp, priorityAt_swapAt_right h _ _ hi hpl]
              have := hA j hj hlen hji
              rw [hpp] at this
              omega
            · rw [priorityAt_swapAt_other h _ _ _ hpi hpp]
              exact hA j hj hlen hji
      · intro j hj hlen hjp hppos
        rw [length_swapAt] at hlen
        have hpp := parent_lt _ hppos
        have hjgt := parent_lt j hj
        rw [priorityAt_swapAt_other h _ _ _ (by omega) (by omega)]
        have h1 := hA _ hppos hpl (by omega)
        by_cases hji : j = i
        · subst hji
          rw [priorityAt_swapAt_left h _ _ hi hpl]
          exact h1
        · rw [priorityAt_swapAt_other h _ _ j hji (by omega)]
          have h2 := hA j hj hlen hji
          rw [hjp] at h2
          omega
    · rename_i hc
      intro j hj hlen
      by_cases hji : j = i
      · subst hji
        have : ¬ priorityAt h (MinHeap.parent j) > priorityAt h j := fun hgt => hc ⟨hj, hgt⟩
        omega
      · exact hA j hj hlen hji

theorem getD_append_left_lt (l : List Task) (t d : Task) (j : Nat) (hj : j < l.length) :
    (l ++ [t]).getD j d = l.getD j d := by
  simp [List.getD_eq_getElem?_getD, List.getElem?_append_left hj]

theorem shiftUpLoop_length (fuel : Nat) (h : List Task) (i : Nat) :
    (shiftUpLoop fuel h i).length = h.length := by
  induction fuel generalizing h i with
  | zero => rfl
  | succ fuel ih =>
    simp only [shiftUpLoop]
    split
    · rw [ih, length_swapAt]
    · rfl

/-- The heap property after `MinHeap::insert` on a heap with room. -/
theorem insert_heap (task : Task) (h : MinHeap) (hsize : h.size < MAX_SIZE)
    (hheap : IsMinHeap h.heap) : IsMinHeap (h.insert task).heap := by
  have hn : ¬ h.size ≥ MAX_SIZE := by omega
  simp only [MinHeap.insert, hn, if_false, shiftUp]
  apply shiftUpLoop_heap
  · simp [MinHeap.size]
  · exact Nat.le_refl _
  · intro j hj hlen hne
    simp only [List.length_append, List.length_singleton, MinHeap.size] at hlen hne
    have hjl : j < h.heap.length := by omega
    have hpl := parent_lt j hj
    unfold priorityAt
    rw [getD_append_left_lt _ _ _ _ hjl, getD_append_left_lt _ _ _ _ (by omega)]
    exact hheap j hj hjl
  · intro j hj hlen hpar _
    simp only [List.length_append, List.length_singleton, MinHeap.size] at hlen hpar
    have hpl := parent_lt j hj
    omega

/-- One step of `shiftDown`: after the swap of `i` with its smaller child `m`
the only edges that may violate the heap property are those from `m` to its
children. -/
theorem shiftDown_swap_inv (h : List Task) (i m : Nat)
    (hi : i < h.length) (hm : m < h.length) (hpar : MinHeap.parent m = i) (hmpos : 0 < m)
    (hlt : priorityAt h m < priorityAt h i)
    (hsib : ∀ j, 0 < j → j < h.length → MinHeap.parent j = i →
      priorityAt h m ≤ priorityAt h j)
    (hA : ∀ j, 0 < j → j < h.length → MinHeap.parent j ≠ i →
      priorityAt h (MinHeap.parent j) ≤ priorityAt h j)
    (hB : ∀ j, 0 < j → j < h.length → MinHeap.parent j = i → 0 < i →
      priorityAt h (MinHeap.parent i) ≤ priorityAt h j) :
    (∀ j, 0 < j → j < (swapAt h i m).length → MinHeap.parent j ≠ m →
      priorityAt (swapAt h i m) (MinHeap.parent j) ≤ priorityAt (swapAt h i m) j) ∧
    (∀ j, 0 < j → j < (swapAt h i m).length → MinHeap.parent j = m → 0 < m →
      priorityAt (swapAt h i m) (MinHeap.parent m) ≤ priorityAt (swapAt h i m) j) := by
  have him : i < m := by rw [← hpar]; exact parent_lt m hmpos
  constructor
  · intro j hj hlen hjm
    rw [length_swapAt] at hlen
    have hpj := parent_lt j hj
    by_cases hjeq : j = m
    · subst hjeq
      rw [hpar, priorityAt_swapAt_left h _ _ hi hm, priorityAt_swapAt_right h _ _ hi hm]
      omega
    · by_cases hji : j = i
      · subst hji
        have hipos : 0 < j := hj
        rw [priorityAt_swapAt_left h _ _ hi hm,
          priorityAt_swapAt_other h _ _ _ (by omega) (by omega)]
        exact hB m hmpos hm hpar hipos
      · rw [priorityAt_swapAt_other h _ _ j hji hjeq]
        by_cases hpi : MinHeap.parent j = i
        · rw [hpi, priorityAt_swapAt_left h _ _ hi hm]
          exact hsib j hj hlen hpi
        · rw [priorityAt_swapAt_other h _ _ _ hpi hjm]
          exact hA j hj hlen hpi
  · intro j hj hlen hjm _
    rw [length_swapAt] at hlen
    have hpj := parent_lt j hj
    rw [hpar, priorityAt_swapAt_left h _ _ hi hm,
      priorityAt_swapAt_other h _ _ j (by omega) (by omega)]
    have := hA j hj hlen (by omega)
    rw [hjm] at this
    exact this

theorem child_cases (i j : Nat) (hj : 0 < j) (hpar : MinHeap.parent j = i) :
    j = MinHeap.left i ∨ j = MinHeap.right i := by
  unfold MinHeap.parent at hpar
  unfold MinHeap.left MinHeap.right
  omega

theorem parent_left (i : Nat) : MinHeap.parent (MinHeap.left i) = i := by
  unfold MinHeap.parent MinHeap.left
  omega

theorem parent_right (i : Nat) : MinHeap.parent (MinHeap.right i) = i := by
  unfold MinHeap.parent MinHeap.right
  omega

/-- The recursion of `shiftDown` restores the heap property when the only
edges that may violate it are those from `i` to its children. -/
theorem shiftDownLoop_heap (fuel : Nat) (h : List Task) (i : Nat)
    (hf : h.length ≤ i + fuel)
    (hA : ∀ j, 0 < j → j < h.length → MinHeap.parent j ≠ i →
      priorityAt h (MinHeap.parent j) ≤ priorityAt h j)
    (hB : ∀ j, 0 < j → j < h.length → MinHeap.parent j = i → 0 < i →
      priorityAt h (MinHeap.parent i) ≤ priorityAt h j) :
    IsMinHeap (shiftDownLoop fuel h i) := by
  induction fuel generalizing h i with
  | zero =>
    intro j hj hlen
    have hpj := parent_lt j hj
    exact hA j hj hlen (by simp only [shiftDownLoop] at hlen; omega)
  | succ fuel ih =>
    have hl : MinHeap.left i = 2 * i + 1 := rfl
    have hr : MinHeap.right i = 2 * i + 2 := rfl
    simp only [shiftDownLoop]
    by_cases c1 : MinHeap.left i < h.length ∧
        priorityAt h (MinHeap.left i) < priorityAt h i
    · have hi : i < h.length := by omega
      simp only [c1, and_self, if_true]
      by_cases c2 : MinHeap.right i < h.length ∧
          priorityAt h (MinHeap.right i) < priorityAt h (MinHeap.left i)
      · simp only [c2, and_self, if_true]
        have hne : MinHeap.right i ≠ i := by omega
        simp only [hne, ne_eq, not_false_eq_true, if_true]
        obtain ⟨hA2, hB2⟩ := shiftDown_swap_inv h i (MinHeap.right i) hi c2.1
          (parent_right i) (by omega) (by omega)
          (by
            intro j hj hlen hpar
            rcases child_cases i j hj hpar with rfl | rfl
            · omega
            · exact Int.le_refl _) hA hB
        exact ih _ _ (by rw [length_swapAt]; omega) hA2 hB2
      · simp only [c2, if_false]
        have hne : MinHeap.left i ≠ i := by omega
        simp only [hne, ne_eq, not_false_eq_true, if_true]
        obtain ⟨hA2, hB2⟩ := shiftDown_swap_inv h i (MinHeap.left i) hi c1.1
          (parent_left i) (by omega) c1.2
          (by
            intro j hj hlen hpar
            rcases child_cases i j hj hpar with rfl | rfl
            · exact Int.le_refl _
            · have : ¬ priorityAt h (MinHeap.right i) < priorityAt h (MinHeap.left i) :=
                fun hlt => c2 ⟨hlen, hlt⟩
              omega) hA hB
        exact ih _ _ (by rw [length_swapAt]; omega) hA2 hB2
    · simp only [c1, if_false]
      by_cases c2 : MinHeap.right i < h.length ∧
          priorityAt h (MinHeap.right i) < priorityAt h i
      · have hi : i < h.length := by omega
        simp only [c2, and_self, if_true]
        have hne : MinHeap.right i ≠ i := by omega
        simp only [hne, ne_eq, not_false_eq_true, if_true]
        obtain ⟨hA2, hB2⟩ := shiftDown_swap_inv h i (MinHeap.right i) hi c2.1
          (parent_right i) (by omega) c2.2
          (by
            intro j hj hlen hpar
            rcases child_cases i j hj hpar with rfl | rfl
            · have : ¬ priorityAt h (MinHeap.left i) < priorityAt h i :=
                fun hlt => c1 ⟨hlen, hlt⟩
              omega
            · exact Int.le_refl _) hA hB
        exact ih _ _ (by rw [length_swapAt]; omega) hA2 hB2
      · simp only [c2, if_false, ne_eq, not_true_eq_false]
        intro j hj hlen
        by_cases hpar : MinHeap.parent j = i
        · rcases child_cases i j hj hpar with rfl | rfl
          · rw [hpar]
            have : ¬ priorityAt h (MinHeap.left i) < priorityAt h i :=
              fun hlt => c1 ⟨hlen, hlt⟩
            omega
          · rw [hpar]
            have : ¬ priorityAt h (MinHeap.right i) < priorityAt h i :=
              fun hlt => c2 ⟨hlen, hlt⟩
            omega
        · exact hA j hj hlen hpar

theorem shiftDownLoop_length (fuel : Nat) (h : List Task) (i : Nat) :
    (shiftDownLoop fuel h i).length = h.length := by
  induction fuel generalizing h i with
  | zero => rfl
  | succ fuel ih =>
    simp only [shiftDownLoop]
    split_ifs <;> first | rfl | rw [ih, length_swapAt]

theorem shiftDownLoop_perm (fuel : Nat) (h : List Task) (i : Nat) :
    List.Perm (shiftDownLoop fuel h i) h := by
  induction fuel generalizing h i with
  | zero => exact List.Perm.refl _
  | succ fuel ih =>
    have hl : MinHeap.left i = 2 * i + 1 := rfl
    have hr : MinHeap.right i = 2 * i + 2 := rfl
    simp only [shiftDownLoop]
    split_ifs <;>
      first
      | exact List.Perm.refl _
      | exact (ih _ _).trans (swapAt_perm h _ _ (by omega) (by omega))

/-- The recursion of shiftDown started at i ends within h.length - i
calls: more fuel changes nothing. -/
theorem shiftDownLoop_fuel (f g : Nat) (h : List Task) (i : Nat)
    (hf : h.length ≤ i + f) (hg : h.length ≤ i + g) :
    shiftDownLoop f h i = shiftDownLoop g h i := by
  induction f generalizing g h i with
  | zero =>
    cases g with
    | zero => rfl
    | succ g =>
      have hl : MinHeap.left i = 2 * i + 1 := rfl
      have hr : MinHeap.right i = 2 * i + 2 := rfl
      have c1 : ¬ (MinHeap.left i < h.length ∧
          priorityAt h (MinHeap.left i) < priorityAt h i) := by omega
      have c2 : ¬ (MinHeap.right i < h.length ∧
          priorityAt h (MinHeap.right i) < priorityAt h i) := by omega
      simp [shiftDownLoop, c1, c2]
  | succ f ih =>
    have hl : MinHeap.left i = 2 * i + 1 := rfl
    have hr : MinHeap.right i = 2 * i + 2 := rfl
    cases g with
    | zero =>
      have c1 : ¬ (MinHeap.left i < h.length ∧
          priorityAt h (MinHeap.left i) < priorityAt h i) := by omega
      have c2 : ¬ (MinHeap.right i < h.length ∧
          priorityAt h (MinHeap.right i) < priorityAt h i) := by omega
      simp [shiftDownLoop, c1, c2]
    | succ g =>
      simp only [shiftDownLoop]
      split_ifs <;>
        first
        | rfl
        | exact ih _ _ _ (by rw [length_swapAt]; omega) (by rw [length_swapAt]; omega)

theorem heap_root_le (h : List Task) (hheap : IsMinHeap h) (j : Nat) (hj : j < h.length) :
    priorityAt h 0 ≤ priorityAt h j := by
  induction j using Nat.strong_induction_on with
  | _ j ih =>
    by_cases hz : j = 0
    · subst hz; exact Int.le_refl _
    · have hpos : 0 < j := by omega
      have hp := parent_lt j hpos
      have h1 := hheap j hpos hj
      have h2 := ih _ hp (by omega)
      omega

/-- The array after `heap[0] = heap[size - 1]; size--`, for a heap written as
its elements but the last followed by the last. -/
theorem extract_moved (init : List Task) (last d : Task) :
    ((init ++ [last]).set 0 ((init ++ [last]).getD ((init ++ [last]).length - 1) d)).dropLast =
      match init with
      | [] => []
      | _ :: rest => last :: rest := by
  cases init with
  | nil => simp
  | cons x rest =>
    have hlast : ((x :: rest) ++ [last]).getD (((x :: rest) ++ [last]).length - 1) d = last := by
      have : ((x :: rest) ++ [last]).length - 1 = (x :: rest).length := by simp
      rw [this, List.getD_eq_getElem?_getD, List.getElem?_append_right (Nat.le_refl _)]
      simp
    rw [hlast]
    simp only [List.cons_append, List.set_cons_zero]
    rw [← List.cons_append, List.dropLast_concat]

/-- What `extractMin` does on a non-empty heap with the min-heap property: the
task returned is a smallest one, and what is left is a heap of the other
tasks. -/
theorem extractMin_nonempty (h : MinHeap) (hne : h.size ≠ 0) (hheap : IsMinHeap h.heap) :
    (∀ t ∈ h.heap, h.extractMin.1.priority ≤ t.priority) ∧
    IsMinHeap h.extractMin.2.heap ∧
    h.extractMin.2.size + 1 = h.size ∧
    List.Perm (h.extractMin.1 :: h.extractMin.2.heap) h.heap := by
  have hres : h.extractMin = (h.heap.getD 0 Task.default,
      ⟨shiftDown ((h.heap.set 0 (h.heap.getD (h.size - 1) Task.default)).dropLast) 0⟩) := by
    simp [MinHeap.extractMin, hne]
  rw [hres]
  simp only
  have hnil : h.heap ≠ [] := by
    intro hn
    apply hne
    simp [MinHeap.size, hn]
  obtain ⟨init, last, hdecomp⟩ : ∃ init last, h.heap = init ++ [last] :=
    ⟨h.heap.dropLast, h.heap.getLast hnil, (List.dropLast_append_getLast hnil).symm⟩
  refine ⟨?_, ?_, ?_, ?_⟩
  · intro t ht
    obtain ⟨j, hj, rfl⟩ := List.getElem_of_mem ht
    have := heap_root_le h.heap hheap j hj
    unfold priorityAt at this
    rw [List.getD_eq_getElem _ _ hj] at this
    exact this
  · unfold shiftDown
    apply shiftDownLoop_heap
    · omega
    · intro j hj hlen hpar
      have hpj := parent_lt j hj
      have hp0 : 0 < MinHeap.parent j := by omega
      simp only [MinHeap.size] at hlen ⊢
      rw [hdecomp] at hlen ⊢
      rw [extract_moved] at hlen ⊢
      cases init with
      | nil => simp at hlen
      | cons x rest =>
        simp only [List.length_cons] at hlen
        have h1 := hheap j hj (by rw [hdecomp]; simp; omega)
        rw [hdecomp] at h1
        unfold priorityAt at h1 ⊢
        obtain ⟨k, rfl⟩ : ∃ k, j = k + 1 := ⟨j - 1, by omega⟩
        obtain ⟨p, hp⟩ : ∃ p, MinHeap.parent (k + 1) = p + 1 :=
          ⟨MinHeap.parent (k + 1) - 1, by omega⟩
        rw [hp] at h1 ⊢
        simp only [List.cons_append, List.getD_cons_succ] at h1 ⊢
        have hk : k < rest.length := by omega
        have hpl : p < rest.length := by omega
        simp only [List.getD_eq_getElem?_getD, List.getElem?_append_left hk,
          List.getElem?_append_left hpl] at h1 ⊢
        exact h1
    · intro j hj hlen hpar h0
      omega
  · simp only [MinHeap.size, shiftDown, shiftDownLoop_length, List.length_dropLast,
      List.length_set]
    have : h.heap.length ≠ 0 := by simpa [MinHeap.size] using hne
    omega
  · unfold shiftDown
    refine ((shiftDownLoop_perm _ _ _).cons _).trans ?_
    simp only [MinHeap.size]
    rw [hdecomp, extract_moved]
    cases init with
    | nil => simp
    | cons x rest =>
      simp only [List.cons_append, List.getD_cons_zero]
      exact (List.perm_append_singleton last rest).symm.cons x

/-- C25: on a non-empty heap with the min-heap property, `extractMin` returns a
task whose priority is at most that of every task of the heap, and leaves a
heap that has the min-heap property, one element fewer, and the old tasks
less the returned one. -/
theorem extractMin_spec (h : MinHeap) (hne : h.size ≠ 0) (hheap : IsMinHeap h.heap) :
    (∀ t ∈ h.heap, h.extractMin.1.priority ≤ t.priority) ∧
    IsMinHeap h.extractMin.2.heap ∧
    h.extractMin.2.size + 1 = h.size ∧
    List.Perm (h.extractMin.1 :: h.extractMin.2.heap) h.heap :=
  extractMin_nonempty h hne hheap

theorem extractMin_spec_witness :
    (MinHeap.mk [⟨1, "a", "", "2025-01-01", 1, false⟩, ⟨2, "b", "", "2025-01-02", 5, false⟩,
        ⟨3, "c", "", "2025-01-03", 3, false⟩]).size ≠ 0 ∧
    IsMinHeap [⟨1, "a", "", "2025-01-01", 1, false⟩, ⟨2, "b", "", "2025-01-02", 5, false⟩,
        ⟨3, "c", "", "2025-01-03", 3, false⟩] ∧
    (MinHeap.mk [⟨1, "a", "", "2025-01-01", 1, false⟩, ⟨2, "b", "", "2025-01-02", 5, false⟩,
        ⟨3, "c", "", "2025-01-03", 3, false⟩]).extractMin =
      (⟨1, "a", "", "2025-01-01", 1, false⟩,
        ⟨[⟨3, "c", "", "2025-01-03", 3, false⟩, ⟨2, "b", "", "2025-01-02", 5, false⟩]⟩) ∧
    IsMinHeap (MinHeap.mk [⟨1, "a", "", "2025-01-01", 1, false⟩,
        ⟨2, "b", "", "2025-01-02", 5, false⟩,
        ⟨3, "c", "", "2025-01-03", 3, false⟩]).extractMin.2.heap :=
  have hheap : IsMinHeap [⟨1, "a", "", "2025-01-01", 1, false⟩,
      ⟨2, "b", "", "2025-01-02", 5, false⟩, ⟨3, "c", "", "2025-01-03", 3, false⟩] := by
    intro i h0 hlt
    simp only [List.length_cons, List.length_nil] at hlt
    interval_cases i <;> decide
  ⟨by decide, hheap, by decide, (extractMin_spec _ (by decide) hheap).2.1⟩

/-- C26: on a heap of fewer than 100 elements with the min-heap property,
`insert` yields a heap that has the min-heap property, exactly one more
element, and the old tasks plus the inserted one. -/
theorem insert_spec (task : Task) (h : MinHeap) (hsize : h.size < MAX_SIZE)
    (hheap : IsMinHeap h.heap) :
    IsMinHeap (h.insert task).heap ∧
    (h.insert task).size = h.size + 1 ∧
    List.Perm (h.insert task).heap (task :: h.heap) := by
  have hperm := insert_perm task h hsize
  refine ⟨insert_heap task h hsize hheap, ?_, ?_⟩
  · have := hperm.length_eq
    simpa [MinHeap.size] using this
  · exact hperm.trans (List.perm_append_singleton task h.heap)

theorem insert_spec_witness :
    (MinHeap.mk [⟨1, "a", "", "2025-01-01", 3, false⟩,
        ⟨2, "b", "", "2025-01-02", 5, false⟩]).size < MAX_SIZE ∧
    IsMinHeap [⟨1, "a", "", "2025-01-01", 3, false⟩, ⟨2, "b", "", "2025-01-02", 5, false⟩] ∧
    ((MinHeap.mk [⟨1, "a", "", "2025-01-01", 3, false⟩,
        ⟨2, "b", "", "2025-01-02", 5, false⟩]).insert
        ⟨3, "c", "", "2025-01-03", 1, false⟩).heap =
      [⟨3, "c", "", "2025-01-03", 1, false⟩, ⟨2, "b", "", "2025-01-02", 5, false⟩,
        ⟨1, "a", "", "2025-01-01", 3, false⟩] ∧
    IsMinHeap ((MinHeap.mk [⟨1, "a", "", "2025-01-01", 3, false⟩,
        ⟨2, "b", "", "2025-01-02", 5, false⟩]).insert
        ⟨3, "c", "", "2025-01-03", 1, false⟩).heap :=
  have hheap : IsMinHeap [⟨1, "a", "", "2025-01-01", 3, false⟩,
      ⟨2, "b", "", "2025-01-02", 5, false⟩] := by
    intro i h0 hlt
    simp only [List.length_cons, List.length_nil] at hlt
    interval_cases i
    decide
  ⟨by decide, hheap, by decide, (insert_spec _ _ (by decide) hheap).1⟩

/-! ## Dates: `addDays` and `isLessThan` -/

/-- C31: `addDays(n)` adds `n` to the day; a day above 30 loses 30, once, and
the month gains one; a month above 12 becomes 1 and the year gains one.
Nothing else changes. -/
theorem addDays_spec (d : Date) (n : Int) :
    d.addDays n =
      if d.day + n > 30 then
        (if d.month + 1 > 12 then ⟨d.year + 1, 1, d.day + n - 30⟩
         else ⟨d.year, d.month + 1, d.day + n - 30⟩)
      else
        (if d.month > 12 then ⟨d.year + 1, 1, d.day + n⟩
         else ⟨d.year, d.month, d.day + n⟩) := by
  unfold Date.addDays
  simp only
  split_ifs <;> rfl

/-- Example scenario 5 of the specification: the deadline 2025-01-30 plus one
day renders as 2025-02-01; and 45 days more than the 20th lose 30 only once. -/
theorem addDays_spec_witness :
    ((Date.parse "2025-01-30").addDays 1).toString = "2025-02-01" ∧
    (Date.mk 2025 1 30).addDays 1 = ⟨2025, 2, 1⟩ ∧
    (Date.mk 2025 12 20).addDays 45 = ⟨2026, 1, 35⟩ :=
  ⟨by decide, by rw [addDays_spec]; decide, by rw [addDays_spec]; decide⟩

/-- C32: `isLessThan` is the strict lexicographic order on year, month, day:
irreflexive, transitive, and of two dates exactly one is earlier unless they
have the same three fields. -/
theorem isLessThan_lex (a b c : Date) :
    (a.isLessThan b = true ↔
      a.year < b.year ∨ (a.year = b.year ∧ a.month < b.month) ∨
        (a.year = b.year ∧ a.month = b.month ∧ a.day < b.day)) ∧
    a.isLessThan a = false ∧
    (a.isLessThan b = true → b.isLessThan c = true → a.isLessThan c = true) ∧
    ((a.isLessThan b = true ∧ b.isLessThan a = false ∧
        ¬ (a.year = b.year ∧ a.month = b.month ∧ a.day = b.day)) ∨
      (a.isLessThan b = false ∧ b.isLessThan a = true ∧
        ¬ (a.year = b.year ∧ a.month = b.month ∧ a.day = b.day)) ∨
      (a.isLessThan b = false ∧ b.isLessThan a = false ∧
        (a.year = b.year ∧ a.month = b.month ∧ a.day = b.day))) := by
  have key : ∀ x y : Date, x.isLessThan y = true ↔
      x.year < y.year ∨ (x.year = y.year ∧ x.month < y.month) ∨
        (x.year = y.year ∧ x.month = y.month ∧ x.day < y.day) := by
    intro x y
    unfold Date.isLessThan
    split_ifs <;> simp only [decide_eq_true_eq] <;> omega
  have keyf : ∀ x y : Date, x.isLessThan y = false ↔
      ¬ (x.year < y.year ∨ (x.year = y.year ∧ x.month < y.month) ∨
        (x.year = y.year ∧ x.month = y.month ∧ x.day < y.day)) := by
    intro x y
    rw [← key x y]
    simp
  refine ⟨key a b, ?_, ?_, ?_⟩
  · rw [keyf]; omega
  · rw [key a b, key b c, key a c]; omega
  · rw [key a b, key b a, keyf a b, keyf b a]; omega

theorem isLessThan_lex_witness :
    (Date.mk 2025 1 30).isLessThan (Date.mk 2025 2 1) = true ∧
    (Date.mk 2025 2 1).isLessThan (Date.mk 2026 1 1) = true ∧
    (Date.mk 2025 1 30).isLessThan (Date.mk 2026 1 1) = true :=
  ⟨by decide, by decide,
    (isLessThan_lex (Date.mk 2025 1 30) (Date.mk 2025 2 1) (Date.mk 2026 1 1)).2.2.1
      (by decide) (by decide)⟩

/-- C38: from a date with month in 1..12 and day in 1..30, `addDays(n)` with
`n` in 1..30 gives a date with month in 1..12 and day in 1..30 that is later
than the date under `isLessThan`. -/
theorem addDays_in_range (d : Date) (n : Int)
    (hm : 1 ≤ d.month ∧ d.month ≤ 12) (hd : 1 ≤ d.day ∧ d.day ≤ 30)
    (hn : 1 ≤ n ∧ n ≤ 30) :
    (1 ≤ (d.addDays n).month ∧ (d.addDays n).month ≤ 12) ∧
    (1 ≤ (d.addDays n).day ∧ (d.addDays n).day ≤ 30) ∧
    d.isLessThan (d.addDays n) = true := by
  obtain ⟨y, m, dd⟩ := d
  simp only at hm hd
  unfold Date.addDays Date.isLessThan
  simp only
  split_ifs <;> dsimp only at * <;> simp only [decide_eq_true_eq] <;> omega

/-- The last day of the year: one day more is the first day of the next. -/
theorem addDays_in_range_witness :
    (Date.mk 2025 12 30).addDays 1 = ⟨2026, 1, 1⟩ ∧
    (Date.mk 2025 12 30).isLessThan ((Date.mk 2025 12 30).addDays 1) = true :=
  ⟨by decide,
    (addDays_in_range (Date.mk 2025 12 30) 1 (by decide) (by decide) (by decide)).2.2⟩

/-! ## Pending and completed tasks -/

/-- C37: `getPendingTasks` and `getCompletedTasks` keep the order of
`getAllTasks`; the first holds the tasks that are not completed, the second
those that are; a task of the collection is, each time it occurs, in exactly
one of the two. -/
theorem pending_completed_split (s : TaskManager) :
    List.Sublist (getPendingTasks s) (getAllTasks s) ∧
    List.Sublist (getCompletedTasks s) (getAllTasks s) ∧
    (∀ t, t ∈ getPendingTasks s ↔ t ∈ getAllTasks s ∧ t.completed = false) ∧
    (∀ t, t ∈ getCompletedTasks s ↔ t ∈ getAllTasks s ∧ t.completed = true) ∧
    (∀ t, (getPendingTasks s).count t + (getCompletedTasks s).count t =
      (getAllTasks s).count t) ∧
    (getPendingTasks s).length + (getCompletedTasks s).length = (getAllTasks s).length := by
  unfold getPendingTasks getCompletedTasks getAllTasks
  refine ⟨List.filter_sublist _, List.filter_sublist _, ?_, ?_, ?_, ?_⟩
  · intro t
    simp [List.mem_filter]
  · intro t
    simp [List.mem_filter]
  · intro t
    induction s.tasks with
    | nil => rfl
    | cons u us ih =>
      cases hc : u.completed <;> simp [List.filter_cons, hc, List.count_cons] <;> omega
  · induction s.tasks with
    | nil => rfl
    | cons u us ih =>
      cases hc : u.completed <;> simp [List.filter_cons, hc] <;> omega

theorem pending_completed_split_witness :
    getPendingTasks (run [.addTask "a" "" "2025-01-03" 5, .addTask "b" "" "2025-01-02" 1,
      .addTask "c" "" "2025-01-01" 3, .markTaskCompleted 2] TaskManager.new) =
      [⟨1, "a", "", "2025-01-03", 5, false⟩, ⟨3, "c", "", "2025-01-01", 3, false⟩] ∧
    getCompletedTasks (run [.addTask "a" "" "2025-01-03" 5, .addTask "b" "" "2025-01-02" 1,
      .addTask "c" "" "2025-01-01" 3, .markTaskCompleted 2] TaskManager.new) =
      [⟨2, "b", "", "2025-01-02", 1, true⟩] ∧
    (getPendingTasks (run [.addTask "a" "" "2025-01-03" 5, .addTask "b" "" "2025-01-02" 1,
      .addTask "c" "" "2025-01-01" 3, .markTaskCompleted 2] TaskManager.new)).length +
      (getCompletedTasks (run [.addTask "a" "" "2025-01-03" 5, .addTask "b" "" "2025-01-02" 1,
        .addTask "c" "" "2025-01-01" 3, .markTaskCompleted 2] TaskManager.new)).length =
      (getAllTasks (run [.addTask "a" "" "2025-01-03" 5, .addTask "b" "" "2025-01-02" 1,
        .addTask "c" "" "2025-01-01" 3, .markTaskCompleted 2] TaskManager.new)).length :=
  ⟨by decide, by decide, (pending_completed_split _).2.2.2.2.2⟩

/-! ## Dates: parsing and formatting -/

theorem digit_facts (c : Char) (h : c.isDigit = true) :
    isSpaceChar c = false ∧ c ≠ '-' ∧ c ≠ '+' ∧ (c != Char.ofNat 0) = true ∧
      c.toNat - 48 < 10 ∧ digitChar (c.toNat - 48) = c := by
  have hr : 48 ≤ c.toNat ∧ c.toNat ≤ 57 := by
    simp only [Char.isDigit, Bool.and_eq_true, decide_eq_true_eq] at h
    exact ⟨h.1, h.2⟩
  obtain ⟨n, hn⟩ : ∃ n, c.toNat = n := ⟨_, rfl⟩
  have hc : c = Char.ofNat n := by rw [← hn, Char.ofNat_toNat]
  rw [hn] at hr
  subst hc
  obtain ⟨h1, h2⟩ := hr
  interval_cases n <;> decide

theorem digitChar_isDigit (k : Nat) : (digitChar k).isDigit = true := by
  have h : k % 10 < 10 := Nat.mod_lt _ (by decide)
  unfold digitChar
  generalize k % 10 = m at h
  interval_cases m <;> decide

theorem digitChar_toNat (k : Nat) : (digitChar k).toNat - 48 = k % 10 := by
  have h : k % 10 < 10 := Nat.mod_lt _ (by decide)
  unfold digitChar
  generalize k % 10 = m at h
  interval_cases m <;> decide

theorem scanInt_digit (c : Char) (hc : c.isDigit = true) (cs : List Char) :
    scanInt (c :: cs) =
      match scanDigits (c :: cs) 0 0 with
      | (_, 0, _) => none
      | (v, _ + 1, r) => some ((v : Int), r) := by
  obtain ⟨hs, hm, hp, _, _, _⟩ := digit_facts c hc
  have hsign : (match c :: cs with
      | '-' :: r => (true, r)
      | '+' :: r => (false, r)
      | r => (false, r)) = (false, c :: cs) := by
    split
    · rename_i heq
      simp only [List.cons.injEq] at heq
      exact absurd heq.1 hm
    · rename_i heq
      simp only [List.cons.injEq] at heq
      exact absurd heq.1 hp
    · rfl
  unfold scanInt
  simp only [List.dropWhile, hs, hsign]
  split <;> simp

theorem scanInt_four (c1 c2 c3 c4 : Char) (h1 : c1.isDigit = true) (h2 : c2.isDigit = true)
    (h3 : c3.isDigit = true) (h4 : c4.isDigit = true) (r : List Char) :
    scanInt (c1 :: c2 :: c3 :: c4 :: '-' :: r) =
      some (((1000 * (c1.toNat - 48) + 100 * (c2.toNat - 48) + 10 * (c3.toNat - 48) +
        (c4.toNat - 48) : Nat) : Int), '-' :: r) := by
  rw [scanInt_digit c1 h1]
  have hd : Char.isDigit '-' = false := by decide
  simp only [scanDigits, h1, h2, h3, h4, hd, if_true, Bool.false_eq_true, if_false]
  congr 2
  omega

theorem scanInt_two (c1 c2 : Char) (h1 : c1.isDigit = true) (h2 : c2.isDigit = true)
    (r : List Char) (hr : r = [] ∨ ∃ r2, r = '-' :: r2) :
    scanInt (c1 :: c2 :: r) =
      some (((10 * (c1.toNat - 48) + (c2.toNat - 48) : Nat) : Int), r) := by
  rw [scanInt_digit c1 h1]
  have hd : Char.isDigit '-' = false := by decide
  rcases hr with rfl | ⟨r2, rfl⟩
  · simp only [scanDigits, h1, h2, if_true]
    congr 2
    omega
  · simp only [scanDigits, h1, h2, hd, if_true, Bool.false_eq_true, if_false]
    congr 2
    omega

/-- The three fields `sscanf` reads from a string of the shape `YYYY-MM-DD`. -/
theorem parse_shape (c1 c2 c3 c4 c5 c6 c7 c8 : Char)
    (h1 : c1.isDigit = true) (h2 : c2.isDigit = true) (h3 : c3.isDigit = true)
    (h4 : c4.isDigit = true) (h5 : c5.isDigit = true) (h6 : c6.isDigit = true)
    (h7 : c7.isDigit = true) (h8 : c8.isDigit = true) :
    Date.parse (String.mk [c1, c2, c3, c4, '-', c5, c6, '-', c7, c8]) =
      ⟨((1000 * (c1.toNat - 48) + 100 * (c2.toNat - 48) + 10 * (c3.toNat - 48) +
          (c4.toNat - 48) : Nat) : Int),
        ((10 * (c5.toNat - 48) + (c6.toNat - 48) : Nat) : Int),
        ((10 * (c7.toNat - 48) + (c8.toNat - 48) : Nat) : Int)⟩ := by
  have hz : ∀ c : Char, c.isDigit = true → (c != Char.ofNat 0) = true :=
    fun c hc => (digit_facts c hc).2.2.2.1
  have hdash : (('-' : Char) != Char.ofNat 0) = true := by decide
  have hc : cStr (String.mk [c1, c2, c3, c4, '-', c5, c6, '-', c7, c8]) =
      [c1, c2, c3, c4, '-', c5, c6, '-', c7, c8] := by
    simp only [cStr, String.toList, List.takeWhile, hz c1 h1, hz c2 h2, hz c3 h3, hz c4 h4,
      hz c5 h5, hz c6 h6, hz c7 h7, hz c8 h8, hdash]
  unfold Date.parse
  rw [hc, scanInt_four c1 c2 c3 c4 h1 h2 h3 h4]
  simp only [scanLit, if_true, Option.bind]
  rw [scanInt_two c5 c6 h5 h6 _ (Or.inr ⟨_, rfl⟩)]
  simp only [scanLit, if_true, Option.bind]
  rw [scanInt_two c7 c8 h7 h8 _ (Or.inl rfl)]

theorem digitsRev_succ (f n : Nat) :
    digitsRev (f + 1) n = digitChar n :: (if n / 10 = 0 then [] else digitsRev f (n / 10)) :=
  rfl

/-- A number below `10 ^ (f + 1)` has at most `f + 1` digits: more fuel
changes nothing. -/
theorem digitsRev_fuel (f g n : Nat) (hf : n < 10 ^ (f + 1)) (hg : n < 10 ^ (g + 1)) :
    digitsRev (f + 1) n = digitsRev (g + 1) n := by
  induction f generalizing g n with
  | zero =>
    have h0 : n / 10 = 0 := by
      simp only [zero_add, pow_one] at hf
      omega
    simp only [digitsRev, h0, if_true]
  | succ f ih =>
    rw [digitsRev_succ (f + 1), digitsRev_succ g]
    by_cases h0 : n / 10 = 0
    · simp only [h0, if_true]
    · simp only [h0, if_false]
      cases g with
      | zero =>
        simp only [zero_add, pow_one] at hg
        omega
      | succ g =>
        congr 1
        apply ih
        · rw [pow_succ] at hf
          omega
        · rw [pow_succ] at hg
          omega

theorem natDigits_eq (f n : Nat) (hf : n < 10 ^ (f + 1)) :
    natDigits n = (digitsRev (f + 1) n).reverse := by
  unfold natDigits
  rw [digitsRev_fuel n f n (Nat.lt_of_succ_lt (Nat.lt_pow_self (by decide) _)) hf]

theorem digitChar_zero (k : Nat) (h : k % 10 = 0) : digitChar k = '0' := by
  unfold digitChar
  rw [h]

theorem digitChar_congr (a b : Nat) (h : a % 10 = b % 10) : digitChar a = digitChar b := by
  unfold digitChar
  rw [h]

theorem fmtInt_four (n : Nat) (h : n < 10000) :
    fmtInt 4 (n : Int) =
      [digitChar (n / 1000), digitChar (n / 100), digitChar (n / 10), digitChar n] := by
  have hneg : ¬ ((n : Int) < 0) := by omega
  unfold fmtInt
  rw [if_neg hneg, Int.toNat_ofNat, natDigits_eq 3 n (by norm_num; exact h)]
  simp only [digitsRev]
  split_ifs with a b c d
  · simp only [List.reverse_cons, List.reverse_nil, List.nil_append, List.length_singleton]
    rw [digitChar_zero (n / 1000) (by omega), digitChar_zero (n / 100) (by omega),
      digitChar_zero (n / 10) (by omega)]
    rfl
  · simp only [List.reverse_cons, List.reverse_nil, List.nil_append, List.singleton_append,
      List.length_cons, List.length_nil]
    rw [digitChar_zero (n / 1000) (by omega), digitChar_zero (n / 100) (by omega)]
    rfl
  · simp only [List.reverse_cons, List.reverse_nil, List.nil_append, List.singleton_append,
      List.cons_append, List.length_cons, List.length_nil]
    rw [digitChar_zero (n / 1000) (by omega),
      digitChar_congr (n / 10 / 10) (n / 100) (by omega)]
    rfl
  · simp only [List.reverse_cons, List.reverse_nil, List.nil_append, List.singleton_append,
      List.cons_append, List.length_cons, List.length_nil]
    rw [digitChar_congr (n / 10 / 10 / 10) (n / 1000) (by omega),
      digitChar_congr (n / 10 / 10) (n / 100) (by omega)]
    rfl
  · omega

theorem fmtInt_two (n : Nat) (h : n < 100) :
    fmtInt 2 (n : Int) = [digitChar (n / 10), digitChar n] := by
  have hneg : ¬ ((n : Int) < 0) := by omega
  unfold fmtInt
  rw [if_neg hneg, Int.toNat_ofNat, natDigits_eq 1 n (by norm_num; exact h)]
  simp only [digitsRev]
  split_ifs with a b
  · simp only [List.reverse_cons, List.reverse_nil, List.nil_append, List.length_singleton]
    rw [digitChar_zero (n / 10) (by omega)]
    rfl
  · simp only [List.reverse_cons, List.reverse_nil, List.nil_append, List.singleton_append,
      List.length_cons, List.length_nil]
    rfl
  · omega


/-- C33: on the strings of the shape `YYYY-MM-DD` parsing and then formatting
gives the string back, and on the dates with a year in 0..9999 and month and
day in 0..99 formatting and then parsing gives the date back. -/
theorem date_roundtrip (s : String) (d : Date) (hs : Date.wellFormed s = true)
    (hd : (0 ≤ d.year ∧ d.year ≤ 9999) ∧ (0 ≤ d.month ∧ d.month ≤ 99) ∧
      (0 ≤ d.day ∧ d.day ≤ 99)) :
    (Date.parse s).toString = s ∧ Date.parse d.toString = d := by
  constructor
  · obtain ⟨l⟩ := s
    unfold Date.wellFormed at hs
    simp only [String.toList] at hs
    split at hs
    · rename_i y1 y2 y3 y4 s1 m1 m2 s2 d1 d2
      simp only [Bool.and_eq_true, beq_iff_eq] at hs
      obtain ⟨⟨⟨⟨⟨⟨⟨⟨⟨h1, h2⟩, h3⟩, h4⟩, rfl⟩, h5⟩, h6⟩, rfl⟩, h7⟩, h8⟩ := hs
      rw [parse_shape y1 y2 y3 y4 m1 m2 d1 d2 h1 h2 h3 h4 h5 h6 h7 h8]
      obtain ⟨_, _, _, _, b1, e1⟩ := digit_facts y1 h1
      obtain ⟨_, _, _, _, b2, e2⟩ := digit_facts y2 h2
      obtain ⟨_, _, _, _, b3, e3⟩ := digit_facts y3 h3
      obtain ⟨_, _, _, _, b4, e4⟩ := digit_facts y4 h4
      obtain ⟨_, _, _, _, b5, e5⟩ := digit_facts m1 h5
      obtain ⟨_, _, _, _, b6, e6⟩ := digit_facts m2 h6
      obtain ⟨_, _, _, _, b7, e7⟩ := digit_facts d1 h7
      obtain ⟨_, _, _, _, b8, e8⟩ := digit_facts d2 h8
      unfold Date.toString
      simp only
      rw [fmtInt_four _ (by omega), fmtInt_two _ (by omega), fmtInt_two _ (by omega)]
      rw [digitChar_congr _ (y1.toNat - 48) (by omega), e1,
        digitChar_congr _ (y2.toNat - 48) (by omega), e2,
        digitChar_congr _ (y3.toNat - 48) (by omega), e3,
        digitChar_congr (1000 * (y1.toNat - 48) + 100 * (y2.toNat - 48) +
          10 * (y3.toNat - 48) + (y4.toNat - 48)) (y4.toNat - 48) (by omega), e4,
        digitChar_congr _ (m1.toNat - 48) (by omega), e5,
        digitChar_congr (10 * (m1.toNat - 48) + (m2.toNat - 48)) (m2.toNat - 48) (by omega), e6,
        digitChar_congr _ (d1.toNat - 48) (by omega), e7,
        digitChar_congr (10 * (d1.toNat - 48) + (d2.toNat - 48)) (d2.toNat - 48) (by omega), e8]
      rfl
    · exact absurd hs (by decide)
  · obtain ⟨y, m, dd⟩ := d
    simp only at hd
    obtain ⟨⟨hy0, hy1⟩, ⟨hm0, hm1⟩, ⟨hd0, hd1⟩⟩ := hd
    obtain ⟨Y, rfl⟩ := Int.eq_ofNat_of_zero_le hy0
    obtain ⟨M, rfl⟩ := Int.eq_ofNat_of_zero_le hm0
    obtain ⟨D, rfl⟩ := Int.eq_ofNat_of_zero_le hd0
    unfold Date.toString
    simp only
    rw [fmtInt_four Y (by omega), fmtInt_two M (by omega), fmtInt_two D (by omega)]
    simp only [List.cons_append, List.nil_append]
    rw [parse_shape _ _ _ _ _ _ _ _ (digitChar_isDigit _) (digitChar_isDigit _)
      (digitChar_isDigit _) (digitChar_isDigit _) (digitChar_isDigit _) (digitChar_isDigit _)
      (digitChar_isDigit _) (digitChar_isDigit _)]
    simp only [digitChar_toNat]
    congr 1 <;> congr 1 <;> omega

theorem date_roundtrip_witness :
    Date.wellFormed "2025-01-30" = true ∧
    Date.parse "2025-01-30" = ⟨2025, 1, 30⟩ ∧
    (Date.mk 7 3 9).toString = "0007-03-09" ∧
    (Date.parse "2025-01-30").toString = "2025-01-30" ∧
    Date.parse (Date.mk 7 3 9).toString = ⟨7, 3, 9⟩ :=
  ⟨by decide, by decide, by decide,
    date_roundtrip "2025-01-30" (Date.mk 7 3 9) (by decide) (by decide)⟩

/-! ## The date validator of the graphical shell -/

theorem scanInt_four_end (c1 c2 c3 c4 : Char) (h1 : c1.isDigit = true) (h2 : c2.isDigit = true)
    (h3 : c3.isDigit = true) (h4 : c4.isDigit = true) :
    scanInt [c1, c2, c3, c4] =
      some (((1000 * (c1.toNat - 48) + 100 * (c2.toNat - 48) + 10 * (c3.toNat - 48) +
        (c4.toNat - 48) : Nat) : Int), []) := by
  rw [scanInt_digit c1 h1]
  simp only [scanDigits, h1, h2, h3, h4, if_true]
  congr 2
  omega

/-- On the strings of the shape `YYYY-MM-DD` the validator accepts exactly
those with a year from 2024 on, a month in 1..12 and a day in 1..31. -/
theorem isValidDate_of_wellFormed (s : String) (hs : Date.wellFormed s = true) :
    isValidDate s = true ↔
      2024 ≤ (Date.parse s).year ∧ (1 ≤ (Date.parse s).month ∧ (Date.parse s).month ≤ 12) ∧
        (1 ≤ (Date.parse s).day ∧ (Date.parse s).day ≤ 31) := by
  obtain ⟨l⟩ := s
  unfold Date.wellFormed at hs
  simp only [String.toList] at hs
  split at hs
  · rename_i y1 y2 y3 y4 s1 m1 m2 s2 d1 d2
    simp only [Bool.and_eq_true, beq_iff_eq] at hs
    obtain ⟨⟨⟨⟨⟨⟨⟨⟨⟨h1, h2⟩, h3⟩, h4⟩, rfl⟩, h5⟩, h6⟩, rfl⟩, h7⟩, h8⟩ := hs
    have hz : ∀ c : Char, c.isDigit = true → (c != Char.ofNat 0) = true :=
      fun c hc => (digit_facts c hc).2.2.2.1
    rw [parse_shape y1 y2 y3 y4 m1 m2 d1 d2 h1 h2 h3 h4 h5 h6 h7 h8]
    have hy : stoi [y1, y2, y3, y4] = some ((1000 * (y1.toNat - 48) + 100 * (y2.toNat - 48) +
        10 * (y3.toNat - 48) + (y4.toNat - 48) : Nat) : Int) := by
      simp only [stoi, List.takeWhile, hz y1 h1, hz y2 h2, hz y3 h3, hz y4 h4,
        scanInt_four_end y1 y2 y3 y4 h1 h2 h3 h4, Option.map]
    have hm : stoi [m1, m2] = some ((10 * (m1.toNat - 48) + (m2.toNat - 48) : Nat) : Int) := by
      simp only [stoi, List.takeWhile, hz m1 h5, hz m2 h6,
        scanInt_two m1 m2 h5 h6 [] (Or.inl rfl), Option.map]
    have hd : stoi [d1, d2] = some ((10 * (d1.toNat - 48) + (d2.toNat - 48) : Nat) : Int) := by
      simp only [stoi, List.takeWhile, hz d1 h7, hz d2 h8,
        scanInt_two d1 d2 h7 h8 [] (Or.inl rfl), Option.map]
    unfold isValidDate
    simp only [String.toList, substr, List.length_cons, List.length_nil, List.getD_cons_succ,
      List.getD_cons_zero, List.drop, List.take, hy, hm, hd]
    simp only [ne_eq, not_true_eq_false, or_self, if_false, Bool.and_eq_true, decide_eq_true_eq,
      ge_iff_le]
    tauto
  · exact absurd hs (by decide)

/-- C34, the failing input: the validator accepts `2024-1a-01`, which is not
of the shape `YYYY-MM-DD`: `stoi` reads the month 1 from `1a` and does not
look at the rest.  `Date(string)` then reads the year and the month and finds
no day. -/
theorem isValidDate_lenient :
    isValidDate "2024-1a-01" = true ∧ Date.wellFormed "2024-1a-01" = false ∧
    stoi [('1' : Char), 'a'] = some 1 ∧
    (scanLit '-' ['a', '-', '0', '1']).bind scanInt = none := by
  decide

/-! ## The console variant: undo of an edit -/

theorem editWalk_found (id : Int) (newTitle newDeadline : String) (tasks : List Cli.Task)
    (h : ∃ t ∈ tasks, t.id = id) :
    ∃ t ∈ tasks, t.id = id ∧
      (Cli.editWalk id newTitle newDeadline tasks).2 =
        some ⟨"edit", t, { t with title := newTitle, deadline := newDeadline }⟩ := by
  induction tasks with
  | nil =>
    obtain ⟨t, ht, _⟩ := h
    exact absurd ht (List.not_mem_nil t)
  | cons u us ih =>
    unfold Cli.editWalk
    by_cases hu : u.id = id
    · rw [if_pos hu]
      exact ⟨u, List.mem_cons_self _ _, hu, rfl⟩
    · rw [if_neg hu]
      obtain ⟨t, ht, hid⟩ := h
      rcases List.mem_cons.mp ht with rfl | ht2
      · exact absurd hid hu
      · obtain ⟨w, hw, hwid, hweq⟩ := ih ⟨t, ht2, hid⟩
        exact ⟨w, List.mem_cons_of_mem _ hw, hwid, hweq⟩

/-- In the console variant the undo of an `edit` action goes through
`TaskList::editTask`, which pushes an `edit` action of its own: the undo
stack comes out as long as it went in, with the reverse edit on top. -/
theorem performUndo_edit_records (s : Cli.State) (a : Cli.UndoAction)
    (rest : List Cli.UndoAction) (hu : s.undoActions.items = a :: rest)
    (hty : a.type ≠ "add") (hlen : s.undoActions.items.length ≤ MAX_SIZE)
    (hpresent : ∃ t ∈ s.list.tasks, t.id = a.after.id) :
    ∃ t ∈ s.list.tasks, t.id = a.after.id ∧
      (Cli.performUndo s).undoActions.items =
        ⟨"edit", t, { t with title := a.before.title, deadline := a.before.deadline }⟩ :: rest ∧
      (Cli.performUndo s).undoActions.items.length = s.undoActions.items.length := by
  obtain ⟨t, ht, hid, hw⟩ :=
    editWalk_found a.after.id a.before.title a.before.deadline s.list.tasks hpresent
  refine ⟨t, ht, hid, ?_⟩
  have hne : s.undoActions.isEmpty = false := by simp [Cli.Stack.isEmpty, hu]
  have hpop : s.undoActions.pop = (a, ⟨rest⟩) := by simp [Cli.Stack.pop, hu]
  have hfull : Cli.Stack.isFull ⟨rest⟩ = false := by
    rw [hu] at hlen
    simp only [List.length_cons] at hlen
    simp only [Cli.Stack.isFull, beq_eq_false_iff_ne]
    omega
  have hitems : (Cli.performUndo s).undoActions.items =
      ⟨"edit", t, { t with title := a.before.title, deadline := a.before.deadline }⟩ :: rest := by
    unfold Cli.performUndo
    simp only [hne, hpop, hty, if_false, Bool.false_eq_true]
    unfold Cli.editTask
    simp only [hw, Cli.Stack.push, hfull, if_false, Bool.false_eq_true]
  refine ⟨hitems, ?_⟩
  rw [hitems, hu]
  rfl

/-- C39, the failing input: task 1 is added with the title `old`, then edited
to `new`; the undo stack holds the edit above the add.  `performUndo` brings
the title and the deadline back and pushes the edit on the redo stack, but the
undo stack still holds two entries: on top the edit that `performUndo` itself
made through `editTask`. -/
theorem performUndo_edit_counts :
    (Cli.editTask 1 "new" "2025-02-02"
      ⟨⟨[⟨1, "old", "", 5, "2025-01-01", false⟩], 2⟩, ⟨[⟨1, "old", "", 5, "2025-01-01", false⟩]⟩,
        ⟨[⟨"add", Cli.Task.default, ⟨1, "old", "", 5, "2025-01-01", false⟩⟩]⟩, ⟨[]⟩⟩).undoActions.items =
      [⟨"edit", ⟨1, "old", "", 5, "2025-01-01", false⟩, ⟨1, "new", "", 5, "2025-02-02", false⟩⟩,
        ⟨"add", Cli.Task.default, ⟨1, "old", "", 5, "2025-01-01", false⟩⟩] ∧
    (Cli.performUndo (Cli.editTask 1 "new" "2025-02-02"
      ⟨⟨[⟨1, "old", "", 5, "2025-01-01", false⟩], 2⟩, ⟨[⟨1, "old", "", 5, "2025-01-01", false⟩]⟩,
        ⟨[⟨"add", Cli.Task.default, ⟨1, "old", "", 5, "2025-01-01", false⟩⟩]⟩, ⟨[]⟩⟩)).list.tasks =
      [⟨1, "old", "", 5, "2025-01-01", false⟩] ∧
    (Cli.performUndo (Cli.editTask 1 "new" "2025-02-02"
      ⟨⟨[⟨1, "old", "", 5, "2025-01-01", false⟩], 2⟩, ⟨[⟨1, "old", "", 5, "2025-01-01", false⟩]⟩,
        ⟨[⟨"add", Cli.Task.default, ⟨1, "old", "", 5, "2025-01-01", false⟩⟩]⟩, ⟨[]⟩⟩)).redoActions.items =
      [⟨"edit", ⟨1, "old", "", 5, "2025-01-01", false⟩,
        ⟨1, "new", "", 5, "2025-02-02", false⟩⟩] ∧
    (Cli.performUndo (Cli.editTask 1 "new" "2025-02-02"
      ⟨⟨[⟨1, "old", "", 5, "2025-01-01", false⟩], 2⟩, ⟨[⟨1, "old", "", 5, "2025-01-01", false⟩]⟩,
        ⟨[⟨"add", Cli.Task.default, ⟨1, "old", "", 5, "2025-01-01", false⟩⟩]⟩, ⟨[]⟩⟩)).undoActions.items =
      [⟨"edit", ⟨1, "new", "", 5, "2025-02-02", false⟩, ⟨1, "old", "", 5, "2025-01-01", false⟩⟩,
        ⟨"add", Cli.Task.default, ⟨1, "old", "", 5, "2025-01-01", false⟩⟩] := by
  decide

/-! ## Draining the heap -/

theorem extractMin_size (h : MinHeap) (hne : h.size ≠ 0) :
    h.extractMin.2.size + 1 = h.size := by
  have hres : h.extractMin = (h.heap.getD 0 Task.default,
      ⟨shiftDown ((h.heap.set 0 (h.heap.getD (h.size - 1) Task.default)).dropLast) 0⟩) := by
    simp [MinHeap.extractMin, hne]
  rw [hres]
  simp only [MinHeap.size, shiftDown, shiftDownLoop_length, List.length_dropLast,
    List.length_set]
  have : h.heap.length ≠ 0 := by simpa [MinHeap.size] using hne
  omega

/-- The loop of `display` on a heap of `size` tasks ends within `size` turns:
more fuel changes nothing. -/
theorem displayLoop_fuel (f g : Nat) (h : MinHeap) (hf : h.size ≤ f) (hg : h.size ≤ g) :
    displayLoop f h = displayLoop g h := by
  induction f generalizing g h with
  | zero =>
    have hz : h.size = 0 := by omega
    cases g with
    | zero => rfl
    | succ g => simp [displayLoop, MinHeap.isEmpty, hz]
  | succ f ih =>
    cases g with
    | zero =>
      have hz : h.size = 0 := by omega
      simp [displayLoop, MinHeap.isEmpty, hz]
    | succ g =>
      unfold displayLoop
      by_cases he : h.size = 0
      · simp [MinHeap.isEmpty, he]
      · have hs := extractMin_size h he
        simp only [MinHeap.isEmpty, beq_iff_eq, he, if_false]
        rw [ih g _ (by omega) (by omega)]

theorem displayLoop_drain (n : Nat) (h : MinHeap) (hn : h.size = n) :
    displayLoop n h = (drain n h).1.map displayLine := by
  induction n generalizing h with
  | zero => rfl
  | succ n ih =>
    have he : h.size ≠ 0 := by omega
    have hs := extractMin_size h he
    unfold displayLoop drain
    simp only [MinHeap.isEmpty, beq_iff_eq, he, if_false, List.map_cons]
    rw [ih _ (by omega)]

theorem drain_inv (n : Nat) (h : MinHeap) (hn : h.size = n) (hheap : IsMinHeap h.heap) :
    List.Perm (drain n h).1 h.heap ∧
    (drain n h).1.Pairwise (fun a b => a.priority ≤ b.priority) ∧
    (drain n h).2.size = 0 := by
  induction n generalizing h with
  | zero =>
    have hnil : h.heap = [] := List.length_eq_zero.mp hn
    simp only [drain, hnil]
    exact ⟨List.Perm.refl _, List.Pairwise.nil, hn⟩
  | succ n ih =>
    have he : h.size ≠ 0 := by omega
    obtain ⟨hmin, hheap2, hsize, hperm⟩ := extractMin_nonempty h he hheap
    obtain ⟨ihperm, ihsorted, ihsize⟩ := ih h.extractMin.2 (by omega) hheap2
    unfold drain
    refine ⟨(ihperm.cons _).trans hperm, ?_, ihsize⟩
    rw [List.pairwise_cons]
    refine ⟨?_, ihsorted⟩
    intro t ht
    exact hmin t (hperm.subset (List.mem_cons_of_mem _ (ihperm.subset ht)))

/-- C35: from a heap with the min-heap property, as many `extractMin` calls as
the heap has tasks return its tasks, each priority at most the next, and leave
the heap empty; `display` prints the lines of these tasks and leaves the heap
it is called on as it was. -/
theorem drain_sorted (h : MinHeap) (hheap : IsMinHeap h.heap) :
    List.Perm (drain h.size h).1 h.heap ∧
    (drain h.size h).1.Pairwise (fun a b => a.priority ≤ b.priority) ∧
    (drain h.size h).2.isEmpty = true ∧
    h.display = ((drain h.size h).1.map displayLine, h) := by
  obtain ⟨hperm, hsorted, hsize⟩ := drain_inv h.size h rfl hheap
  refine ⟨hperm, hsorted, ?_, ?_⟩
  · simp [MinHeap.isEmpty, hsize]
  · unfold MinHeap.display
    rw [displayLoop_drain h.size h rfl]

theorem drain_sorted_witness :
    IsMinHeap [⟨1, "a", "", "2025-01-01", 1, false⟩, ⟨2, "b", "", "2025-01-02", 5, false⟩,
        ⟨3, "c", "", "2025-01-03", 3, false⟩] ∧
    (drain 3 ⟨[⟨1, "a", "", "2025-01-01", 1, false⟩, ⟨2, "b", "", "2025-01-02", 5, false⟩,
        ⟨3, "c", "", "2025-01-03", 3, false⟩]⟩) =
      ([⟨1, "a", "", "2025-01-01", 1, false⟩, ⟨3, "c", "", "2025-01-03", 3, false⟩,
        ⟨2, "b", "", "2025-01-02", 5, false⟩], ⟨[]⟩) ∧
    (MinHeap.mk [⟨1, "a", "", "2025-01-01", 1, false⟩, ⟨2, "b", "", "2025-01-02", 5, false⟩,
        ⟨3, "c", "", "2025-01-03", 3, false⟩]).display.1 =
      ["- a (Priority: 1)", "- c (Priority: 3)", "- b (Priority: 5)"] ∧
    (drain 3 ⟨[⟨1, "a", "", "2025-01-01", 1, false⟩, ⟨2, "b", "", "2025-01-02", 5, false⟩,
        ⟨3, "c", "", "2025-01-03", 3, false⟩]⟩).1.Pairwise
      (fun a b => a.priority ≤ b.priority) :=
  have hheap : IsMinHeap [⟨1, "a", "", "2025-01-01", 1, false⟩,
      ⟨2, "b", "", "2025-01-02", 5, false⟩, ⟨3, "c", "", "2025-01-03", 3, false⟩] := by
    intro i h0 hlt
    simp only [List.length_cons, List.length_nil] at hlt
    interval_cases i <;> decide
  ⟨hheap, by decide, by decide, (drain_sorted ⟨_⟩ hheap).2.1⟩

/-! ## The heap after `syncDataStructures` -/

theorem isMinHeap_nil : IsMinHeap [] := by
  intro i _ hlt
  exact absurd hlt (Nat.not_lt_zero _)

theorem rebuild_fold_heap (tasks : List Task) (init : MinHeap) (hsize : init.size ≤ MAX_SIZE)
    (hheap : IsMinHeap init.heap) :
    IsMinHeap (tasks.foldl (fun h task => if !task.completed then h.insert task else h) init).heap ∧
    List.Perm
      (tasks.foldl (fun h task => if !task.completed then h.insert task else h) init).heap
      (init.heap ++ (tasks.filter (fun task => !task.completed)).take (MAX_SIZE - init.size)) := by
  induction tasks generalizing init with
  | nil => simpa using hheap
  | cons t ts ih =>
    simp only [List.foldl_cons]
    cases hc : t.completed with
    | true =>
      simp only [List.filter_cons, hc, Bool.not_true, Bool.false_eq_true, if_false]
      exact ih init hsize hheap
    | false =>
      simp only [List.filter_cons, hc, Bool.not_false, if_true]
      by_cases hfull : init.size < MAX_SIZE
      · have hperm := insert_perm t init hfull
        have hlen : (init.insert t).size = init.size + 1 := by
          have := hperm.length_eq
          simpa [MinHeap.size] using this
        obtain ⟨h1, h2⟩ := ih (init.insert t) (by omega) (insert_heap t init hfull hheap)
        refine ⟨h1, h2.trans ?_⟩
        rw [hlen]
        obtain ⟨k, hk⟩ : ∃ k, MAX_SIZE - init.size = k + 1 := ⟨MAX_SIZE - init.size - 1, by omega⟩
        have hk2 : MAX_SIZE - (init.size + 1) = k := by omega
        rw [hk, hk2, List.take_succ_cons]
        refine (hperm.append_right _).trans ?_
        simp
      · have hins : init.insert t = init := by
          have : init.size ≥ MAX_SIZE := by omega
          simp [MinHeap.insert, this]
        have hz : MAX_SIZE - init.size = 0 := by omega
        rw [hins]
        have := ih init hsize hheap
        rw [hz] at this ⊢
        simpa using this

/-- C36: after `syncDataStructures` the heap has the min-heap property and
holds the first 100 tasks of the collection that are not completed, all of
them when there are fewer; the tasks beyond are left out. -/
theorem sync_heap (s : TaskManager) :
    IsMinHeap (syncDataStructures s).heap.heap ∧
    List.Perm (syncDataStructures s).heap.heap
      ((getPendingTasks (syncDataStructures s)).take MAX_SIZE) ∧
    (syncDataStructures s).heap.size = min (getPendingTasks s).length MAX_SIZE := by
  have h := rebuild_fold_heap s.tasks MinHeap.empty (by simp [MinHeap.size, MinHeap.empty])
    isMinHeap_nil
  have h1 : IsMinHeap (rebuildHeap s.tasks).heap := h.1
  have h2 : List.Perm (rebuildHeap s.tasks).heap
      ((s.tasks.filter (fun task => !task.completed)).take MAX_SIZE) := by
    have h3 := h.2
    simp only [MinHeap.empty, MinHeap.size, List.length_nil, Nat.sub_zero,
      List.nil_append] at h3
    exact h3
  refine ⟨h1, h2, ?_⟩
  have := h2.length_eq
  rw [List.length_take, Nat.min_comm] at this
  exact this

/-- With 101 pending tasks the heap holds the first hundred. -/
theorem sync_heap_witness :
    (getPendingTasks
      (run (List.replicate 101 (Call.addTask "t" "" "2025-01-01" 5)) TaskManager.new)).length
        = 101 ∧
    (syncDataStructures
      (run (List.replicate 101 (Call.addTask "t" "" "2025-01-01" 5)) TaskManager.new)).heap.size
        = 100 := by
  have hlen := pending_after_adds 101 TaskManager.new
  have hp : (getPendingTasks TaskManager.new).length = 0 := rfl
  rw [hp] at hlen
  refine ⟨by simpa using hlen, ?_⟩
  rw [(sync_heap _).2.2, hlen]
  rfl

end ToDoApp
